import Mathlib

/-!
# Squared distance field (`src/df.h`)

A shallow embedding of `df` and `df_parabola` from `src/df.h`, and theorems about
what the transform computes.  The second entry point, `sdf` of `src/sdf.h`, is embedded
further down and shown to be the same transform.

Reading of the C types:

* `float` is `CFloat`: a rational number or one of the IEEE specials `+inf`, `-inf`,
  `NaN`; the specials follow the IEEE rules.  The two zeros of IEEE are one value: the
  code divides by zero only in `DF_INFINITY`, and comparisons do not tell them apart.
  The type has two arithmetics.  In `df` the operations `CFloat.add`, `CFloat.sub`,
  `CFloat.mul`, `CFloat.div` on finite values are exact (no rounding, no overflow to
  infinity): this is the transform with its arithmetic read as exact.  In `df32`,
  further down, every operation and every conversion from `int` is rounded to binary32
  (`round32`): this is the transform as the machine runs it.  The theorems say which
  of the two they are about.
* `int` loop counters and array indices are natural numbers (they are never negative
  in the code); the members of `df_point` and integer differences are integers.  The
  `int` products `x1*x1` and `x0*x0` of line 109 are 32 bits wide and wrap on overflow
  (`wrap32`), in both arithmetics.
* an array is a function from its index; `malloc` returns an array with arbitrary
  contents, passed to `df` as the parameter `heap`.
-/

namespace DF

/-- Values of the C type `float`: a finite value, as a rational number, or one of the
IEEE specials. -/
inductive CFloat where
  | fin : ℚ → CFloat
  | pinf : CFloat
  | ninf : CFloat
  | nan : CFloat
  deriving DecidableEq

namespace CFloat

/-- Conversion of a C `int` to `float`, exact (`ofInt32` is the rounded one). -/
def ofInt (k : ℤ) : CFloat := fin (k : ℚ)

/-- Sign of a value that is not `NaN`, as -1, 0 or 1. -/
def sgn : CFloat → ℤ
  | fin a => if 0 < a then 1 else if a < 0 then -1 else 0
  | pinf => 1
  | ninf => -1
  | nan => 0

/-- Unary minus. -/
def neg : CFloat → CFloat
  | fin a => fin (-a)
  | pinf => ninf
  | ninf => pinf
  | nan => nan

/-- Addition, exact on finite values (`add32` is the rounded one): `inf + (-inf)` is
`NaN`, an infinity absorbs a finite value. -/
def add : CFloat → CFloat → CFloat
  | fin a, fin b => fin (a + b)
  | nan, _ => nan
  | _, nan => nan
  | pinf, ninf => nan
  | ninf, pinf => nan
  | pinf, _ => pinf
  | _, pinf => pinf
  | ninf, _ => ninf
  | _, ninf => ninf

/-- Subtraction, exact on finite values (`sub32` is the rounded one). -/
def sub (a b : CFloat) : CFloat := add a (neg b)

/-- Multiplication, exact on finite values (`mul32` is the rounded one): `inf * 0` is
`NaN`, otherwise an infinity keeps the product's sign. -/
def mul : CFloat → CFloat → CFloat
  | fin a, fin b => fin (a * b)
  | nan, _ => nan
  | _, nan => nan
  | a, b =>
    if 0 < sgn a * sgn b then pinf
    else if sgn a * sgn b < 0 then ninf
    else nan

/-- Division, exact on finite values (`div32` is the rounded one): a nonzero finite value
over zero is an infinity, `0/0` and `inf/inf` are `NaN`. -/
def div : CFloat → CFloat → CFloat
  | fin a, fin b =>
    if b = 0 then (if 0 < a then pinf else if a < 0 then ninf else nan)
    else fin (a / b)
  | nan, _ => nan
  | _, nan => nan
  | fin _, _ => fin 0
  | pinf, fin b => if 0 ≤ b then pinf else ninf
  | ninf, fin b => if 0 ≤ b then ninf else pinf
  | _, _ => nan

/-- The comparison `a < b`; false whenever an operand is `NaN`. -/
def lt : CFloat → CFloat → Bool
  | fin a, fin b => decide (a < b)
  | fin _, pinf => true
  | ninf, fin _ => true
  | ninf, pinf => true
  | _, _ => false

/-- The comparison `a > b`. -/
def gt (a b : CFloat) : Bool := lt b a

/-- The comparison `a == b`; false whenever an operand is `NaN`. -/
def eq : CFloat → CFloat → Bool
  | fin a, fin b => decide (a = b)
  | pinf, pinf => true
  | ninf, ninf => true
  | _, _ => false

end CFloat

open CFloat

/-- The struct `df_point`. -/
structure df_point where
  x : ℤ
  y : ℤ
  deriving DecidableEq

/-- The macro `DF_INFINITY`, `1.0f/0.0f`. -/
def DF_INFINITY : CFloat := CFloat.div (fin 1) (fin 0)

/-- The function `df_parabola`, in exact arithmetic. -/
def df_parabola (x0 dy0 x : CFloat) : CFloat :=
  let dx0 := CFloat.sub x x0
  CFloat.add (CFloat.mul dx0 dx0) (CFloat.mul dy0 dy0)

/-- The caller's two arrays: `distances` and the optional `closest_points`
(`none` is the `NULL` pointer). -/
structure Field where
  distances : ℕ → CFloat
  closest_points : Option (ℕ → df_point)

/-- The four scratch arrays that `df` allocates. -/
structure Scratch where
  parabola_x : ℕ → ℕ
  x_intersections : ℕ → CFloat
  temp_row_distances : ℕ → CFloat
  temp_closest : ℕ → df_point

/-- Lines 44-52: every cell of `closest_points` is set to its own coordinates. -/
def init_closest (nx ny : ℕ) (closest_points : ℕ → df_point) : ℕ → df_point :=
  (List.range ny).foldl (fun cp y =>
    (List.range nx).foldl (fun cp x1 =>
      Function.update cp (x1 + y * nx) ⟨(x1 : ℤ), (y : ℤ)⟩) cp) closest_points

/-- Body of both column sweeps (lines 59-62 and 67-70): cell `i` takes the value of
cell `j` plus one, and its closest point, when that is smaller. -/
def relax (s : Field) (i j : ℕ) : Field :=
  if CFloat.gt (s.distances i) (CFloat.add (s.distances j) (fin 1)) then
    { distances := Function.update s.distances i (CFloat.add (s.distances j) (fin 1))
      closest_points := s.closest_points.map (fun cp => Function.update cp i (cp j)) }
  else s

/-- Lines 56-63: the downward sweep of column `x1`, `y = 1, ..., ny - 1`. -/
def sweep_down (nx ny x1 : ℕ) (s : Field) : Field :=
  (List.range' 1 (ny - 1)).foldl (fun s y => relax s (x1 + y * nx) (x1 + y * nx - nx)) s

/-- Lines 64-71: the upward sweep of column `x1`, `y = ny - 2, ..., 0`. -/
def sweep_up (nx ny x1 : ℕ) (s : Field) : Field :=
  (List.range (ny - 1)).reverse.foldl
    (fun s y => relax s (x1 + y * nx) (x1 + y * nx + nx)) s

/-- Lines 55-72: the column phase. -/
def column_phase (nx ny : ℕ) (s : Field) : Field :=
  (List.range nx).foldl (fun s x1 => sweep_up nx ny x1 (sweep_down nx ny x1 s)) s

/-- Lines 80-85: the search for the first finite cell of row `y`, started at `x1` with
`k` cells left; the result is the value of `x1` when the loop ends (`nx` when there is
no finite cell). -/
def seed_search (distances : ℕ → CFloat) (nx y : ℕ) : ℕ → ℕ → ℕ
  | 0, x1 => x1
  | k + 1, x1 =>
    if CFloat.lt (distances (x1 + y * nx)) DF_INFINITY then x1
    else seed_search distances nx y k (x1 + 1)

/-- The envelope stack: its top index `n` and the two arrays it lives in. -/
structure Stack where
  n : ℕ
  parabola_x : ℕ → ℕ
  x_intersections : ℕ → CFloat

/-- The value that an `int` computation leaves: 32 bits wide in two's complement, it
wraps on overflow (undefined behaviour in C; this is what the usual compilers produce). -/
def wrap32 (k : ℤ) : ℤ := (k + 2147483648) % 4294967296 - 2147483648

/-- Lines 107-112: the new parabola `(x1, dy1)` and its intersection with the parabola
at the top of the stack are pushed.  The products `x1*x1` and `x0*x0` are `int`
products. -/
def push (distances : ℕ → CFloat) (nx y x1 : ℕ) (dy1 : CFloat) (s : Stack) : Stack :=
  let x0 := s.parabola_x s.n
  let dy0 := distances (x0 + y * nx)
  { n := s.n + 1
    parabola_x := Function.update s.parabola_x (s.n + 1) x1
    x_intersections := Function.update s.x_intersections s.n
      (CFloat.mul (CFloat.div (fin (1 / 2)) (ofInt ((x1 : ℤ) - (x0 : ℤ))))
        (CFloat.sub
          (CFloat.sub (CFloat.add (ofInt (wrap32 ((x1 : ℤ) * (x1 : ℤ)))) (CFloat.mul dy1 dy1))
            (ofInt (wrap32 ((x0 : ℤ) * (x0 : ℤ))))) (CFloat.mul dy0 dy0))) }

/-- Lines 94-114: the `while (1)` loop, by recursion on the stack index `n`: the top
parabola is discarded while it lies above the new one at the last intersection, then
the new one is pushed. -/
def insert_parabola (distances : ℕ → CFloat) (nx y x1 : ℕ) (dy1 : CFloat)
    (parabola_x : ℕ → ℕ) (x_intersections : ℕ → CFloat) : ℕ → Stack
  | 0 => push distances nx y x1 dy1 ⟨0, parabola_x, x_intersections⟩
  | n + 1 =>
    let x0 := parabola_x (n + 1)
    let dy0 := distances (x0 + y * nx)
    if CFloat.gt (df_parabola (ofInt x0) dy0 (x_intersections n))
        (df_parabola (ofInt x1) dy1 (x_intersections n)) then
      insert_parabola distances nx y x1 dy1 parabola_x x_intersections n
    else push distances nx y x1 dy1 ⟨n + 1, parabola_x, x_intersections⟩

/-- Lines 87-115: envelope construction over the cells `x1 = first + 1, ..., nx - 1`,
where `first` is the value of `x1` after the seed search. -/
def build_envelope (distances : ℕ → CFloat) (nx y first : ℕ) (s : Stack) : Stack :=
  (List.range' (first + 1) (nx - (first + 1))).foldl (fun s x1 =>
    let dy1 := distances (x1 + y * nx)
    if CFloat.eq dy1 DF_INFINITY then s
    else insert_parabola distances nx y x1 dy1 s.parabola_x s.x_intersections s.n) s

/-- Line 122: `while (n > 0 && x1 < x_intersections[n - 1]) n--;`. -/
def next_parabola (x_intersections : ℕ → CFloat) (x1 : ℕ) : ℕ → ℕ
  | 0 => 0
  | n + 1 =>
    if CFloat.lt (ofInt x1) (x_intersections n) then next_parabola x_intersections x1 n
    else n + 1

/-- State of the evaluation loop: the stack index and the two row buffers. -/
structure Fill where
  n : ℕ
  temp_row_distances : ℕ → CFloat
  temp_closest : ℕ → df_point

/-- Lines 119-129: the body of the evaluation loop at `x1`. -/
def fill_step (s : Field) (nx y : ℕ) (parabola_x : ℕ → ℕ) (x_intersections : ℕ → CFloat)
    (f : Fill) (x1 : ℕ) : Fill :=
  let n := next_parabola x_intersections x1 f.n
  let x0 := parabola_x n
  let i := x0 + y * nx
  let dy0 := s.distances i
  { n := n
    temp_row_distances :=
      Function.update f.temp_row_distances x1 (df_parabola (ofInt x0) dy0 (ofInt x1))
    temp_closest :=
      match s.closest_points with
      | some cp => Function.update f.temp_closest x1 (cp i)
      | none => f.temp_closest }

/-- Lines 118-130: the evaluation loop, `x1 = nx - 1, ..., 0`. -/
def fill_row (s : Field) (nx y : ℕ) (parabola_x : ℕ → ℕ) (x_intersections : ℕ → CFloat)
    (f : Fill) : Fill :=
  (List.range nx).reverse.foldl (fill_step s nx y parabola_x x_intersections) f

/-- Lines 133-137: the row buffers are copied back into row `y`. -/
def copy_back (nx y : ℕ) (temp_row_distances : ℕ → CFloat) (temp_closest : ℕ → df_point)
    (s : Field) : Field :=
  (List.range nx).foldl (fun s x1 =>
    { distances := Function.update s.distances (x1 + y * nx) (temp_row_distances x1)
      closest_points :=
        s.closest_points.map (fun cp => Function.update cp (x1 + y * nx) (temp_closest x1)) })
    s

/-- Lines 76-137: the body of the row loop for row `y`. -/
def row_step (nx : ℕ) (st : Field × Scratch) (y : ℕ) : Field × Scratch :=
  let s := st.1
  let m := st.2
  let first := seed_search s.distances nx y nx 0
  let parabola_x := Function.update m.parabola_x 0 (if first < nx then first else 0)
  let e := build_envelope s.distances nx y first ⟨0, parabola_x, m.x_intersections⟩
  let f := fill_row s nx y e.parabola_x e.x_intersections
    ⟨e.n, m.temp_row_distances, m.temp_closest⟩
  (copy_back nx y f.temp_row_distances f.temp_closest s,
    ⟨e.parabola_x, e.x_intersections, f.temp_row_distances, f.temp_closest⟩)

/-- Lines 75-138: the row phase. -/
def row_phase (nx ny : ℕ) (st : Field × Scratch) : Field × Scratch :=
  (List.range ny).foldl (row_step nx) st

/-- The function `df`, in exact arithmetic; `heap` is the contents of the freshly
allocated scratch arrays. -/
def df (heap : Scratch) (distances : ℕ → CFloat) (nx ny : ℕ)
    (closest_points : Option (ℕ → df_point)) : Field :=
  let s : Field := ⟨distances, closest_points.map (init_closest nx ny)⟩
  (row_phase nx ny (column_phase nx ny s, heap)).1

/-! ## Definitions used by the proofs -/

/-- A value that is finite or `+inf`: what the cells of a well-formed grid hold. -/
def Ext (v : CFloat) : Prop := v = pinf ∨ ∃ q : ℚ, v = fin q

/-- The optional closest point of cell `i`. -/
def cpAt (s : Field) (i : ℕ) : Option df_point := s.closest_points.map (fun cp => cp i)

/-- A column sweep seen as a chain of cells `p 0, p 1, ...`: cell `p (k + 1)` is relaxed
against cell `p k`, for `k = 0, ..., m - 1`. -/
def chain (p : ℕ → ℕ) : ℕ → Field → Field
  | 0, s => s
  | m + 1, s => relax (chain p m s) (p (m + 1)) (p m)

/-- What a chain leaves in its cell `k`, value `v` and closest point `c`: the least
`s (p j) + (k - j)` over the cells `j ≤ k`, and the closest point of that cell. -/
def ChainOut (s : Field) (p : ℕ → ℕ) (k : ℕ) (v : CFloat) (c : Option df_point) : Prop :=
  (v = pinf ∧ c = cpAt s (p k) ∧ ∀ j ≤ k, s.distances (p j) = pinf) ∨
  ∃ j ≤ k, ∃ q : ℚ, s.distances (p j) = fin q ∧ v = fin (q + ((k : ℚ) - j)) ∧
    c = cpAt s (p j) ∧
    ∀ j' ≤ k, ∀ q' : ℚ, s.distances (p j') = fin q' → q + ((k : ℚ) - j) ≤ q' + ((k : ℚ) - j')

/-- What the two sweeps of column `x` leave in row `y`, value `v` and closest point `c`:
the least `s0 (x, y0) + |y - y0|` over the rows `y0`, and the closest point of that
cell. -/
def ColOut (s0 : Field) (nx ny x y : ℕ) (v : CFloat) (c : Option df_point) : Prop :=
  (v = pinf ∧ c = cpAt s0 (x + y * nx) ∧ ∀ y0 < ny, s0.distances (x + y0 * nx) = pinf) ∨
  ∃ y0 < ny, ∃ q : ℚ, s0.distances (x + y0 * nx) = fin q ∧ v = fin (q + |(y : ℚ) - y0|) ∧
    c = cpAt s0 (x + y0 * nx) ∧
    ∀ y0' < ny, ∀ q' : ℚ, s0.distances (x + y0' * nx) = fin q' →
      q + |(y : ℚ) - y0| ≤ q' + |(y : ℚ) - y0'|

/-- The rational value of a finite `float` (0 for the specials). -/
def fval : CFloat → ℚ
  | fin q => q
  | _ => 0

/-- The parabola of cell `j` of row `y` at the point `t`: `df_parabola` on finite
values. -/
def par (d : ℕ → CFloat) (nx y j : ℕ) (t : ℚ) : ℚ :=
  (t - j) * (t - j) + fval (d (j + y * nx)) * fval (d (j + y * nx))

/-- The intersection of the parabolas of the cells `i` and `j` of row `y`, as line 108
computes it. -/
def isect (d : ℕ → CFloat) (nx y i j : ℕ) : ℚ :=
  1 / 2 / ((j : ℚ) - i) *
    ((j : ℚ) * j + fval (d (j + y * nx)) * fval (d (j + y * nx)) - (i : ℚ) * i -
      fval (d (i + y * nx)) * fval (d (i + y * nx)))

/-- The stack `parabola_x[0..n]`, `x_intersections[0..n-1]` is well formed over the cells
before `b`: its apexes are finite cells in increasing order, each boundary is the
intersection of two consecutive parabolas, and the boundaries do not decrease. -/
structure EnvInv (d : ℕ → CFloat) (nx y b n : ℕ) (px : ℕ → ℕ) (xi : ℕ → CFloat) : Prop where
  lt_bound : ∀ k ≤ n, px k < b
  finite : ∀ k ≤ n, ∃ q : ℚ, d (px k + y * nx) = fin q
  incr : ∀ k < n, px k < px (k + 1)
  isect_eq : ∀ k < n, xi k = fin (isect d nx y (px k) (px (k + 1)))
  mono : ∀ k, k + 1 < n →
    isect d nx y (px k) (px (k + 1)) ≤ isect d nx y (px (k + 1)) (px (k + 2))

/-- Every finite cell before `b` lies, at every point, on or above some parabola of the
stack. -/
def Dom (d : ℕ → CFloat) (nx y b n : ℕ) (px : ℕ → ℕ) : Prop :=
  ∀ j < b, (∃ q : ℚ, d (j + y * nx) = fin q) → ∀ t : ℚ,
    ∃ k ≤ n, par d nx y (px k) t ≤ par d nx y j t

/-- What the row phase leaves in cell `x` of row `y`, value `v` and closest point `c`:
the least `(x - x0)^2 + s (x0, y)^2` over the finite cells `x0` of the row, and the
closest point of that cell. -/
def RowOut (s : Field) (nx y x : ℕ) (v : CFloat) (c : Option df_point) : Prop :=
  (v = pinf ∧ ∀ x0 < nx, s.distances (x0 + y * nx) = pinf) ∨
  ∃ x0 < nx, ∃ q : ℚ, s.distances (x0 + y * nx) = fin q ∧
    v = fin (((x : ℚ) - x0) * ((x : ℚ) - x0) + q * q) ∧ c = cpAt s (x0 + y * nx) ∧
    ∀ x0' < nx, ∀ q' : ℚ, s.distances (x0' + y * nx) = fin q' →
      ((x : ℚ) - x0) * ((x : ℚ) - x0) + q * q ≤ ((x : ℚ) - x0') * ((x : ℚ) - x0') + q' * q'

/-- The value that the finite cell `(x0, y0)` holding `q` offers to the cell `(x, y)`:
the squared horizontal offset plus the square of `q` plus the vertical offset. -/
def offer (x y x0 y0 : ℕ) (q : ℚ) : ℚ :=
  ((x : ℚ) - x0) ^ 2 + (q + |(y : ℚ) - y0|) ^ 2

/-- The test that a value is `+inf` or a non-negative finite value. -/
def nonnegOrInf : CFloat → Bool
  | fin q => decide (0 ≤ q)
  | pinf => true
  | _ => false

/-- A well-formed input grid: every cell is `+inf` or a non-negative finite value. -/
def Valid (d : ℕ → CFloat) (nx ny : ℕ) : Prop :=
  ∀ x < nx, ∀ y < ny, nonnegOrInf (d (x + y * nx)) = true

/-- Well-formedness of a grid can be decided cell by cell. -/
instance instDecidableValid (d : ℕ → CFloat) (nx ny : ℕ) : Decidable (Valid d nx ny) :=
  inferInstanceAs (Decidable (∀ x < nx, ∀ y < ny, nonnegOrInf (d (x + y * nx)) = true))

/-- What `df` leaves in the cell `(x, y)`, value `v` and closest point `c`, for the input
grid `d`: `+inf` when the grid has no finite cell, otherwise the least offer of a finite
cell, and that cell as the closest point. -/
def DfOut (d : ℕ → CFloat) (nx ny : ℕ) (closest_points : Option (ℕ → df_point))
    (x y : ℕ) (v : CFloat) (c : Option df_point) : Prop :=
  (v = pinf ∧ ∀ x0 < nx, ∀ y0 < ny, d (x0 + y0 * nx) = pinf) ∨
  ∃ x0 < nx, ∃ y0 < ny, ∃ q : ℚ, d (x0 + y0 * nx) = fin q ∧ v = fin (offer x y x0 y0 q) ∧
    c = closest_points.map (fun _ => (⟨(x0 : ℤ), (y0 : ℤ)⟩ : df_point)) ∧
    ∀ x0' < nx, ∀ y0' < ny, ∀ q' : ℚ, d (x0' + y0' * nx) = fin q' →
      offer x y x0 y0 q ≤ offer x y x0' y0' q'

/-- The apexes `parabola_x[0..n]` are finite cells before `b`, in increasing order.  This
part of the stack does not depend on what line 108 writes to `x_intersections`. -/
structure ApexInv (d : ℕ → CFloat) (nx y b n : ℕ) (px : ℕ → ℕ) : Prop where
  lt_bound : ∀ k ≤ n, px k < b
  finite : ∀ k ≤ n, ∃ q : ℚ, d (px k + y * nx) = fin q
  incr : ∀ k < n, px k < px (k + 1)

/-- The form of what the row phase leaves in cell `x` of row `y`, value `v` and closest
point `c`: `+inf` when the row has no finite cell, otherwise `(x - x0)^2 + s (x0, y)^2` for
a finite cell `x0` of the row, and the closest point of that cell. -/
def RowShape (s : Field) (nx y x : ℕ) (v : CFloat) (c : Option df_point) : Prop :=
  (v = pinf ∧ ∀ x0 < nx, s.distances (x0 + y * nx) = pinf) ∨
  ∃ x0 < nx, ∃ q : ℚ, s.distances (x0 + y * nx) = fin q ∧
    v = fin (((x : ℚ) - x0) * ((x : ℚ) - x0) + q * q) ∧ c = cpAt s (x0 + y * nx)

/-- The form of what `df` leaves in the cell `(x, y)`, value `v` and closest point `c`:
`+inf` when the grid has no finite cell, otherwise the offer of a finite cell, and that
cell as the closest point. -/
def DfShape (d : ℕ → CFloat) (nx ny : ℕ) (closest_points : Option (ℕ → df_point))
    (x y : ℕ) (v : CFloat) (c : Option df_point) : Prop :=
  (v = pinf ∧ ∀ x0 < nx, ∀ y0 < ny, d (x0 + y0 * nx) = pinf) ∨
  ∃ x0 < nx, ∃ y0 < ny, ∃ q : ℚ, d (x0 + y0 * nx) = fin q ∧ v = fin (offer x y x0 y0 q) ∧
    c = closest_points.map (fun _ => (⟨(x0 : ℤ), (y0 : ℤ)⟩ : df_point))

/-! ## Concrete grids -/

/-- Contents of the scratch arrays used in the examples. -/
def heap0 : Scratch := ⟨fun _ => 0, fun _ => fin 0, fun _ => fin 0, fun _ => ⟨0, 0⟩⟩

/-- Contents of the closest-point array that the examples pass in. -/
def cp0 : ℕ → df_point := fun _ => ⟨0, 0⟩

/-- The 5x5 grid with the seeds `(0, 0)` and `(4, 4)`, both holding 0. -/
def grid5 : ℕ → CFloat := fun i => if i = 0 ∨ i = 24 then fin 0 else pinf

/-- The 3x1 grid `[0, +inf, +inf]`. -/
def grid3 : ℕ → CFloat := fun i => if i = 0 then fin 0 else pinf

/-- A 3x2 grid: cell `(1, 0)` holds 1, cell `(0, 1)` holds 0, the others `+inf`. -/
def gridA : ℕ → CFloat := fun i => if i = 1 then fin 1 else if i = 3 then fin 0 else pinf

/-- The grid `gridA` rotated by 180 degrees: cell `(1, 1)` holds 1, cell `(2, 0)` holds 0. -/
def gridB : ℕ → CFloat := fun i => if i = 4 then fin 1 else if i = 2 then fin 0 else pinf

/-- A 2x2 grid whose cells are all `+inf`. -/
def gridInf : ℕ → CFloat := fun _ => pinf

/-- The 46342x1 grid that holds 0 in its first and in its last cell and `+inf` in the
others.  The `int` product `46341 * 46341 = 2147488281` exceeds `INT_MAX = 2147483647`. -/
def gridW : ℕ → CFloat := fun i => if i = 0 ∨ i = 46341 then fin 0 else pinf

/-! ## The envelope stack of a row -/

/-- Lines 76-115 for row `y`: the stack that the seed search and the envelope
construction leave, started from the scratch arrays `m`; `row_step` evaluates this
stack. -/
def row_envelope (s : Field) (nx y : ℕ) (m : Scratch) : Stack :=
  build_envelope s.distances nx y (seed_search s.distances nx y nx 0)
    ⟨0, Function.update m.parabola_x 0
      (if seed_search s.distances nx y nx 0 < nx then seed_search s.distances nx y nx 0 else 0),
      m.x_intersections⟩

/-- The relation between two states of the row loop that agree on everything but the
closest points. -/
def DistEq (st st2 : Field × Scratch) : Prop :=
  st.1.distances = st2.1.distances ∧ st.2.parabola_x = st2.2.parabola_x ∧
    st.2.x_intersections = st2.2.x_intersections ∧
    st.2.temp_row_distances = st2.2.temp_row_distances


/-- Two envelope stacks have the same live part: the same index `n`, the same apexes
`parabola_x[0..n]` and the same boundaries `x_intersections[0..n-1]`. -/
def StackAgree (a b : Stack) : Prop :=
  a.n = b.n ∧ (∀ k ≤ a.n, a.parabola_x k = b.parabola_x k) ∧
    ∀ k < a.n, a.x_intersections k = b.x_intersections k

/-! ## The array accesses of the row phase -/

/-- The struct `sdf_point`. -/
structure sdf_point where
  x : ℤ
  y : ℤ
  deriving DecidableEq

/-- The macro `SDF_INFINITY`, `1.0f/0.0f`. -/
def SDF_INFINITY : CFloat := CFloat.div (fin 1) (fin 0)

/-- The function `sdf_parabola_y`. -/
def sdf_parabola_y (x0 dy0 x : CFloat) : CFloat :=
  let dx0 := CFloat.sub x x0
  CFloat.add (CFloat.mul dx0 dx0) (CFloat.mul dy0 dy0)

/-- The two arrays of the caller of `sdf`: `distances` and the optional
`closest_points`. -/
structure SdfField where
  distances : ℕ → CFloat
  closest_points : Option (ℕ → sdf_point)

/-- The four scratch arrays that `sdf` allocates. -/
structure SdfScratch where
  parabola_x : ℕ → ℕ
  x_intersections : ℕ → CFloat
  temp_row_distances : ℕ → CFloat
  temp_closest : ℕ → sdf_point

/-- Lines 44-52 of `src/sdf.h`: every cell of `closest_points` is set to its own
coordinates. -/
def sdf_init_closest (nx ny : ℕ) (closest_points : ℕ → sdf_point) : ℕ → sdf_point :=
  (List.range ny).foldl (fun cp y =>
    (List.range nx).foldl (fun cp x1 =>
      Function.update cp (x1 + y * nx) ⟨(x1 : ℤ), (y : ℤ)⟩) cp) closest_points

/-- Lines 59-62 and 67-70 of `src/sdf.h`: the body of the two column sweeps. -/
def sdf_relax (s : SdfField) (i j : ℕ) : SdfField :=
  if CFloat.gt (s.distances i) (CFloat.add (s.distances j) (fin 1)) then
    { distances := Function.update s.distances i (CFloat.add (s.distances j) (fin 1))
      closest_points := s.closest_points.map (fun cp => Function.update cp i (cp j)) }
  else s

/-- Lines 56-63 of `src/sdf.h`: the downward sweep of column `x1`. -/
def sdf_sweep_down (nx ny x1 : ℕ) (s : SdfField) : SdfField :=
  (List.range' 1 (ny - 1)).foldl
    (fun s y => sdf_relax s (x1 + y * nx) (x1 + y * nx - nx)) s

/-- Lines 64-71 of `src/sdf.h`: the upward sweep of column `x1`. -/
def sdf_sweep_up (nx ny x1 : ℕ) (s : SdfField) : SdfField :=
  (List.range (ny - 1)).reverse.foldl
    (fun s y => sdf_relax s (x1 + y * nx) (x1 + y * nx + nx)) s

/-- Lines 55-72 of `src/sdf.h`: the column phase. -/
def sdf_column_phase (nx ny : ℕ) (s : SdfField) : SdfField :=
  (List.range nx).foldl (fun s x1 => sdf_sweep_up nx ny x1 (sdf_sweep_down nx ny x1 s)) s

/-- Lines 80-85 of `src/sdf.h`: the search for the first finite cell of row `y`. -/
def sdf_seed_search (distances : ℕ → CFloat) (nx y : ℕ) : ℕ → ℕ → ℕ
  | 0, x1 => x1
  | k + 1, x1 =>
    if CFloat.lt (distances (x1 + y * nx)) SDF_INFINITY then x1
    else sdf_seed_search distances nx y k (x1 + 1)

/-- Lines 94-114 of `src/sdf.h`: the `while (1)` loop, by recursion on the stack index. -/
def sdf_insert_parabola (distances : ℕ → CFloat) (nx y x1 : ℕ) (dy1 : CFloat)
    (parabola_x : ℕ → ℕ) (x_intersections : ℕ → CFloat) : ℕ → Stack
  | 0 => push distances nx y x1 dy1 ⟨0, parabola_x, x_intersections⟩
  | n + 1 =>
    let x0 := parabola_x (n + 1)
    let dy0 := distances (x0 + y * nx)
    if CFloat.gt (sdf_parabola_y (ofInt x0) dy0 (x_intersections n))
        (sdf_parabola_y (ofInt x1) dy1 (x_intersections n)) then
      sdf_insert_parabola distances nx y x1 dy1 parabola_x x_intersections n
    else push distances nx y x1 dy1 ⟨n + 1, parabola_x, x_intersections⟩

/-- Lines 87-115 of `src/sdf.h`: envelope construction. -/
def sdf_build_envelope (distances : ℕ → CFloat) (nx y first : ℕ) (s : Stack) : Stack :=
  (List.range' (first + 1) (nx - (first + 1))).foldl (fun s x1 =>
    let dy1 := distances (x1 + y * nx)
    if CFloat.eq dy1 SDF_INFINITY then s
    else sdf_insert_parabola distances nx y x1 dy1 s.parabola_x s.x_intersections s.n) s

/-- State of the evaluation loop of `sdf`: the stack index and the two row buffers. -/
structure SdfFill where
  n : ℕ
  temp_row_distances : ℕ → CFloat
  temp_closest : ℕ → sdf_point

/-- Lines 119-129 of `src/sdf.h`: the body of the evaluation loop at `x1`. -/
def sdf_fill_step (s : SdfField) (nx y : ℕ) (parabola_x : ℕ → ℕ)
    (x_intersections : ℕ → CFloat) (f : SdfFill) (x1 : ℕ) : SdfFill :=
  let n := next_parabola x_intersections x1 f.n
  let x0 := parabola_x n
  let i := x0 + y * nx
  let dy0 := s.distances i
  { n := n
    temp_row_distances :=
      Function.update f.temp_row_distances x1 (sdf_parabola_y (ofInt x0) dy0 (ofInt x1))
    temp_closest :=
      match s.closest_points with
      | some cp => Function.update f.temp_closest x1 (cp i)
      | none => f.temp_closest }

/-- Lines 118-130 of `src/sdf.h`: the evaluation loop, `x1 = nx - 1, ..., 0`. -/
def sdf_fill_row (s : SdfField) (nx y : ℕ) (parabola_x : ℕ → ℕ)
    (x_intersections : ℕ → CFloat) (f : SdfFill) : SdfFill :=
  (List.range nx).reverse.foldl (sdf_fill_step s nx y parabola_x x_intersections) f

/-- Lines 133-137 of `src/sdf.h`: the row buffers are copied back into row `y`. -/
def sdf_copy_back (nx y : ℕ) (temp_row_distances : ℕ → CFloat)
    (temp_closest : ℕ → sdf_point) (s : SdfField) : SdfField :=
  (List.range nx).foldl (fun s x1 =>
    { distances := Function.update s.distances (x1 + y * nx) (temp_row_distances x1)
      closest_points :=
        s.closest_points.map (fun cp => Function.update cp (x1 + y * nx) (temp_closest x1)) })
    s

/-- Lines 76-137 of `src/sdf.h`: the body of the row loop for row `y`. -/
def sdf_row_step (nx : ℕ) (st : SdfField × SdfScratch) (y : ℕ) : SdfField × SdfScratch :=
  let s := st.1
  let m := st.2
  let first := sdf_seed_search s.distances nx y nx 0
  let parabola_x := Function.update m.parabola_x 0 (if first < nx then first else 0)
  let e := sdf_build_envelope s.distances nx y first ⟨0, parabola_x, m.x_intersections⟩
  let f := sdf_fill_row s nx y e.parabola_x e.x_intersections
    ⟨e.n, m.temp_row_distances, m.temp_closest⟩
  (sdf_copy_back nx y f.temp_row_distances f.temp_closest s,
    ⟨e.parabola_x, e.x_intersections, f.temp_row_distances, f.temp_closest⟩)

/-- Lines 75-138 of `src/sdf.h`: the row phase. -/
def sdf_row_phase (nx ny : ℕ) (st : SdfField × SdfScratch) : SdfField × SdfScratch :=
  (List.range ny).foldl (sdf_row_step nx) st

/-- The function `sdf`; `heap` is the contents of the freshly allocated scratch arrays. -/
def sdf (heap : SdfScratch) (distances : ℕ → CFloat) (nx ny : ℕ)
    (closest_points : Option (ℕ → sdf_point)) : SdfField :=
  let s : SdfField := ⟨distances, closest_points.map (sdf_init_closest nx ny)⟩
  (sdf_row_phase nx ny (sdf_column_phase nx ny s, heap)).1

/-- The point of `df` with the coordinates of a point of `sdf`. -/
def sdf_point.toDf (p : sdf_point) : df_point := ⟨p.x, p.y⟩

/-- A closest-point map of `sdf` read as one of `df`. -/
def mapToDf (c : ℕ → sdf_point) : ℕ → df_point := fun i => (c i).toDf

/-- The arrays of a caller of `sdf` read as arrays of a caller of `df`. -/
def SdfField.toDf (s : SdfField) : Field := ⟨s.distances, s.closest_points.map mapToDf⟩

/-- The scratch arrays of `sdf` read as scratch arrays of `df`. -/
def SdfScratch.toDf (m : SdfScratch) : Scratch :=
  ⟨m.parabola_x, m.x_intersections, m.temp_row_distances, mapToDf m.temp_closest⟩

/-- The state of the evaluation loop of `sdf` read as one of `df`. -/
def SdfFill.toDf (f : SdfFill) : Fill := ⟨f.n, f.temp_row_distances, mapToDf f.temp_closest⟩

/-- Contents of the scratch arrays of `sdf` used in the examples. -/
def sheap0 : SdfScratch := ⟨fun _ => 0, fun _ => fin 0, fun _ => fin 0, fun _ => ⟨0, 0⟩⟩

/-- Contents of the closest-point array that the examples pass to `sdf`. -/
def scp0 : ℕ → sdf_point := fun _ => ⟨0, 0⟩

/-! ## The transform in binary32 arithmetic

The same functions with every `float` operation, and every conversion of an `int` to
`float`, rounded to binary32 (round to nearest, ties to even; no excess precision, no
fused multiply-add).  The `int` products of line 109 wrap as before.  `seed_search`,
`copy_back` and `init_closest` do no arithmetic and are the ones above. -/

/-- The power `2^k` of two for an integer exponent. -/
def pow2 (k : ℤ) : ℚ :=
  if 0 ≤ k then ((2 ^ k.toNat : ℕ) : ℚ) else 1 / ((2 ^ (-k).toNat : ℕ) : ℚ)

/-- The number of binary digits of `n`, by halving `n` at most `fuel` times. -/
def bitLength : ℕ → ℕ → ℕ
  | 0, _ => 0
  | fuel + 1, n => if n = 0 then 0 else bitLength fuel (n / 2) + 1

/-- The exponent of a positive rational `a`: the integer `e` with `2^e ≤ a < 2^(e+1)`.
The difference of the bit lengths of numerator and denominator is `e` or `e + 1`. -/
def ilog2 (a : ℚ) : ℤ :=
  let k : ℤ := (bitLength a.num.natAbs a.num.natAbs : ℤ) - (bitLength a.den a.den : ℤ)
  if pow2 k ≤ a then k else k - 1

/-- A non-negative rational rounded to the nearest natural number, a tie to the even
one. -/
def roundEven (m : ℚ) : ℕ :=
  let f := m.num.natAbs / m.den
  let r := m - (f : ℚ)
  if r < 1 / 2 then f
  else if 1 / 2 < r then f + 1
  else if f % 2 = 0 then f else f + 1

/-- A rational rounded to binary32, to nearest with ties to even: 24 significant bits,
the least exponent -126 (below it the subnormal numbers, spaced `2^-149`), and an
infinity when the rounded magnitude reaches `2^128`. -/
def round32 (q : ℚ) : CFloat :=
  if q = 0 then fin 0
  else
    let a := if 0 < q then q else -q
    let e := max (ilog2 a) (-126)
    let ulp := pow2 (e - 23)
    let r := (roundEven (a / ulp) : ℚ) * ulp
    if pow2 128 ≤ r then (if 0 < q then pinf else ninf)
    else fin (if 0 < q then r else -r)

/-- The result of a `float` operation as it is stored: a finite value is rounded to
binary32, a special value is kept. -/
def CFloat.rnd : CFloat → CFloat
  | fin q => round32 q
  | v => v

/-- Conversion of a C `int` to `float`, in binary32. -/
def ofInt32 (k : ℤ) : CFloat := round32 (k : ℚ)

/-- Addition in binary32. -/
def add32 (a b : CFloat) : CFloat := (CFloat.add a b).rnd

/-- Subtraction in binary32. -/
def sub32 (a b : CFloat) : CFloat := (CFloat.sub a b).rnd

/-- Multiplication in binary32. -/
def mul32 (a b : CFloat) : CFloat := (CFloat.mul a b).rnd

/-- Division in binary32. -/
def div32 (a b : CFloat) : CFloat := (CFloat.div a b).rnd

/-- The function `df_parabola` in binary32. -/
def df_parabola32 (x0 dy0 x : CFloat) : CFloat :=
  let dx0 := sub32 x x0
  add32 (mul32 dx0 dx0) (mul32 dy0 dy0)

/-- Lines 59-62 and 67-70 in binary32: the body of the two column sweeps. -/
def relax32 (s : Field) (i j : ℕ) : Field :=
  if CFloat.gt (s.distances i) (add32 (s.distances j) (fin 1)) then
    { distances := Function.update s.distances i (add32 (s.distances j) (fin 1))
      closest_points := s.closest_points.map (fun cp => Function.update cp i (cp j)) }
  else s

/-- Lines 56-63 in binary32: the downward sweep of column `x1`. -/
def sweep_down32 (nx ny x1 : ℕ) (s : Field) : Field :=
  (List.range' 1 (ny - 1)).foldl (fun s y => relax32 s (x1 + y * nx) (x1 + y * nx - nx)) s

/-- Lines 64-71 in binary32: the upward sweep of column `x1`. -/
def sweep_up32 (nx ny x1 : ℕ) (s : Field) : Field :=
  (List.range (ny - 1)).reverse.foldl
    (fun s y => relax32 s (x1 + y * nx) (x1 + y * nx + nx)) s

/-- Lines 55-72 in binary32: the column phase. -/
def column_phase32 (nx ny : ℕ) (s : Field) : Field :=
  (List.range nx).foldl (fun s x1 => sweep_up32 nx ny x1 (sweep_down32 nx ny x1 s)) s

/-- Lines 107-112 in binary32: the new parabola and its intersection with the top of the
stack are pushed. -/
def push32 (distances : ℕ → CFloat) (nx y x1 : ℕ) (dy1 : CFloat) (s : Stack) : Stack :=
  let x0 := s.parabola_x s.n
  let dy0 := distances (x0 + y * nx)
  { n := s.n + 1
    parabola_x := Function.update s.parabola_x (s.n + 1) x1
    x_intersections := Function.update s.x_intersections s.n
      (mul32 (div32 (fin (1 / 2)) (ofInt32 ((x1 : ℤ) - (x0 : ℤ))))
        (sub32
          (sub32 (add32 (ofInt32 (wrap32 ((x1 : ℤ) * (x1 : ℤ)))) (mul32 dy1 dy1))
            (ofInt32 (wrap32 ((x0 : ℤ) * (x0 : ℤ))))) (mul32 dy0 dy0))) }

/-- Lines 94-114 in binary32: the `while (1)` loop, by recursion on the stack index. -/
def insert_parabola32 (distances : ℕ → CFloat) (nx y x1 : ℕ) (dy1 : CFloat)
    (parabola_x : ℕ → ℕ) (x_intersections : ℕ → CFloat) : ℕ → Stack
  | 0 => push32 distances nx y x1 dy1 ⟨0, parabola_x, x_intersections⟩
  | n + 1 =>
    let x0 := parabola_x (n + 1)
    let dy0 := distances (x0 + y * nx)
    if CFloat.gt (df_parabola32 (ofInt32 x0) dy0 (x_intersections n))
        (df_parabola32 (ofInt32 x1) dy1 (x_intersections n)) then
      insert_parabola32 distances nx y x1 dy1 parabola_x x_intersections n
    else push32 distances nx y x1 dy1 ⟨n + 1, parabola_x, x_intersections⟩

/-- Lines 87-115 in binary32: envelope construction. -/
def build_envelope32 (distances : ℕ → CFloat) (nx y first : ℕ) (s : Stack) : Stack :=
  (List.range' (first + 1) (nx - (first + 1))).foldl (fun s x1 =>
    let dy1 := distances (x1 + y * nx)
    if CFloat.eq dy1 DF_INFINITY then s
    else insert_parabola32 distances nx y x1 dy1 s.parabola_x s.x_intersections s.n) s

/-- Line 122 in binary32: `x1` is converted to `float` for the comparison. -/
def next_parabola32 (x_intersections : ℕ → CFloat) (x1 : ℕ) : ℕ → ℕ
  | 0 => 0
  | n + 1 =>
    if CFloat.lt (ofInt32 x1) (x_intersections n) then next_parabola32 x_intersections x1 n
    else n + 1

/-- Lines 119-129 in binary32: the body of the evaluation loop at `x1`. -/
def fill_step32 (s : Field) (nx y : ℕ) (parabola_x : ℕ → ℕ) (x_intersections : ℕ → CFloat)
    (f : Fill) (x1 : ℕ) : Fill :=
  let n := next_parabola32 x_intersections x1 f.n
  let x0 := parabola_x n
  let i := x0 + y * nx
  let dy0 := s.distances i
  { n := n
    temp_row_distances :=
      Function.update f.temp_row_distances x1 (df_parabola32 (ofInt32 x0) dy0 (ofInt32 x1))
    temp_closest :=
      match s.closest_points with
      | some cp => Function.update f.temp_closest x1 (cp i)
      | none => f.temp_closest }

/-- Lines 118-130 in binary32: the evaluation loop. -/
def fill_row32 (s : Field) (nx y : ℕ) (parabola_x : ℕ → ℕ) (x_intersections : ℕ → CFloat)
    (f : Fill) : Fill :=
  (List.range nx).reverse.foldl (fill_step32 s nx y parabola_x x_intersections) f

/-- Lines 76-115 in binary32: the stack that the seed search and the envelope
construction leave for row `y`. -/
def row_envelope32 (s : Field) (nx y : ℕ) (m : Scratch) : Stack :=
  build_envelope32 s.distances nx y (seed_search s.distances nx y nx 0)
    ⟨0, Function.update m.parabola_x 0
      (if seed_search s.distances nx y nx 0 < nx then seed_search s.distances nx y nx 0 else 0),
      m.x_intersections⟩

/-- Lines 76-137 in binary32: the body of the row loop for row `y`. -/
def row_step32 (nx : ℕ) (st : Field × Scratch) (y : ℕ) : Field × Scratch :=
  let s := st.1
  let m := st.2
  let first := seed_search s.distances nx y nx 0
  let parabola_x := Function.update m.parabola_x 0 (if first < nx then first else 0)
  let e := build_envelope32 s.distances nx y first ⟨0, parabola_x, m.x_intersections⟩
  let f := fill_row32 s nx y e.parabola_x e.x_intersections
    ⟨e.n, m.temp_row_distances, m.temp_closest⟩
  (copy_back nx y f.temp_row_distances f.temp_closest s,
    ⟨e.parabola_x, e.x_intersections, f.temp_row_distances, f.temp_closest⟩)

/-- Lines 75-138 in binary32: the row phase. -/
def row_phase32 (nx ny : ℕ) (st : Field × Scratch) : Field × Scratch :=
  (List.range ny).foldl (row_step32 nx) st

/-- The function `df` in binary32. -/
def df32 (heap : Scratch) (distances : ℕ → CFloat) (nx ny : ℕ)
    (closest_points : Option (ℕ → df_point)) : Field :=
  let s : Field := ⟨distances, closest_points.map (init_closest nx ny)⟩
  (row_phase32 nx ny (column_phase32 nx ny s, heap)).1

/-- The 9x1 grid `[4, +inf, +inf, +inf, +inf, +inf, +inf, 3, 0]`. -/
def gridRow : ℕ → CFloat :=
  fun i => if i = 0 then fin 4 else if i = 7 then fin 3 else if i = 8 then fin 0 else pinf

/-! ## Arithmetic on finite values and `+inf` -/

@[simp] theorem DF_INFINITY_eq : DF_INFINITY = pinf := by
  simp [DF_INFINITY, CFloat.div]

@[simp] theorem add_fin_fin (a b : ℚ) : CFloat.add (fin a) (fin b) = fin (a + b) := rfl
@[simp] theorem add_pinf_fin (b : ℚ) : CFloat.add pinf (fin b) = pinf := rfl
@[simp] theorem sub_fin_fin (a b : ℚ) : CFloat.sub (fin a) (fin b) = fin (a - b) := by
  simp [CFloat.sub, CFloat.neg, sub_eq_add_neg]
@[simp] theorem mul_fin_fin (a b : ℚ) : CFloat.mul (fin a) (fin b) = fin (a * b) := rfl
@[simp] theorem mul_pinf_pinf : CFloat.mul pinf pinf = pinf := by
  simp [CFloat.mul, CFloat.sgn]
@[simp] theorem add_fin_pinf (a : ℚ) : CFloat.add (fin a) pinf = pinf := rfl
@[simp] theorem lt_fin_fin (a b : ℚ) : CFloat.lt (fin a) (fin b) = decide (a < b) := rfl
@[simp] theorem lt_fin_pinf (a : ℚ) : CFloat.lt (fin a) pinf = true := rfl
@[simp] theorem lt_pinf (v : CFloat) : CFloat.lt pinf v = false := by cases v <;> rfl
@[simp] theorem eq_fin_pinf (a : ℚ) : CFloat.eq (fin a) pinf = false := rfl
@[simp] theorem eq_pinf_pinf : CFloat.eq pinf pinf = true := rfl
@[simp] theorem ofInt_natCast (k : ℕ) : ofInt (k : ℤ) = fin (k : ℚ) := by simp [ofInt]

theorem div_fin_fin (a b : ℚ) (hb : b ≠ 0) : CFloat.div (fin a) (fin b) = fin (a / b) := by
  simp [CFloat.div, hb]

@[simp] theorem df_parabola_fin (a b c : ℚ) :
    df_parabola (fin a) (fin b) (fin c) = fin ((c - a) * (c - a) + b * b) := by
  simp [df_parabola]

@[simp] theorem df_parabola_pinf (a c : ℚ) : df_parabola (fin a) pinf (fin c) = pinf := by
  simp [df_parabola]

theorem relax_distances (s : Field) (i j k : ℕ) :
    (relax s i j).distances k =
      if CFloat.gt (s.distances i) (CFloat.add (s.distances j) (fin 1)) = true ∧ k = i
      then CFloat.add (s.distances j) (fin 1) else s.distances k := by
  unfold relax
  by_cases h : CFloat.gt (s.distances i) (CFloat.add (s.distances j) (fin 1)) = true
  · by_cases hk : k = i
    · subst hk; simp [h]
    · simp [h, hk, Function.update_noteq hk]
  · simp [h]

theorem relax_cpAt (s : Field) (i j k : ℕ) :
    cpAt (relax s i j) k =
      if CFloat.gt (s.distances i) (CFloat.add (s.distances j) (fin 1)) = true ∧ k = i
      then cpAt s j else cpAt s k := by
  unfold relax cpAt
  by_cases h : CFloat.gt (s.distances i) (CFloat.add (s.distances j) (fin 1)) = true
  · by_cases hk : k = i
    · subst hk; cases hc : s.closest_points <;> simp [h]
    · cases hc : s.closest_points <;> simp [h, hk, Function.update_noteq hk]
  · simp [h]

/-! ## The column phase -/

theorem foldl_range'_succ {σ : Type} (f : σ → ℕ → σ) (s : σ) (a m : ℕ) :
    (List.range' a (m + 1)).foldl f s = f ((List.range' a m).foldl f s) (a + m) := by
  rw [List.range'_concat, List.foldl_append]; simp

theorem foldl_range_succ {σ : Type} (f : σ → ℕ → σ) (s : σ) (m : ℕ) :
    (List.range (m + 1)).foldl f s = f ((List.range m).foldl f s) m := by
  rw [List.range_succ, List.foldl_append]; rfl

theorem foldl_range_reverse_succ {σ : Type} (f : σ → ℕ → σ) (s : σ) (m : ℕ) :
    (List.range (m + 1)).reverse.foldl f s = (List.range m).reverse.foldl f (f s m) := by
  rw [List.range_succ, List.reverse_append]; rfl

theorem sweep_down_eq_chain (nx ny x1 : ℕ) (s : Field) :
    sweep_down nx ny x1 s = chain (fun k => x1 + k * nx) (ny - 1) s := by
  unfold sweep_down
  induction (ny - 1) with
  | zero => rfl
  | succ m ih =>
    rw [foldl_range'_succ, ih]
    show relax _ _ _ = relax _ _ _
    have h1 : x1 + (1 + m) * nx - nx = x1 + m * nx := by
      have : x1 + (1 + m) * nx = x1 + m * nx + nx := by ring
      omega
    rw [h1, Nat.add_comm 1 m]

theorem sweep_up_chain_aux (nx x1 M : ℕ) (s : Field) (m : ℕ) (hm : m ≤ M) :
    (List.range' (M - m) m).reverse.foldl
      (fun s y => relax s (x1 + y * nx) (x1 + y * nx + nx)) s =
    chain (fun k => x1 + (M - k) * nx) m s := by
  induction m with
  | zero => rfl
  | succ m ih =>
    have h0 : M - (m + 1) + 1 = M - m := by omega
    have h1 : List.range' (M - (m + 1)) (m + 1) = (M - (m + 1)) :: List.range' (M - m) m := by
      rw [List.range'_succ, h0]
    rw [h1, List.reverse_cons, List.foldl_append, ih (by omega)]
    show relax _ _ _ = relax _ _ _
    have h2 : x1 + (M - (m + 1)) * nx + nx = x1 + (M - m) * nx := by
      rw [← h0]; ring
    rw [h2]

theorem sweep_up_eq_chain (nx ny x1 : ℕ) (s : Field) :
    sweep_up nx ny x1 s = chain (fun k => x1 + (ny - 1 - k) * nx) (ny - 1) s := by
  have h := sweep_up_chain_aux nx x1 (ny - 1) s (ny - 1) le_rfl
  rw [Nat.sub_self, ← List.range_eq_range'] at h
  exact h

theorem chain_spec (p : ℕ → ℕ) (m : ℕ) (s : Field)
    (hinj : ∀ a ≤ m, ∀ b ≤ m, p a = p b → a = b)
    (hext : ∀ k ≤ m, Ext (s.distances (p k))) :
    (∀ i, (∀ k, 1 ≤ k → k ≤ m → i ≠ p k) →
      (chain p m s).distances i = s.distances i ∧ cpAt (chain p m s) i = cpAt s i) ∧
    ∀ k ≤ m, ChainOut s p k ((chain p m s).distances (p k)) (cpAt (chain p m s) (p k)) := by
  induction m with
  | zero =>
    refine ⟨fun i _ => ⟨rfl, rfl⟩, ?_⟩
    intro k hk
    have hk0 : k = 0 := by omega
    subst hk0
    show ChainOut s p 0 (s.distances (p 0)) (cpAt s (p 0))
    rcases hext 0 le_rfl with h | ⟨q, h⟩
    · left
      refine ⟨h, rfl, ?_⟩
      intro j hj
      have : j = 0 := by omega
      subst this; exact h
    · right
      refine ⟨0, le_rfl, q, h, by simp [h], rfl, ?_⟩
      intro j' hj' q' hq'
      have : j' = 0 := by omega
      subst this
      rw [h] at hq'
      cases hq'
      exact le_rfl
  | succ m ih =>
    obtain ⟨ihf, iho⟩ := ih (fun a ha b hb => hinj a (by omega) b (by omega))
      (fun k hk => hext k (by omega))
    have hne : ∀ k ≤ m, p k ≠ p (m + 1) := by
      intro k hk h
      have := hinj k (by omega) (m + 1) le_rfl h
      omega
    have hnew : (chain p m s).distances (p (m + 1)) = s.distances (p (m + 1)) ∧
        cpAt (chain p m s) (p (m + 1)) = cpAt s (p (m + 1)) :=
      ihf _ (fun k _ hk h => hne k hk h.symm)
    constructor
    · intro i hi
      show (relax _ _ _).distances i = _ ∧ cpAt (relax _ _ _) i = _
      rw [relax_distances, relax_cpAt]
      have hi1 : i ≠ p (m + 1) := hi (m + 1) (by omega) le_rfl
      simp only [hi1, and_false, if_false]
      exact ihf i (fun k hk1 hk2 => hi k hk1 (by omega))
    · intro k hk
      show ChainOut s p k ((relax _ _ _).distances (p k)) (cpAt (relax _ _ _) (p k))
      rw [relax_distances, relax_cpAt]
      rcases Nat.lt_or_ge k (m + 1) with hlt | hge
      · have hk1 : p k ≠ p (m + 1) := hne k (by omega)
        simp only [hk1, and_false, if_false]
        exact iho k (by omega)
      · have hkm : k = m + 1 := by omega
        subst hkm
        simp only [and_true]
        rw [hnew.1]
        rcases iho m le_rfl with ⟨hb, _, hall⟩ | ⟨j, hj, q, hsj, hb, hc, hmin⟩
        · -- the cell before is infinite: nothing changes
          rw [hb]
          have hgt : CFloat.gt (s.distances (p (m + 1))) (CFloat.add pinf (fin 1)) = false := by
            simp [CFloat.gt]
          simp only [hgt, Bool.false_eq_true, if_false]
          rw [hnew.2]
          rcases hext (m + 1) le_rfl with h | ⟨q, h⟩
          · left
            refine ⟨h, rfl, ?_⟩
            intro j hj
            rcases Nat.lt_or_ge j (m + 1) with h1 | h1
            · exact hall j (by omega)
            · have : j = m + 1 := by omega
              subst this; exact h
          · right
            refine ⟨m + 1, le_rfl, q, h, by simp [h], rfl, ?_⟩
            intro j' hj' q' hq'
            rcases Nat.lt_or_ge j' (m + 1) with h1 | h1
            · rw [hall j' (by omega)] at hq'; cases hq'
            · have : j' = m + 1 := by omega
              subst this
              rw [h] at hq'; cases hq'; exact le_rfl
        · rw [hb]
          have hcast : ((m + 1 : ℕ) : ℚ) = (m : ℚ) + 1 := by push_cast; ring
          rcases hext (m + 1) le_rfl with h | ⟨qa, h⟩
          · -- an infinite cell takes the value of the cell before plus one
            have hgt : CFloat.gt (s.distances (p (m + 1)))
                (CFloat.add (fin (q + ((m : ℚ) - j))) (fin 1)) = true := by
              simp [CFloat.gt, h]
            simp only [hgt, if_true]
            right
            refine ⟨j, by omega, q, hsj, ?_, hc, ?_⟩
            · simp only [add_fin_fin, hcast]; congr 1; ring
            · intro j' hj' q' hq'
              rcases Nat.lt_or_ge j' (m + 1) with h1 | h1
              · have := hmin j' (by omega) q' hq'
                rw [hcast]; linarith
              · have : j' = m + 1 := by omega
                subst this
                rw [h] at hq'; cases hq'
          · by_cases hlt : q + ((m : ℚ) - j) + 1 < qa
            · have hgt : CFloat.gt (s.distances (p (m + 1)))
                  (CFloat.add (fin (q + ((m : ℚ) - j))) (fin 1)) = true := by
                simp [CFloat.gt, h, hlt]
              simp only [hgt, if_true]
              right
              refine ⟨j, by omega, q, hsj, ?_, hc, ?_⟩
              · simp only [add_fin_fin, hcast]; congr 1; ring
              · intro j' hj' q' hq'
                rcases Nat.lt_or_ge j' (m + 1) with h1 | h1
                · have := hmin j' (by omega) q' hq'
                  rw [hcast]; linarith
                · have : j' = m + 1 := by omega
                  subst this
                  rw [h] at hq'; cases hq'
                  rw [hcast]; linarith
            · have hgt : CFloat.gt (s.distances (p (m + 1)))
                  (CFloat.add (fin (q + ((m : ℚ) - j))) (fin 1)) = false := by
                simp [CFloat.gt, h, hlt]
              simp only [hgt, Bool.false_eq_true, if_false]
              rw [hnew.2]
              right
              refine ⟨m + 1, le_rfl, qa, h, by simp [h], rfl, ?_⟩
              intro j' hj' q' hq'
              rcases Nat.lt_or_ge j' (m + 1) with h1 | h1
              · have := hmin j' (by omega) q' hq'
                rw [hcast]; linarith
              · have : j' = m + 1 := by omega
                subst this
                rw [h] at hq'; cases hq'; exact le_rfl

theorem idx_inj {nx x x' y y' : ℕ} (hx : x < nx) (hx' : x' < nx)
    (h : x + y * nx = x' + y' * nx) : x = x' ∧ y = y' := by
  have h1 : (x + y * nx) % nx = (x' + y' * nx) % nx := by rw [h]
  rw [Nat.add_mul_mod_self_right, Nat.add_mul_mod_self_right, Nat.mod_eq_of_lt hx,
    Nat.mod_eq_of_lt hx'] at h1
  subst h1
  have h2 : y * nx = y' * nx := by omega
  exact ⟨rfl, Nat.eq_of_mul_eq_mul_right (by omega) h2⟩

theorem column_spec (nx ny x1 : ℕ) (s : Field) (hx1 : x1 < nx) (hny : 1 ≤ ny)
    (hext : ∀ y < ny, Ext (s.distances (x1 + y * nx))) :
    (∀ i, (∀ y < ny, i ≠ x1 + y * nx) →
      (sweep_up nx ny x1 (sweep_down nx ny x1 s)).distances i = s.distances i ∧
      cpAt (sweep_up nx ny x1 (sweep_down nx ny x1 s)) i = cpAt s i) ∧
    ∀ y < ny, ColOut s nx ny x1 y
      ((sweep_up nx ny x1 (sweep_down nx ny x1 s)).distances (x1 + y * nx))
      (cpAt (sweep_up nx ny x1 (sweep_down nx ny x1 s)) (x1 + y * nx)) := by
  rw [sweep_up_eq_chain, sweep_down_eq_chain]
  obtain ⟨M, hM⟩ : ∃ M, ny = M + 1 := ⟨ny - 1, by omega⟩
  subst hM
  simp only [Nat.add_sub_cancel]
  set pd : ℕ → ℕ := fun k => x1 + k * nx with hpd
  set pu : ℕ → ℕ := fun k => x1 + (M - k) * nx with hpu
  set t := chain pd M s with ht
  have injd : ∀ a ≤ M, ∀ b ≤ M, pd a = pd b → a = b :=
    fun a _ b _ h => (idx_inj hx1 hx1 h).2
  have inju : ∀ a ≤ M, ∀ b ≤ M, pu a = pu b → a = b := by
    intro a ha b hb h
    have := (idx_inj hx1 hx1 h).2
    omega
  obtain ⟨fd, od⟩ := chain_spec pd M s injd (fun k hk => hext k (by omega))
  have od1 : ∀ y ≤ M, ChainOut s pd y (t.distances (x1 + y * nx)) (cpAt t (x1 + y * nx)) :=
    fun y hy => od y hy
  have extu : ∀ k ≤ M, Ext (t.distances (pu k)) := by
    intro k hk
    rcases od1 (M - k) (by omega) with ⟨h, _⟩ | ⟨_, _, _, _, h, _⟩
    · exact Or.inl h
    · exact Or.inr ⟨_, h⟩
  obtain ⟨fu, ou⟩ := chain_spec pu M t inju extu
  constructor
  · intro i hi
    have h1 := fu i (fun k _ hk => hi (M - k) (by omega))
    have h2 := fd i (fun k _ hk => hi k (by omega))
    exact ⟨h1.1.trans h2.1, h1.2.trans h2.2⟩
  · intro y hy
    have hyM : y ≤ M := by omega
    have hpuk : pu (M - y) = x1 + y * nx := by
      simp only [hpu]; congr 2; omega
    have ouk := ou (M - y) (by omega)
    rw [hpuk] at ouk
    -- every finite cell of the column bounds the result
    have hU : ∀ y0' < M + 1, ∀ q' : ℚ, s.distances (x1 + y0' * nx) = fin q' →
        ∃ w : ℚ, (chain pu M t).distances (x1 + y * nx) = fin w ∧
          w ≤ q' + |(y : ℚ) - y0'| := by
      intro y0' hy0' q' hq'
      obtain ⟨y1, hy1, hyy1, hy0y1, hsum⟩ : ∃ y1 ≤ M, y ≤ y1 ∧ y0' ≤ y1 ∧
          ((y1 : ℚ) - y0') + ((y1 : ℚ) - y) = |(y : ℚ) - y0'| := by
        rcases le_total y y0' with h | h
        · refine ⟨y0', by omega, h, le_rfl, ?_⟩
          have : (y : ℚ) - y0' ≤ 0 := by
            have : (y : ℚ) ≤ y0' := by exact_mod_cast h
            linarith
          rw [abs_of_nonpos this]; ring
        · refine ⟨y, hyM, le_rfl, h, ?_⟩
          have : 0 ≤ (y : ℚ) - y0' := by
            have : (y0' : ℚ) ≤ y := by exact_mod_cast h
            linarith
          rw [abs_of_nonneg this]; ring
      rcases od1 y1 hy1 with ⟨_, _, hall⟩ | ⟨j, hj, q, hsj, hb, _, hmin⟩
      · rw [hall y0' hy0y1] at hq'; cases hq'
      · have hb1 := hmin y0' hy0y1 q' hq'
        have hpu1 : pu (M - y1) = x1 + y1 * nx := by
          simp only [hpu]; congr 2; omega
        rcases ouk with ⟨_, _, hall⟩ | ⟨jj, hjj, qq, htj, hv, _, hmin2⟩
        · have := hall (M - y1) (by omega)
          rw [hpu1, hb] at this; cases this
        · refine ⟨_, hv, ?_⟩
          have := hmin2 (M - y1) (by omega) _ (by rw [hpu1]; exact hb)
          have hc1 : ((M - y : ℕ) : ℚ) = (M : ℚ) - y := Nat.cast_sub hyM
          have hc2 : ((M - y1 : ℕ) : ℚ) = (M : ℚ) - y1 := Nat.cast_sub hy1
          rw [hc1, hc2] at this
          rw [hc1]
          linarith
    rcases ouk with ⟨hv, hc, hall⟩ | ⟨jj, hjj, qq, htj, hv, hc, _⟩
    · left
      have hall0 : ∀ y0 < M + 1, s.distances (x1 + y0 * nx) = pinf := by
        intro y0 hy0
        rcases hext y0 hy0 with h | ⟨q', h⟩
        · exact h
        · obtain ⟨w, hw, _⟩ := hU y0 hy0 q' h
          rw [hv] at hw; cases hw
      refine ⟨hv, ?_, hall0⟩
      rw [hc, hpuk]
      rcases od1 y hyM with ⟨_, h, _⟩ | ⟨j, hj, q, hsj, _⟩
      · exact h
      · rw [hall0 j (by omega)] at hsj; cases hsj
    · right
      have hy1 : M - jj ≤ M := by omega
      have hpu1 : pu jj = x1 + (M - jj) * nx := rfl
      rw [hpu1] at htj hc
      rcases od1 (M - jj) hy1 with ⟨h, _⟩ | ⟨j0, hj0, q0, hs0, hb, hc0, _⟩
      · rw [h] at htj; cases htj
      · rw [htj] at hb
        have hqq : qq = q0 + (((M - jj : ℕ) : ℚ) - j0) := by
          injection hb
        obtain ⟨w, hw, hwle⟩ := hU j0 (by omega) q0 hs0
        rw [hv] at hw
        have hweq : qq + (((M - y : ℕ) : ℚ) - jj) = w := by injection hw
        have hc1 : ((M - y : ℕ) : ℚ) = (M : ℚ) - y := Nat.cast_sub hyM
        have hc2 : ((M - jj : ℕ) : ℚ) = (M : ℚ) - jj := Nat.cast_sub (by omega)
        have hjjq : (jj : ℚ) + y ≤ M := by exact_mod_cast (by omega : jj + y ≤ M)
        have hj0q : (j0 : ℚ) + jj ≤ M := by exact_mod_cast (by omega : j0 + jj ≤ M)
        have htri : |(y : ℚ) - j0| ≤ qq + (((M - y : ℕ) : ℚ) - jj) - q0 := by
          rw [hqq, hc1, hc2, abs_le]
          constructor <;> linarith
        have hval : qq + (((M - y : ℕ) : ℚ) - jj) = q0 + |(y : ℚ) - j0| := by
          linarith
        refine ⟨j0, by omega, q0, hs0, by rw [hv, hval], by rw [hc, hc0], ?_⟩
        intro y0' hy0' q' hq'
        obtain ⟨w', hw', hwle'⟩ := hU y0' hy0' q' hq'
        rw [hv] at hw'
        have : qq + (((M - y : ℕ) : ℚ) - jj) = w' := by injection hw'
        linarith

theorem ColOut_congr (s s' : Field) (nx ny x y : ℕ) (v : CFloat) (c : Option df_point)
    (h : ∀ y0 < ny, s'.distances (x + y0 * nx) = s.distances (x + y0 * nx) ∧
      cpAt s' (x + y0 * nx) = cpAt s (x + y0 * nx)) (hy : y < ny)
    (ho : ColOut s' nx ny x y v c) : ColOut s nx ny x y v c := by
  rcases ho with ⟨hv, hc, hall⟩ | ⟨y0, hy0, q, hs, hv, hc, hmin⟩
  · left
    refine ⟨hv, by rw [hc, (h y hy).2], ?_⟩
    intro y0 hy0
    rw [← (h y0 hy0).1]; exact hall y0 hy0
  · right
    refine ⟨y0, hy0, q, by rw [← (h y0 hy0).1]; exact hs, hv, by rw [hc, (h y0 hy0).2], ?_⟩
    intro y0' hy0' q' hq'
    exact hmin y0' hy0' q' (by rw [(h y0' hy0').1]; exact hq')

theorem column_phase_aux (nx ny : ℕ) (s : Field) (hny : 1 ≤ ny)
    (hext : ∀ x < nx, ∀ y < ny, Ext (s.distances (x + y * nx))) (m : ℕ) (hm : m ≤ nx) :
    (∀ x < m, ∀ y < ny, ColOut s nx ny x y
      (((List.range m).foldl (fun s x1 => sweep_up nx ny x1 (sweep_down nx ny x1 s)) s).distances
        (x + y * nx))
      (cpAt ((List.range m).foldl (fun s x1 => sweep_up nx ny x1 (sweep_down nx ny x1 s)) s)
        (x + y * nx))) ∧
    ∀ i, (∀ x < m, ∀ y < ny, i ≠ x + y * nx) →
      ((List.range m).foldl (fun s x1 => sweep_up nx ny x1 (sweep_down nx ny x1 s)) s).distances i
        = s.distances i ∧
      cpAt ((List.range m).foldl (fun s x1 => sweep_up nx ny x1 (sweep_down nx ny x1 s)) s) i
        = cpAt s i := by
  induction m with
  | zero =>
    refine ⟨fun x hx => absurd hx (Nat.not_lt_zero x), fun i _ => ⟨rfl, rfl⟩⟩
  | succ m ih =>
    obtain ⟨ihc, ihf⟩ := ih (by omega)
    rw [foldl_range_succ]
    set t := (List.range m).foldl (fun s x1 => sweep_up nx ny x1 (sweep_down nx ny x1 s)) s
      with ht
    have hcol : ∀ y0 < ny, t.distances (m + y0 * nx) = s.distances (m + y0 * nx) ∧
        cpAt t (m + y0 * nx) = cpAt s (m + y0 * nx) := by
      intro y0 _
      apply ihf
      intro x hx y _ h
      have := (idx_inj (show m < nx by omega) (show x < nx by omega) h).1
      omega
    obtain ⟨cf, co⟩ := column_spec nx ny m t (by omega) hny
      (fun y hy => by rw [(hcol y hy).1]; exact hext m (by omega) y hy)
    constructor
    · intro x hx y hy
      rcases Nat.lt_or_ge x m with hlt | hge
      · have hne : ∀ y' < ny, x + y * nx ≠ m + y' * nx := by
          intro y' _ h
          have := (idx_inj (show x < nx by omega) (show m < nx by omega) h).1
          omega
        rw [(cf _ hne).1, (cf _ hne).2]
        exact ihc x hlt y hy
      · have hxm : x = m := by omega
        subst hxm
        exact ColOut_congr s t nx ny x y _ _ hcol hy (co y hy)
    · intro i hi
      have h1 := cf i (fun y hy => hi m (by omega) y hy)
      have h2 := ihf i (fun x hx y hy => hi x (by omega) y hy)
      exact ⟨h1.1.trans h2.1, h1.2.trans h2.2⟩

theorem column_phase_spec (nx ny : ℕ) (s : Field) (hny : 1 ≤ ny)
    (hext : ∀ x < nx, ∀ y < ny, Ext (s.distances (x + y * nx))) :
    ∀ x < nx, ∀ y < ny, ColOut s nx ny x y ((column_phase nx ny s).distances (x + y * nx))
      (cpAt (column_phase nx ny s) (x + y * nx)) :=
  (column_phase_aux nx ny s hny hext nx le_rfl).1

/-! ## The row phase: envelope construction -/

theorem wrap32_of_lt (k : ℤ) (h0 : 0 ≤ k) (h1 : k < 2147483648) : wrap32 k = k := by
  unfold wrap32
  omega

theorem wrap32_sq (x : ℕ) (h : x ≤ 46340) : wrap32 ((x : ℤ) * (x : ℤ)) = (x : ℤ) * (x : ℤ) := by
  have h1 : (x : ℤ) ≤ 46340 := by exact_mod_cast h
  have h0 : (0 : ℤ) ≤ x := Int.natCast_nonneg x
  apply wrap32_of_lt
  · exact mul_nonneg h0 h0
  · have : (x : ℤ) * (x : ℤ) ≤ 46340 * 46340 := mul_le_mul h1 h1 h0 (by norm_num)
    omega

theorem par_sub (d : ℕ → CFloat) (nx y i j : ℕ) (hij : i < j) (t : ℚ) :
    par d nx y i t - par d nx y j t = 2 * ((j : ℚ) - i) * (t - isect d nx y i j) := by
  have h : (j : ℚ) - i ≠ 0 := by
    have : (i : ℚ) < j := by exact_mod_cast hij
    linarith
  unfold par isect
  field_simp
  ring

theorem par_le_iff (d : ℕ → CFloat) (nx y i j : ℕ) (hij : i < j) (t : ℚ) :
    par d nx y i t ≤ par d nx y j t ↔ t ≤ isect d nx y i j := by
  have h : 0 < 2 * ((j : ℚ) - i) := by
    have : (i : ℚ) < j := by exact_mod_cast hij
    linarith
  have hs := par_sub d nx y i j hij t
  constructor
  · intro hle
    by_contra hlt
    have : 0 < 2 * ((j : ℚ) - i) * (t - isect d nx y i j) :=
      mul_pos h (by linarith)
    linarith
  · intro hle
    have : 2 * ((j : ℚ) - i) * (t - isect d nx y i j) ≤ 0 :=
      mul_nonpos_of_nonneg_of_nonpos h.le (by linarith)
    linarith

theorem par_ge_iff (d : ℕ → CFloat) (nx y i j : ℕ) (hij : i < j) (t : ℚ) :
    par d nx y j t ≤ par d nx y i t ↔ isect d nx y i j ≤ t := by
  have h : 0 < 2 * ((j : ℚ) - i) := by
    have : (i : ℚ) < j := by exact_mod_cast hij
    linarith
  have hs := par_sub d nx y i j hij t
  constructor
  · intro hle
    by_contra hlt
    have : 2 * ((j : ℚ) - i) * (t - isect d nx y i j) < 0 :=
      mul_neg_of_pos_of_neg h (by linarith)
    linarith
  · intro hle
    have : 0 ≤ 2 * ((j : ℚ) - i) * (t - isect d nx y i j) :=
      mul_nonneg h.le (by linarith)
    linarith

theorem df_parabola_eq_par (d : ℕ → CFloat) (nx y j : ℕ) (q t : ℚ)
    (hq : d (j + y * nx) = fin q) :
    df_parabola (ofInt (j : ℤ)) (fin q) (fin t) = fin (par d nx y j t) := by
  simp [par, hq, fval]

theorem EnvInv.pred {d : ℕ → CFloat} {nx y b n : ℕ} {px : ℕ → ℕ} {xi : ℕ → CFloat}
    (h : EnvInv d nx y b (n + 1) px xi) : EnvInv d nx y b n px xi where
  lt_bound k hk := h.lt_bound k (by omega)
  finite k hk := h.finite k (by omega)
  incr k hk := h.incr k (by omega)
  isect_eq k hk := h.isect_eq k (by omega)
  mono k hk := h.mono k (by omega)

theorem push_spec (d : ℕ → CFloat) (nx y x1 : ℕ) (q1 : ℚ) (hq1 : d (x1 + y * nx) = fin q1)
    (px : ℕ → ℕ) (xi : ℕ → CFloat) (b n : ℕ) (hb : b ≤ x1) (hw : x1 ≤ 46340)
    (hinv : EnvInv d nx y b n px xi)
    (hlast : ∀ m, n = m + 1 →
      isect d nx y (px m) (px (m + 1)) ≤ isect d nx y (px (m + 1)) x1)
    (hdom : ∀ j < x1 + 1, (∃ q : ℚ, d (j + y * nx) = fin q) → ∀ t : ℚ,
      (∃ k ≤ n, par d nx y (px k) t ≤ par d nx y j t) ∨ par d nx y x1 t ≤ par d nx y j t) :
    EnvInv d nx y (x1 + 1) (push d nx y x1 (fin q1) ⟨n, px, xi⟩).n
      (push d nx y x1 (fin q1) ⟨n, px, xi⟩).parabola_x
      (push d nx y x1 (fin q1) ⟨n, px, xi⟩).x_intersections ∧
    Dom d nx y (x1 + 1) (push d nx y x1 (fin q1) ⟨n, px, xi⟩).n
      (push d nx y x1 (fin q1) ⟨n, px, xi⟩).parabola_x := by
  obtain ⟨q0, hq0⟩ := hinv.finite n le_rfl
  have hlt : px n < x1 := lt_of_lt_of_le (hinv.lt_bound n le_rfl) hb
  have hne : ((x1 : ℚ) - (px n : ℚ)) ≠ 0 := by
    have : (px n : ℚ) < x1 := by exact_mod_cast hlt
    linarith
  have hxi : (push d nx y x1 (fin q1) ⟨n, px, xi⟩).x_intersections =
      Function.update xi n (fin (isect d nx y (px n) x1)) := by
    simp only [push, hq0, wrap32_sq x1 hw, wrap32_sq (px n) (by omega), ofInt, mul_fin_fin,
      add_fin_fin, sub_fin_fin]
    rw [div_fin_fin _ _ (by push_cast; exact hne)]
    simp only [mul_fin_fin, isect, hq1, hq0, fval]
    push_cast
    rfl
  have hpx : (push d nx y x1 (fin q1) ⟨n, px, xi⟩).parabola_x =
      Function.update px (n + 1) x1 := rfl
  have hn : (push d nx y x1 (fin q1) ⟨n, px, xi⟩).n = n + 1 := rfl
  rw [hxi, hpx, hn]
  have hold : ∀ k ≤ n, Function.update px (n + 1) x1 k = px k :=
    fun k hk => Function.update_noteq (by omega) _ _
  have hnew : Function.update px (n + 1) x1 (n + 1) = x1 := Function.update_same _ _ _
  constructor
  · refine ⟨?_, ?_, ?_, ?_, ?_⟩
    · intro k hk
      rcases Nat.lt_or_ge k (n + 1) with h | h
      · rw [hold k (by omega)]
        have := hinv.lt_bound k (by omega)
        omega
      · have : k = n + 1 := by omega
        subst this; rw [hnew]; omega
    · intro k hk
      rcases Nat.lt_or_ge k (n + 1) with h | h
      · rw [hold k (by omega)]; exact hinv.finite k (by omega)
      · have : k = n + 1 := by omega
        subst this; rw [hnew]; exact ⟨q1, hq1⟩
    · intro k hk
      rcases Nat.lt_or_ge k n with h | h
      · rw [hold k (by omega), hold (k + 1) (by omega)]; exact hinv.incr k h
      · have : k = n := by omega
        subst this; rw [hold k le_rfl, hnew]; exact hlt
    · intro k hk
      rcases Nat.lt_or_ge k n with h | h
      · rw [hold k (by omega), hold (k + 1) (by omega), Function.update_noteq (by omega)]
        exact hinv.isect_eq k h
      · have : k = n := by omega
        subst this; rw [hold k le_rfl, hnew, Function.update_same]
    · intro k hk
      rcases Nat.lt_or_ge (k + 1) n with h | h
      · rw [hold k (by omega), hold (k + 1) (by omega), hold (k + 2) (by omega)]
        exact hinv.mono k h
      · have hk1 : n = k + 1 := by omega
        rw [hold k (by omega), hold (k + 1) (by omega)]
        have h2 : k + 2 = n + 1 := by omega
        rw [h2, hnew]
        exact hlast k hk1
  · intro j hj hfin t
    rcases hdom j hj hfin t with ⟨k, hk, hle⟩ | hle
    · exact ⟨k, by omega, by rw [hold k hk]; exact hle⟩
    · exact ⟨n + 1, le_rfl, by rw [hnew]; exact hle⟩

theorem insert_parabola_spec (d : ℕ → CFloat) (nx y x1 : ℕ) (q1 : ℚ)
    (hq1 : d (x1 + y * nx) = fin q1) (px : ℕ → ℕ) (xi : ℕ → CFloat) (b : ℕ) (hb : b ≤ x1)
    (hw : x1 ≤ 46340) :
    ∀ n, EnvInv d nx y b n px xi →
      (∀ j < x1 + 1, (∃ q : ℚ, d (j + y * nx) = fin q) → ∀ t : ℚ,
        (∃ k ≤ n, par d nx y (px k) t ≤ par d nx y j t) ∨
          par d nx y x1 t ≤ par d nx y j t) →
      EnvInv d nx y (x1 + 1) (insert_parabola d nx y x1 (fin q1) px xi n).n
        (insert_parabola d nx y x1 (fin q1) px xi n).parabola_x
        (insert_parabola d nx y x1 (fin q1) px xi n).x_intersections ∧
      Dom d nx y (x1 + 1) (insert_parabola d nx y x1 (fin q1) px xi n).n
        (insert_parabola d nx y x1 (fin q1) px xi n).parabola_x := by
  intro n
  induction n with
  | zero =>
    intro hinv hdom
    exact push_spec d nx y x1 q1 hq1 px xi b 0 hb hw hinv (fun m hm => by omega) hdom
  | succ n ih =>
    intro hinv hdom
    obtain ⟨q0, hq0⟩ := hinv.finite (n + 1) le_rfl
    have hz := hinv.isect_eq n (by omega)
    have hlt0 : px n < px (n + 1) := hinv.incr n (by omega)
    have hlt1 : px (n + 1) < x1 := lt_of_lt_of_le (hinv.lt_bound (n + 1) le_rfl) hb
    have hcond : CFloat.gt
        (df_parabola (ofInt (px (n + 1))) (d (px (n + 1) + y * nx)) (xi n))
        (df_parabola (ofInt x1) (fin q1) (xi n)) =
        decide (par d nx y x1 (isect d nx y (px n) (px (n + 1))) <
          par d nx y (px (n + 1)) (isect d nx y (px n) (px (n + 1)))) := by
      rw [hz, hq0, df_parabola_eq_par d nx y _ q0 _ hq0, df_parabola_eq_par d nx y _ q1 _ hq1]
      rfl
    rw [insert_parabola]
    simp only [hcond]
    by_cases hc : par d nx y x1 (isect d nx y (px n) (px (n + 1))) <
        par d nx y (px (n + 1)) (isect d nx y (px n) (px (n + 1)))
    · simp only [hc, decide_True, if_true]
      apply ih hinv.pred
      intro j hj hfin t
      rcases hdom j hj hfin t with ⟨k, hk, hle⟩ | hle
      · rcases Nat.lt_or_ge k (n + 1) with h | h
        · exact Or.inl ⟨k, by omega, hle⟩
        · have hk1 : k = n + 1 := by omega
          subst hk1
          rcases le_or_lt t (isect d nx y (px n) (px (n + 1))) with ht | ht
          · left
            exact ⟨n, le_rfl,
              le_trans ((par_le_iff d nx y _ _ hlt0 t).2 ht) hle⟩
          · right
            have h1 : ¬ isect d nx y (px n) (px (n + 1)) ≤ isect d nx y (px (n + 1)) x1 := by
              intro h2
              have := (par_le_iff d nx y _ _ hlt1 _).2 h2
              linarith
            have h3 : isect d nx y (px (n + 1)) x1 ≤ t := by linarith
            exact le_trans ((par_ge_iff d nx y _ _ hlt1 t).2 h3) hle
      · exact Or.inr hle
    · simp only [hc, decide_False, Bool.false_eq_true, if_false]
      apply push_spec d nx y x1 q1 hq1 px xi b (n + 1) hb hw hinv _ hdom
      intro m hm
      have hmn : m = n := by omega
      subst hmn
      exact (par_le_iff d nx y _ _ hlt1 _).1 (not_lt.1 hc)

theorem build_envelope_aux (d : ℕ → CFloat) (nx y first : ℕ) (q : ℚ)
    (hq : d (first + y * nx) = fin q) (hbefore : ∀ j < first, d (j + y * nx) = pinf)
    (hext : ∀ x < nx, Ext (d (x + y * nx))) (px : ℕ → ℕ) (xi : ℕ → CFloat)
    (hpx : px 0 = first) (hw : nx ≤ 46341) (m : ℕ) (hm : first + 1 + m ≤ nx) :
    EnvInv d nx y (first + 1 + m)
      ((List.range' (first + 1) m).foldl (fun s x1 =>
        if CFloat.eq (d (x1 + y * nx)) DF_INFINITY then s
        else insert_parabola d nx y x1 (d (x1 + y * nx)) s.parabola_x s.x_intersections s.n)
        ⟨0, px, xi⟩).n
      ((List.range' (first + 1) m).foldl (fun s x1 =>
        if CFloat.eq (d (x1 + y * nx)) DF_INFINITY then s
        else insert_parabola d nx y x1 (d (x1 + y * nx)) s.parabola_x s.x_intersections s.n)
        ⟨0, px, xi⟩).parabola_x
      ((List.range' (first + 1) m).foldl (fun s x1 =>
        if CFloat.eq (d (x1 + y * nx)) DF_INFINITY then s
        else insert_parabola d nx y x1 (d (x1 + y * nx)) s.parabola_x s.x_intersections s.n)
        ⟨0, px, xi⟩).x_intersections ∧
    Dom d nx y (first + 1 + m)
      ((List.range' (first + 1) m).foldl (fun s x1 =>
        if CFloat.eq (d (x1 + y * nx)) DF_INFINITY then s
        else insert_parabola d nx y x1 (d (x1 + y * nx)) s.parabola_x s.x_intersections s.n)
        ⟨0, px, xi⟩).n
      ((List.range' (first + 1) m).foldl (fun s x1 =>
        if CFloat.eq (d (x1 + y * nx)) DF_INFINITY then s
        else insert_parabola d nx y x1 (d (x1 + y * nx)) s.parabola_x s.x_intersections s.n)
        ⟨0, px, xi⟩).parabola_x := by
  induction m with
  | zero =>
    simp only [List.range'_zero, List.foldl_nil, Nat.add_zero]
    constructor
    · refine ⟨?_, ?_, ?_, ?_, ?_⟩
      · intro k hk
        have : k = 0 := by omega
        subst this; omega
      · intro k hk
        have : k = 0 := by omega
        subst this; rw [hpx]; exact ⟨q, hq⟩
      · intro k hk; omega
      · intro k hk; omega
      · intro k hk; omega
    · intro j hj hfin t
      refine ⟨0, le_rfl, ?_⟩
      rcases Nat.lt_or_ge j first with h | h
      · obtain ⟨q', hq'⟩ := hfin
        rw [hbefore j h] at hq'; cases hq'
      · have : j = first := by omega
        rw [hpx, this]
  | succ m ih =>
    obtain ⟨hinv, hdom⟩ := ih (by omega)
    rw [foldl_range'_succ]
    set S := (List.range' (first + 1) m).foldl (fun s x1 =>
        if CFloat.eq (d (x1 + y * nx)) DF_INFINITY then s
        else insert_parabola d nx y x1 (d (x1 + y * nx)) s.parabola_x s.x_intersections s.n)
        ⟨0, px, xi⟩ with hS
    have hb : first + 1 + (m + 1) = first + 1 + m + 1 := by omega
    rw [hb]
    rcases hext (first + 1 + m) (by omega) with hinf | ⟨q1, hq1⟩
    · simp only [hinf, DF_INFINITY_eq, eq_pinf_pinf, if_true]
      constructor
      · exact ⟨fun k hk => by have := hinv.lt_bound k hk; omega, hinv.finite, hinv.incr,
          hinv.isect_eq, hinv.mono⟩
      · intro j hj hfin t
        rcases Nat.lt_or_ge j (first + 1 + m) with h | h
        · exact hdom j h hfin t
        · have : j = first + 1 + m := by omega
          subst this
          obtain ⟨q', hq'⟩ := hfin
          rw [hinf] at hq'; cases hq'
    · simp only [hq1, DF_INFINITY_eq, eq_fin_pinf, Bool.false_eq_true, if_false]
      apply insert_parabola_spec d nx y _ q1 hq1 _ _ (first + 1 + m) le_rfl (by omega) _ hinv
      intro j hj hfin t
      rcases Nat.lt_or_ge j (first + 1 + m) with h | h
      · exact Or.inl (hdom j h hfin t)
      · have : j = first + 1 + m := by omega
        subst this
        exact Or.inr le_rfl

theorem build_envelope_spec (d : ℕ → CFloat) (nx y first : ℕ) (hfirst : first < nx) (q : ℚ)
    (hq : d (first + y * nx) = fin q) (hbefore : ∀ j < first, d (j + y * nx) = pinf)
    (hext : ∀ x < nx, Ext (d (x + y * nx))) (px : ℕ → ℕ) (xi : ℕ → CFloat)
    (hpx : px 0 = first) (hw : nx ≤ 46341) :
    EnvInv d nx y nx (build_envelope d nx y first ⟨0, px, xi⟩).n
      (build_envelope d nx y first ⟨0, px, xi⟩).parabola_x
      (build_envelope d nx y first ⟨0, px, xi⟩).x_intersections ∧
    Dom d nx y nx (build_envelope d nx y first ⟨0, px, xi⟩).n
      (build_envelope d nx y first ⟨0, px, xi⟩).parabola_x := by
  have h := build_envelope_aux d nx y first q hq hbefore hext px xi hpx hw (nx - (first + 1))
    (by omega)
  have hb : first + 1 + (nx - (first + 1)) = nx := by omega
  rw [hb] at h
  exact h

theorem seed_search_spec (d : ℕ → CFloat) (nx y : ℕ) (k x1 : ℕ)
    (hext : ∀ x < x1 + k, Ext (d (x + y * nx))) :
    x1 ≤ seed_search d nx y k x1 ∧ seed_search d nx y k x1 ≤ x1 + k ∧
    (∀ x, x1 ≤ x → x < seed_search d nx y k x1 → d (x + y * nx) = pinf) ∧
    (seed_search d nx y k x1 < x1 + k →
      ∃ q : ℚ, d (seed_search d nx y k x1 + y * nx) = fin q) := by
  induction k generalizing x1 with
  | zero =>
    simp only [seed_search]
    exact ⟨le_rfl, le_rfl, fun x h1 h2 => by omega, fun h => by omega⟩
  | succ k ih =>
    rw [seed_search]
    rcases hext x1 (by omega) with hinf | ⟨q, hq⟩
    · simp only [hinf, DF_INFINITY_eq, lt_pinf, Bool.false_eq_true, if_false]
      obtain ⟨h1, h2, h3, h4⟩ := ih (x1 + 1) (fun x hx => hext x (by omega))
      refine ⟨by omega, by omega, ?_, fun h => h4 (by omega)⟩
      intro x hx1 hx2
      rcases Nat.lt_or_ge x1 x with h | h
      · exact h3 x (by omega) hx2
      · have : x = x1 := by omega
        subst this; exact hinf
    · simp only [hq, DF_INFINITY_eq, lt_fin_pinf, if_true]
      exact ⟨le_rfl, by omega, fun x h1 h2 => by omega, fun _ => ⟨q, rfl⟩⟩

/-! ## The row phase: envelope evaluation and copy back -/

theorem isect_mono {d : ℕ → CFloat} {nx y b N : ℕ} {px : ℕ → ℕ} {xi : ℕ → CFloat}
    (hinv : EnvInv d nx y b N px xi) :
    ∀ c a, a ≤ c → c < N →
      isect d nx y (px a) (px (a + 1)) ≤ isect d nx y (px c) (px (c + 1)) := by
  intro c
  induction c with
  | zero =>
    intro a ha _
    have : a = 0 := by omega
    subst this; exact le_rfl
  | succ c ih =>
    intro a ha hc
    rcases Nat.lt_or_ge a (c + 1) with h | h
    · exact le_trans (ih a (by omega) (by omega)) (hinv.mono c (by omega))
    · have : a = c + 1 := by omega
      subst this; exact le_rfl

theorem next_parabola_spec {d : ℕ → CFloat} {nx y b N : ℕ} {px : ℕ → ℕ} {xi : ℕ → CFloat}
    (hinv : EnvInv d nx y b N px xi) (x1 : ℕ) :
    ∀ n ≤ N, next_parabola xi x1 n ≤ n ∧
      (∀ m, next_parabola xi x1 n = m + 1 →
        isect d nx y (px m) (px (m + 1)) ≤ (x1 : ℚ)) ∧
      ∀ k, next_parabola xi x1 n ≤ k → k < n →
        (x1 : ℚ) < isect d nx y (px k) (px (k + 1)) := by
  intro n
  induction n with
  | zero =>
    intro _
    simp only [next_parabola]
    exact ⟨le_rfl, fun m hm => by omega, fun k _ hk => by omega⟩
  | succ n ih =>
    intro hn
    obtain ⟨h1, h2, h3⟩ := ih (by omega)
    rw [next_parabola, hinv.isect_eq n (by omega), ofInt_natCast, lt_fin_fin]
    by_cases hc : (x1 : ℚ) < isect d nx y (px n) (px (n + 1))
    · simp only [hc, decide_True, if_true]
      refine ⟨by omega, h2, ?_⟩
      intro k hk1 hk2
      rcases Nat.lt_or_ge k n with h | h
      · exact h3 k hk1 h
      · have : k = n := by omega
        subst this; exact hc
    · simp only [hc, decide_False, Bool.false_eq_true, if_false]
      refine ⟨le_rfl, ?_, fun k hk1 hk2 => by omega⟩
      intro m hm
      have : m = n := by omega
      subst this; exact not_lt.1 hc

theorem envelope_optimal {d : ℕ → CFloat} {nx y b N : ℕ} {px : ℕ → ℕ} {xi : ℕ → CFloat}
    (hinv : EnvInv d nx y b N px xi) (hdom : Dom d nx y b N px) (t : ℚ) (n : ℕ) (hn : n ≤ N)
    (hlow : ∀ m, n = m + 1 → isect d nx y (px m) (px (m + 1)) ≤ t)
    (hhigh : ∀ k, n ≤ k → k < N → t ≤ isect d nx y (px k) (px (k + 1))) :
    ∀ j < b, (∃ q : ℚ, d (j + y * nx) = fin q) →
      par d nx y (px n) t ≤ par d nx y j t := by
  have hup : ∀ i, n + i ≤ N → par d nx y (px n) t ≤ par d nx y (px (n + i)) t := by
    intro i
    induction i with
    | zero => intro _; exact le_rfl
    | succ i ih =>
      intro hi
      refine le_trans (ih (by omega)) ?_
      exact (par_le_iff d nx y _ _ (hinv.incr (n + i) (by omega)) t).2
        (hhigh (n + i) (by omega) (by omega))
  have hdown : ∀ i, i ≤ n → par d nx y (px n) t ≤ par d nx y (px (n - i)) t := by
    intro i
    induction i with
    | zero => intro _; exact le_rfl
    | succ i ih =>
      intro hi
      refine le_trans (ih (by omega)) ?_
      have h1 : n - i = n - (i + 1) + 1 := by omega
      have hlt : px (n - (i + 1)) < px (n - i) := by
        rw [h1]; exact hinv.incr _ (by omega)
      have hz : isect d nx y (px (n - (i + 1))) (px (n - i)) ≤ t := by
        obtain ⟨m, hm⟩ : ∃ m, n = m + 1 := ⟨n - 1, by omega⟩
        have h2 := isect_mono hinv m (n - (i + 1)) (by omega) (by omega)
        rw [← h1] at h2
        exact le_trans h2 (hlow m hm)
      exact (par_ge_iff d nx y _ _ hlt t).2 hz
  intro j hj hfin
  obtain ⟨k, hk, hle⟩ := hdom j hj hfin t
  refine le_trans ?_ hle
  rcases Nat.lt_or_ge k n with h | h
  · have := hdown (n - k) (by omega)
    have h2 : n - (n - k) = k := by omega
    rw [h2] at this; exact this
  · have := hup (k - n) (by omega)
    have h2 : n + (k - n) = k := by omega
    rw [h2] at this; exact this

theorem fill_step_temp (s : Field) (nx y : ℕ) (px : ℕ → ℕ) (xi : ℕ → CFloat) (f : Fill)
    (x1 x : ℕ) (hx : x ≠ x1) :
    (fill_step s nx y px xi f x1).temp_row_distances x = f.temp_row_distances x ∧
    (fill_step s nx y px xi f x1).temp_closest x = f.temp_closest x := by
  unfold fill_step
  constructor
  · exact Function.update_noteq hx _ _
  · cases s.closest_points with
    | none => rfl
    | some cp => exact Function.update_noteq hx _ _

theorem fill_step_temp_same (s : Field) (nx y : ℕ) (px : ℕ → ℕ) (xi : ℕ → CFloat) (f : Fill)
    (x1 : ℕ) :
    (fill_step s nx y px xi f x1).temp_row_distances x1 =
      df_parabola (ofInt (px (next_parabola xi x1 f.n)))
        (s.distances (px (next_parabola xi x1 f.n) + y * nx)) (ofInt x1) := by
  unfold fill_step
  exact Function.update_same _ _ _

theorem fill_step_closest (s : Field) (nx y : ℕ) (px : ℕ → ℕ) (xi : ℕ → CFloat) (f : Fill)
    (x1 : ℕ) :
    s.closest_points.map (fun _ => (fill_step s nx y px xi f x1).temp_closest x1) =
      cpAt s (px (next_parabola xi x1 f.n) + y * nx) := by
  unfold fill_step cpAt
  cases s.closest_points with
  | none => rfl
  | some cp => simp

theorem fill_row_aux (s : Field) (nx y N : ℕ) (px : ℕ → ℕ) (xi : ℕ → CFloat)
    (hinv : EnvInv s.distances nx y nx N px xi) (hdom : Dom s.distances nx y nx N px) :
    ∀ m : ℕ, ∀ f0 : Fill, f0.n ≤ N →
      (∀ k, f0.n ≤ k → k < N → (m : ℚ) ≤ isect s.distances nx y (px k) (px (k + 1))) →
      (∀ x < m, RowOut s nx y x
        (((List.range m).reverse.foldl (fill_step s nx y px xi) f0).temp_row_distances x)
        (s.closest_points.map (fun _ =>
          ((List.range m).reverse.foldl (fill_step s nx y px xi) f0).temp_closest x))) ∧
      ∀ x, m ≤ x →
        ((List.range m).reverse.foldl (fill_step s nx y px xi) f0).temp_row_distances x =
          f0.temp_row_distances x ∧
        ((List.range m).reverse.foldl (fill_step s nx y px xi) f0).temp_closest x =
          f0.temp_closest x := by
  intro m
  induction m with
  | zero =>
    intro f0 _ _
    exact ⟨fun x hx => by omega, fun x _ => ⟨rfl, rfl⟩⟩
  | succ m ih =>
    intro f0 hn hpre
    rw [foldl_range_reverse_succ]
    obtain ⟨h1, h2, h3⟩ := next_parabola_spec hinv m f0.n hn
    set n1 := next_parabola xi m f0.n with hn1
    have hhigh : ∀ k, n1 ≤ k → k < N →
        (m : ℚ) ≤ isect s.distances nx y (px k) (px (k + 1)) := by
      intro k hk1 hk2
      rcases Nat.lt_or_ge k f0.n with h | h
      · exact (h3 k hk1 h).le
      · have := hpre k h hk2
        push_cast at this
        linarith
    obtain ⟨ih1, ih2⟩ := ih (fill_step s nx y px xi f0 m) (le_trans h1 hn) hhigh
    constructor
    · intro x hx
      rcases Nat.lt_or_ge x m with h | h
      · exact ih1 x h
      · have hxm : x = m := by omega
        subst hxm
        rw [(ih2 x le_rfl).1, (ih2 x le_rfl).2, fill_step_closest]
        right
        obtain ⟨q, hq⟩ := hinv.finite n1 (le_trans h1 hn)
        have hopt := envelope_optimal hinv hdom (x : ℚ) n1 (le_trans h1 hn) h2 hhigh
        refine ⟨px n1, hinv.lt_bound n1 (le_trans h1 hn), q, hq, ?_, rfl, ?_⟩
        · rw [fill_step_temp_same, ← hn1, hq]; simp
        · intro x0' hx0' q' hq'
          have := hopt x0' hx0' ⟨q', hq'⟩
          simp only [par, hq, hq', fval] at this
          exact this
    · intro x hx
      have hne : x ≠ m := by omega
      rw [(ih2 x (by omega)).1, (ih2 x (by omega)).2]
      exact fill_step_temp s nx y px xi f0 m x hne

theorem fill_row_inf (s : Field) (nx y : ℕ) (px : ℕ → ℕ) (xi : ℕ → CFloat)
    (hinf : s.distances (px 0 + y * nx) = pinf) :
    ∀ m, ∀ f0 : Fill, f0.n = 0 → ∀ x < m,
      ((List.range m).reverse.foldl (fill_step s nx y px xi) f0).temp_row_distances x = pinf := by
  intro m
  induction m with
  | zero => intro f0 _ x hx; omega
  | succ m ih =>
    intro f0 hn x hx
    rw [foldl_range_reverse_succ]
    have hn1 : (fill_step s nx y px xi f0 m).n = 0 := by
      show next_parabola xi m f0.n = 0
      rw [hn]; rfl
    rcases Nat.lt_or_ge x m with h | h
    · exact ih _ hn1 x h
    · have hxm : x = m := by omega
      subst hxm
      have hfr : ∀ m', ∀ f1 : Fill, ∀ x', m' ≤ x' →
          ((List.range m').reverse.foldl (fill_step s nx y px xi) f1).temp_row_distances x' =
            f1.temp_row_distances x' := by
        intro m'
        induction m' with
        | zero => intro f1 x' _; rfl
        | succ m' ih' =>
          intro f1 x' hx'
          rw [foldl_range_reverse_succ, ih' _ x' (by omega)]
          exact (fill_step_temp s nx y px xi f1 m' x' (by omega)).1
      rw [hfr x _ x le_rfl]
      rw [fill_step_temp_same, hn]
      show df_parabola (ofInt (px 0)) (s.distances (px 0 + y * nx)) (ofInt x) = pinf
      rw [hinf]; simp

theorem copy_back_aux (nx y : ℕ) (tr : ℕ → CFloat) (tc : ℕ → df_point) (s : Field) :
    ∀ m : ℕ,
      (∀ x < m,
        ((List.range m).foldl (fun s x1 =>
          ({ distances := Function.update s.distances (x1 + y * nx) (tr x1)
             closest_points := s.closest_points.map
              (fun cp => Function.update cp (x1 + y * nx) (tc x1)) } : Field)) s).distances
            (x + y * nx) = tr x ∧
        cpAt ((List.range m).foldl (fun s x1 =>
          ({ distances := Function.update s.distances (x1 + y * nx) (tr x1)
             closest_points := s.closest_points.map
              (fun cp => Function.update cp (x1 + y * nx) (tc x1)) } : Field)) s)
            (x + y * nx) = s.closest_points.map (fun _ => tc x)) ∧
      (∀ i, (∀ x < m, i ≠ x + y * nx) →
        ((List.range m).foldl (fun s x1 =>
          ({ distances := Function.update s.distances (x1 + y * nx) (tr x1)
             closest_points := s.closest_points.map
              (fun cp => Function.update cp (x1 + y * nx) (tc x1)) } : Field)) s).distances i
            = s.distances i ∧
        cpAt ((List.range m).foldl (fun s x1 =>
          ({ distances := Function.update s.distances (x1 + y * nx) (tr x1)
             closest_points := s.closest_points.map
              (fun cp => Function.update cp (x1 + y * nx) (tc x1)) } : Field)) s) i
            = cpAt s i) ∧
      ∀ p : df_point,
        ((List.range m).foldl (fun s x1 =>
          ({ distances := Function.update s.distances (x1 + y * nx) (tr x1)
             closest_points := s.closest_points.map
              (fun cp => Function.update cp (x1 + y * nx) (tc x1)) } : Field))
            s).closest_points.map (fun _ => p) = s.closest_points.map (fun _ => p) := by
  intro m
  induction m with
  | zero =>
    exact ⟨fun x hx => by omega, fun i _ => ⟨rfl, rfl⟩, fun p => rfl⟩
  | succ m ih =>
    obtain ⟨ih1, ih2, ih3⟩ := ih
    rw [foldl_range_succ]
    set t := (List.range m).foldl (fun s x1 =>
          ({ distances := Function.update s.distances (x1 + y * nx) (tr x1)
             closest_points := s.closest_points.map
              (fun cp => Function.update cp (x1 + y * nx) (tc x1)) } : Field)) s with ht
    refine ⟨?_, ?_, ?_⟩
    · intro x hx
      rcases Nat.lt_or_ge x m with h | h
      · have hne : x + y * nx ≠ m + y * nx := by omega
        constructor
        · show Function.update _ _ _ _ = _
          rw [Function.update_noteq hne]; exact (ih1 x h).1
        · rw [← (ih1 x h).2]
          unfold cpAt
          cases t.closest_points with
          | none => rfl
          | some cp => simp [Function.update_noteq hne]
      · have hxm : x = m := by omega
        subst hxm
        constructor
        · show Function.update _ _ _ _ = _
          rw [Function.update_same]
        · rw [← ih3 (tc x)]
          unfold cpAt
          cases t.closest_points with
          | none => rfl
          | some cp => simp
    · intro i hi
      have hne : i ≠ m + y * nx := hi m (by omega)
      have := ih2 i (fun x hx => hi x (by omega))
      constructor
      · show Function.update _ _ _ _ = _
        rw [Function.update_noteq hne]; exact this.1
      · rw [← this.2]
        unfold cpAt
        cases t.closest_points with
        | none => rfl
        | some cp => simp [Function.update_noteq hne]
    · intro p
      rw [← ih3 p]
      cases t.closest_points with
      | none => rfl
      | some cp => rfl

theorem copy_back_spec (nx y : ℕ) (tr : ℕ → CFloat) (tc : ℕ → df_point) (s : Field) :
    (∀ x < nx, (copy_back nx y tr tc s).distances (x + y * nx) = tr x ∧
      cpAt (copy_back nx y tr tc s) (x + y * nx) = s.closest_points.map (fun _ => tc x)) ∧
    ∀ i, (∀ x < nx, i ≠ x + y * nx) →
      (copy_back nx y tr tc s).distances i = s.distances i ∧
      cpAt (copy_back nx y tr tc s) i = cpAt s i :=
  ⟨(copy_back_aux nx y tr tc s nx).1, (copy_back_aux nx y tr tc s nx).2.1⟩

theorem row_step_spec (nx y : ℕ) (s : Field) (m : Scratch) (hnx : 1 ≤ nx) (hw : nx ≤ 46341)
    (hext : ∀ x < nx, Ext (s.distances (x + y * nx))) :
    (∀ x < nx, RowOut s nx y x ((row_step nx (s, m) y).1.distances (x + y * nx))
      (cpAt (row_step nx (s, m) y).1 (x + y * nx))) ∧
    ∀ i, (∀ x < nx, i ≠ x + y * nx) →
      (row_step nx (s, m) y).1.distances i = s.distances i ∧
      cpAt (row_step nx (s, m) y).1 i = cpAt s i := by
  unfold row_step
  simp only []
  obtain ⟨_, hs2, hs3, hs4⟩ := seed_search_spec s.distances nx y nx 0
    (fun x hx => hext x (by omega))
  set first := seed_search s.distances nx y nx 0 with hfirst
  set px0 := Function.update m.parabola_x 0 (if first < nx then first else 0) with hpx0
  set e := build_envelope s.distances nx y first ⟨0, px0, m.x_intersections⟩ with he
  set f := fill_row s nx y e.parabola_x e.x_intersections
    ⟨e.n, m.temp_row_distances, m.temp_closest⟩ with hf
  obtain ⟨cb1, cb2⟩ := copy_back_spec nx y f.temp_row_distances f.temp_closest s
  refine ⟨?_, cb2⟩
  intro x hx
  rw [(cb1 x hx).1, (cb1 x hx).2]
  rcases Nat.lt_or_ge first nx with hlt | hge
  · obtain ⟨q, hq⟩ := hs4 (by omega)
    have hpx : px0 0 = first := by
      rw [hpx0, Function.update_same, if_pos hlt]
    obtain ⟨hinv, hdom⟩ := build_envelope_spec s.distances nx y first hlt q hq
      (fun j hj => hs3 j (by omega) hj) hext px0 m.x_intersections hpx hw
    exact (fill_row_aux s nx y e.n e.parabola_x e.x_intersections hinv hdom nx
      ⟨e.n, m.temp_row_distances, m.temp_closest⟩ le_rfl
      (fun k hk1 hk2 => by simp only at hk1; omega)).1 x hx
  · left
    have hall : ∀ x0 < nx, s.distances (x0 + y * nx) = pinf :=
      fun x0 hx0 => hs3 x0 (by omega) (by omega)
    refine ⟨?_, hall⟩
    have hee : e = ⟨0, px0, m.x_intersections⟩ := by
      rw [he]; unfold build_envelope
      have : nx - (first + 1) = 0 := by omega
      rw [this]; rfl
    have hpx : px0 0 = 0 := by
      rw [hpx0, Function.update_same, if_neg (by omega)]
    rw [hf, hee]
    exact fill_row_inf s nx y px0 m.x_intersections (by rw [hpx]; exact hall 0 (by omega)) nx
      _ rfl x hx

theorem RowOut_congr (s s' : Field) (nx y x : ℕ) (v : CFloat) (c : Option df_point)
    (h : ∀ x0 < nx, s'.distances (x0 + y * nx) = s.distances (x0 + y * nx) ∧
      cpAt s' (x0 + y * nx) = cpAt s (x0 + y * nx))
    (ho : RowOut s' nx y x v c) : RowOut s nx y x v c := by
  rcases ho with ⟨hv, hall⟩ | ⟨x0, hx0, q, hs, hv, hc, hmin⟩
  · left
    refine ⟨hv, ?_⟩
    intro x0 hx0
    rw [← (h x0 hx0).1]; exact hall x0 hx0
  · right
    refine ⟨x0, hx0, q, by rw [← (h x0 hx0).1]; exact hs, hv, by rw [hc, (h x0 hx0).2], ?_⟩
    intro x0' hx0' q' hq'
    exact hmin x0' hx0' q' (by rw [(h x0' hx0').1]; exact hq')

theorem row_phase_aux (nx ny : ℕ) (s : Field) (heap : Scratch) (hnx : 1 ≤ nx)
    (hw : nx ≤ 46341)
    (hext : ∀ x < nx, ∀ y < ny, Ext (s.distances (x + y * nx))) (k : ℕ) (hk : k ≤ ny) :
    (∀ y < k, ∀ x < nx, RowOut s nx y x
      (((List.range k).foldl (row_step nx) (s, heap)).1.distances (x + y * nx))
      (cpAt ((List.range k).foldl (row_step nx) (s, heap)).1 (x + y * nx))) ∧
    ∀ i, (∀ y < k, ∀ x < nx, i ≠ x + y * nx) →
      ((List.range k).foldl (row_step nx) (s, heap)).1.distances i = s.distances i ∧
      cpAt ((List.range k).foldl (row_step nx) (s, heap)).1 i = cpAt s i := by
  induction k with
  | zero =>
    exact ⟨fun y hy => by omega, fun i _ => ⟨rfl, rfl⟩⟩
  | succ k ih =>
    obtain ⟨ihr, ihf⟩ := ih (by omega)
    rw [foldl_range_succ]
    set st := (List.range k).foldl (row_step nx) (s, heap) with hst
    have hrow : ∀ x0 < nx, st.1.distances (x0 + k * nx) = s.distances (x0 + k * nx) ∧
        cpAt st.1 (x0 + k * nx) = cpAt s (x0 + k * nx) := by
      intro x0 hx0
      apply ihf
      intro y hy x hx h
      have := (idx_inj hx0 hx h).2
      omega
    obtain ⟨r1, r2⟩ := row_step_spec nx k st.1 st.2 hnx hw
      (fun x hx => by rw [(hrow x hx).1]; exact hext x hx k (by omega))
    constructor
    · intro y hy x hx
      rcases Nat.lt_or_ge y k with hlt | hge
      · have hne : ∀ x' < nx, x + y * nx ≠ x' + k * nx := by
          intro x' hx' h
          have := (idx_inj hx hx' h).2
          omega
        rw [(r2 _ hne).1, (r2 _ hne).2]
        exact ihr y hlt x hx
      · have hyk : y = k := by omega
        subst hyk
        exact RowOut_congr s st.1 nx y x _ _ hrow (r1 x hx)
    · intro i hi
      have h1 := r2 i (fun x hx => hi k (by omega) x hx)
      have h2 := ihf i (fun y hy x hx => hi y (by omega) x hx)
      exact ⟨h1.1.trans h2.1, h1.2.trans h2.2⟩

theorem row_phase_spec (nx ny : ℕ) (s : Field) (heap : Scratch) (hnx : 1 ≤ nx)
    (hw : nx ≤ 46341)
    (hext : ∀ x < nx, ∀ y < ny, Ext (s.distances (x + y * nx))) :
    ∀ x < nx, ∀ y < ny, RowOut s nx y x
      ((row_phase nx ny (s, heap)).1.distances (x + y * nx))
      (cpAt (row_phase nx ny (s, heap)).1 (x + y * nx)) :=
  fun x hx y hy => (row_phase_aux nx ny s heap hnx hw hext ny le_rfl).1 y hy x hx

/-! ## The row phase for every width

The lemmas of this section do not use the values of `x_intersections`: they hold for
every `nx`, whatever the `int` products of line 109 leave. -/

theorem next_parabola_le (xi : ℕ → CFloat) (x1 : ℕ) : ∀ n, next_parabola xi x1 n ≤ n := by
  intro n
  induction n with
  | zero => simp [next_parabola]
  | succ n ih =>
    rw [next_parabola]
    split_ifs
    · omega
    · exact le_rfl

theorem ApexInv.drop_top {d : ℕ → CFloat} {nx y b n : ℕ} {px : ℕ → ℕ}
    (h : ApexInv d nx y b (n + 1) px) : ApexInv d nx y b n px where
  lt_bound k hk := h.lt_bound k (by omega)
  finite k hk := h.finite k (by omega)
  incr k hk := h.incr k (by omega)

theorem EnvInv.apex {d : ℕ → CFloat} {nx y b n : ℕ} {px : ℕ → ℕ} {xi : ℕ → CFloat}
    (h : EnvInv d nx y b n px xi) : ApexInv d nx y b n px :=
  ⟨h.lt_bound, h.finite, h.incr⟩

theorem push_apex (d : ℕ → CFloat) (nx y x1 : ℕ) (q1 : ℚ) (hq1 : d (x1 + y * nx) = fin q1)
    (px : ℕ → ℕ) (xi : ℕ → CFloat) (b n : ℕ) (hb : b ≤ x1) (hinv : ApexInv d nx y b n px) :
    ApexInv d nx y (x1 + 1) (push d nx y x1 (fin q1) ⟨n, px, xi⟩).n
      (push d nx y x1 (fin q1) ⟨n, px, xi⟩).parabola_x := by
  have hlt : px n < x1 := lt_of_lt_of_le (hinv.lt_bound n le_rfl) hb
  have hpx : (push d nx y x1 (fin q1) ⟨n, px, xi⟩).parabola_x =
      Function.update px (n + 1) x1 := rfl
  have hn : (push d nx y x1 (fin q1) ⟨n, px, xi⟩).n = n + 1 := rfl
  rw [hpx, hn]
  have hold : ∀ k ≤ n, Function.update px (n + 1) x1 k = px k :=
    fun k hk => Function.update_noteq (by omega) _ _
  have hnew : Function.update px (n + 1) x1 (n + 1) = x1 := Function.update_same _ _ _
  refine ⟨?_, ?_, ?_⟩
  · intro k hk
    rcases Nat.lt_or_ge k (n + 1) with h | h
    · rw [hold k (by omega)]
      have := hinv.lt_bound k (by omega)
      omega
    · have : k = n + 1 := by omega
      subst this; rw [hnew]; omega
  · intro k hk
    rcases Nat.lt_or_ge k (n + 1) with h | h
    · rw [hold k (by omega)]; exact hinv.finite k (by omega)
    · have : k = n + 1 := by omega
      subst this; rw [hnew]; exact ⟨q1, hq1⟩
  · intro k hk
    rcases Nat.lt_or_ge k n with h | h
    · rw [hold k (by omega), hold (k + 1) (by omega)]; exact hinv.incr k h
    · have : k = n := by omega
      subst this; rw [hold k le_rfl, hnew]; exact hlt

theorem insert_parabola_apex (d : ℕ → CFloat) (nx y x1 : ℕ) (q1 : ℚ)
    (hq1 : d (x1 + y * nx) = fin q1) (px : ℕ → ℕ) (xi : ℕ → CFloat) (b : ℕ) (hb : b ≤ x1) :
    ∀ n, ApexInv d nx y b n px →
      ApexInv d nx y (x1 + 1) (insert_parabola d nx y x1 (fin q1) px xi n).n
        (insert_parabola d nx y x1 (fin q1) px xi n).parabola_x := by
  intro n
  induction n with
  | zero =>
    intro hinv
    exact push_apex d nx y x1 q1 hq1 px xi b 0 hb hinv
  | succ n ih =>
    intro hinv
    rw [insert_parabola]
    split_ifs
    · exact ih hinv.drop_top
    · exact push_apex d nx y x1 q1 hq1 px xi b (n + 1) hb hinv

theorem build_envelope_apex_aux (d : ℕ → CFloat) (nx y first : ℕ) (q : ℚ)
    (hq : d (first + y * nx) = fin q)
    (hext : ∀ x < nx, Ext (d (x + y * nx))) (px : ℕ → ℕ) (xi : ℕ → CFloat)
    (hpx : px 0 = first) (m : ℕ) (hm : first + 1 + m ≤ nx) :
    ApexInv d nx y (first + 1 + m)
      ((List.range' (first + 1) m).foldl (fun s x1 =>
        if CFloat.eq (d (x1 + y * nx)) DF_INFINITY then s
        else insert_parabola d nx y x1 (d (x1 + y * nx)) s.parabola_x s.x_intersections s.n)
        ⟨0, px, xi⟩).n
      ((List.range' (first + 1) m).foldl (fun s x1 =>
        if CFloat.eq (d (x1 + y * nx)) DF_INFINITY then s
        else insert_parabola d nx y x1 (d (x1 + y * nx)) s.parabola_x s.x_intersections s.n)
        ⟨0, px, xi⟩).parabola_x := by
  induction m with
  | zero =>
    simp only [List.range'_zero, List.foldl_nil, Nat.add_zero]
    refine ⟨?_, ?_, ?_⟩
    · intro k hk
      have : k = 0 := by omega
      subst this; omega
    · intro k hk
      have : k = 0 := by omega
      subst this; rw [hpx]; exact ⟨q, hq⟩
    · intro k hk; omega
  | succ m ih =>
    have hinv := ih (by omega)
    rw [foldl_range'_succ]
    set S := (List.range' (first + 1) m).foldl (fun s x1 =>
        if CFloat.eq (d (x1 + y * nx)) DF_INFINITY then s
        else insert_parabola d nx y x1 (d (x1 + y * nx)) s.parabola_x s.x_intersections s.n)
        ⟨0, px, xi⟩ with hS
    have hb : first + 1 + (m + 1) = first + 1 + m + 1 := by omega
    rw [hb]
    rcases hext (first + 1 + m) (by omega) with hinf | ⟨q1, hq1⟩
    · simp only [hinf, DF_INFINITY_eq, eq_pinf_pinf, if_true]
      exact ⟨fun k hk => by have := hinv.lt_bound k hk; omega, hinv.finite, hinv.incr⟩
    · simp only [hq1, DF_INFINITY_eq, eq_fin_pinf, Bool.false_eq_true, if_false]
      exact insert_parabola_apex d nx y _ q1 hq1 _ _ (first + 1 + m) le_rfl _ hinv

theorem build_envelope_apex (d : ℕ → CFloat) (nx y first : ℕ) (hfirst : first < nx) (q : ℚ)
    (hq : d (first + y * nx) = fin q)
    (hext : ∀ x < nx, Ext (d (x + y * nx))) (px : ℕ → ℕ) (xi : ℕ → CFloat)
    (hpx : px 0 = first) :
    ApexInv d nx y nx (build_envelope d nx y first ⟨0, px, xi⟩).n
      (build_envelope d nx y first ⟨0, px, xi⟩).parabola_x := by
  have h := build_envelope_apex_aux d nx y first q hq hext px xi hpx (nx - (first + 1))
    (by omega)
  have hb : first + 1 + (nx - (first + 1)) = nx := by omega
  rw [hb] at h
  exact h

theorem fill_row_pick (s : Field) (nx y N : ℕ) (px : ℕ → ℕ) (xi : ℕ → CFloat) :
    ∀ m : ℕ, ∀ f0 : Fill, f0.n ≤ N →
      (∀ x < m, ∃ k ≤ N,
        ((List.range m).reverse.foldl (fill_step s nx y px xi) f0).temp_row_distances x =
          df_parabola (ofInt (px k)) (s.distances (px k + y * nx)) (ofInt x) ∧
        s.closest_points.map (fun _ =>
          ((List.range m).reverse.foldl (fill_step s nx y px xi) f0).temp_closest x) =
          cpAt s (px k + y * nx)) ∧
      ∀ x, m ≤ x →
        ((List.range m).reverse.foldl (fill_step s nx y px xi) f0).temp_row_distances x =
          f0.temp_row_distances x ∧
        ((List.range m).reverse.foldl (fill_step s nx y px xi) f0).temp_closest x =
          f0.temp_closest x := by
  intro m
  induction m with
  | zero =>
    intro f0 _
    exact ⟨fun x hx => by omega, fun x _ => ⟨rfl, rfl⟩⟩
  | succ m ih =>
    intro f0 hn
    rw [foldl_range_reverse_succ]
    have h1 := next_parabola_le xi m f0.n
    obtain ⟨ih1, ih2⟩ := ih (fill_step s nx y px xi f0 m) (le_trans h1 hn)
    constructor
    · intro x hx
      rcases Nat.lt_or_ge x m with h | h
      · exact ih1 x h
      · have hxm : x = m := by omega
        subst hxm
        rw [(ih2 x le_rfl).1, (ih2 x le_rfl).2, fill_step_closest, fill_step_temp_same]
        exact ⟨next_parabola xi x f0.n, le_trans h1 hn, rfl, rfl⟩
    · intro x hx
      have hne : x ≠ m := by omega
      rw [(ih2 x (by omega)).1, (ih2 x (by omega)).2]
      exact fill_step_temp s nx y px xi f0 m x hne

theorem row_step_shape (nx y : ℕ) (s : Field) (m : Scratch) (hnx : 1 ≤ nx)
    (hext : ∀ x < nx, Ext (s.distances (x + y * nx))) :
    (∀ x < nx, RowShape s nx y x ((row_step nx (s, m) y).1.distances (x + y * nx))
      (cpAt (row_step nx (s, m) y).1 (x + y * nx))) ∧
    ∀ i, (∀ x < nx, i ≠ x + y * nx) →
      (row_step nx (s, m) y).1.distances i = s.distances i ∧
      cpAt (row_step nx (s, m) y).1 i = cpAt s i := by
  unfold row_step
  simp only []
  obtain ⟨_, hs2, hs3, hs4⟩ := seed_search_spec s.distances nx y nx 0
    (fun x hx => hext x (by omega))
  set first := seed_search s.distances nx y nx 0 with hfirst
  set px0 := Function.update m.parabola_x 0 (if first < nx then first else 0) with hpx0
  set e := build_envelope s.distances nx y first ⟨0, px0, m.x_intersections⟩ with he
  set f := fill_row s nx y e.parabola_x e.x_intersections
    ⟨e.n, m.temp_row_distances, m.temp_closest⟩ with hf
  obtain ⟨cb1, cb2⟩ := copy_back_spec nx y f.temp_row_distances f.temp_closest s
  refine ⟨?_, cb2⟩
  intro x hx
  rw [(cb1 x hx).1, (cb1 x hx).2]
  rcases Nat.lt_or_ge first nx with hlt | hge
  · obtain ⟨q, hq⟩ := hs4 (by omega)
    have hpx : px0 0 = first := by
      rw [hpx0, Function.update_same, if_pos hlt]
    have hinv := build_envelope_apex s.distances nx y first hlt q hq hext px0
      m.x_intersections hpx
    obtain ⟨k, hk, hv, hc⟩ := (fill_row_pick s nx y e.n e.parabola_x e.x_intersections nx
      ⟨e.n, m.temp_row_distances, m.temp_closest⟩ le_rfl).1 x hx
    obtain ⟨q0, hq0⟩ := hinv.finite k hk
    right
    refine ⟨e.parabola_x k, hinv.lt_bound k hk, q0, hq0, ?_, hc⟩
    rw [hf]
    unfold fill_row
    rw [hv, hq0]
    simp
  · left
    have hall : ∀ x0 < nx, s.distances (x0 + y * nx) = pinf :=
      fun x0 hx0 => hs3 x0 (by omega) (by omega)
    refine ⟨?_, hall⟩
    have hee : e = ⟨0, px0, m.x_intersections⟩ := by
      rw [he]; unfold build_envelope
      have : nx - (first + 1) = 0 := by omega
      rw [this]; rfl
    have hpx : px0 0 = 0 := by
      rw [hpx0, Function.update_same, if_neg (by omega)]
    rw [hf, hee]
    exact fill_row_inf s nx y px0 m.x_intersections (by rw [hpx]; exact hall 0 (by omega)) nx
      _ rfl x hx

theorem RowShape_congr (s s' : Field) (nx y x : ℕ) (v : CFloat) (c : Option df_point)
    (h : ∀ x0 < nx, s'.distances (x0 + y * nx) = s.distances (x0 + y * nx) ∧
      cpAt s' (x0 + y * nx) = cpAt s (x0 + y * nx))
    (ho : RowShape s' nx y x v c) : RowShape s nx y x v c := by
  rcases ho with ⟨hv, hall⟩ | ⟨x0, hx0, q, hs, hv, hc⟩
  · left
    refine ⟨hv, ?_⟩
    intro x0 hx0
    rw [← (h x0 hx0).1]; exact hall x0 hx0
  · right
    exact ⟨x0, hx0, q, by rw [← (h x0 hx0).1]; exact hs, hv, by rw [hc, (h x0 hx0).2]⟩

theorem row_phase_shape_aux (nx ny : ℕ) (s : Field) (heap : Scratch) (hnx : 1 ≤ nx)
    (hext : ∀ x < nx, ∀ y < ny, Ext (s.distances (x + y * nx))) (k : ℕ) (hk : k ≤ ny) :
    (∀ y < k, ∀ x < nx, RowShape s nx y x
      (((List.range k).foldl (row_step nx) (s, heap)).1.distances (x + y * nx))
      (cpAt ((List.range k).foldl (row_step nx) (s, heap)).1 (x + y * nx))) ∧
    ∀ i, (∀ y < k, ∀ x < nx, i ≠ x + y * nx) →
      ((List.range k).foldl (row_step nx) (s, heap)).1.distances i = s.distances i ∧
      cpAt ((List.range k).foldl (row_step nx) (s, heap)).1 i = cpAt s i := by
  induction k with
  | zero =>
    exact ⟨fun y hy => by omega, fun i _ => ⟨rfl, rfl⟩⟩
  | succ k ih =>
    obtain ⟨ihr, ihf⟩ := ih (by omega)
    rw [foldl_range_succ]
    set st := (List.range k).foldl (row_step nx) (s, heap) with hst
    have hrow : ∀ x0 < nx, st.1.distances (x0 + k * nx) = s.distances (x0 + k * nx) ∧
        cpAt st.1 (x0 + k * nx) = cpAt s (x0 + k * nx) := by
      intro x0 hx0
      apply ihf
      intro y hy x hx h
      have := (idx_inj hx0 hx h).2
      omega
    obtain ⟨r1, r2⟩ := row_step_shape nx k st.1 st.2 hnx
      (fun x hx => by rw [(hrow x hx).1]; exact hext x hx k (by omega))
    constructor
    · intro y hy x hx
      rcases Nat.lt_or_ge y k with hlt | hge
      · have hne : ∀ x' < nx, x + y * nx ≠ x' + k * nx := by
          intro x' hx' h
          have := (idx_inj hx hx' h).2
          omega
        rw [(r2 _ hne).1, (r2 _ hne).2]
        exact ihr y hlt x hx
      · have hyk : y = k := by omega
        subst hyk
        exact RowShape_congr s st.1 nx y x _ _ hrow (r1 x hx)
    · intro i hi
      have h1 := r2 i (fun x hx => hi k (by omega) x hx)
      have h2 := ihf i (fun y hy x hx => hi y (by omega) x hx)
      exact ⟨h1.1.trans h2.1, h1.2.trans h2.2⟩

theorem row_phase_shape (nx ny : ℕ) (s : Field) (heap : Scratch) (hnx : 1 ≤ nx)
    (hext : ∀ x < nx, ∀ y < ny, Ext (s.distances (x + y * nx))) :
    ∀ x < nx, ∀ y < ny, RowShape s nx y x
      ((row_phase nx ny (s, heap)).1.distances (x + y * nx))
      (cpAt (row_phase nx ny (s, heap)).1 (x + y * nx)) :=
  fun x hx y hy => (row_phase_shape_aux nx ny s heap hnx hext ny le_rfl).1 y hy x hx

/-! ## The apexes of the stack in binary32 arithmetic

The apexes do not depend on the values of `x_intersections`, so what holds for them in
exact arithmetic holds in binary32 as well. -/

theorem push32_apex (d : ℕ → CFloat) (nx y x1 : ℕ) (q1 : ℚ) (hq1 : d (x1 + y * nx) = fin q1)
    (px : ℕ → ℕ) (xi : ℕ → CFloat) (b n : ℕ) (hb : b ≤ x1) (hinv : ApexInv d nx y b n px) :
    ApexInv d nx y (x1 + 1) (push32 d nx y x1 (fin q1) ⟨n, px, xi⟩).n
      (push32 d nx y x1 (fin q1) ⟨n, px, xi⟩).parabola_x := by
  have hlt : px n < x1 := lt_of_lt_of_le (hinv.lt_bound n le_rfl) hb
  have hpx : (push32 d nx y x1 (fin q1) ⟨n, px, xi⟩).parabola_x =
      Function.update px (n + 1) x1 := rfl
  have hn : (push32 d nx y x1 (fin q1) ⟨n, px, xi⟩).n = n + 1 := rfl
  rw [hpx, hn]
  have hold : ∀ k ≤ n, Function.update px (n + 1) x1 k = px k :=
    fun k hk => Function.update_noteq (by omega) _ _
  have hnew : Function.update px (n + 1) x1 (n + 1) = x1 := Function.update_same _ _ _
  refine ⟨?_, ?_, ?_⟩
  · intro k hk
    rcases Nat.lt_or_ge k (n + 1) with h | h
    · rw [hold k (by omega)]
      have := hinv.lt_bound k (by omega)
      omega
    · have : k = n + 1 := by omega
      subst this; rw [hnew]; omega
  · intro k hk
    rcases Nat.lt_or_ge k (n + 1) with h | h
    · rw [hold k (by omega)]; exact hinv.finite k (by omega)
    · have : k = n + 1 := by omega
      subst this; rw [hnew]; exact ⟨q1, hq1⟩
  · intro k hk
    rcases Nat.lt_or_ge k n with h | h
    · rw [hold k (by omega), hold (k + 1) (by omega)]; exact hinv.incr k h
    · have : k = n := by omega
      subst this; rw [hold k le_rfl, hnew]; exact hlt

theorem insert_parabola32_apex (d : ℕ → CFloat) (nx y x1 : ℕ) (q1 : ℚ)
    (hq1 : d (x1 + y * nx) = fin q1) (px : ℕ → ℕ) (xi : ℕ → CFloat) (b : ℕ) (hb : b ≤ x1) :
    ∀ n, ApexInv d nx y b n px →
      ApexInv d nx y (x1 + 1) (insert_parabola32 d nx y x1 (fin q1) px xi n).n
        (insert_parabola32 d nx y x1 (fin q1) px xi n).parabola_x := by
  intro n
  induction n with
  | zero =>
    intro hinv
    exact push32_apex d nx y x1 q1 hq1 px xi b 0 hb hinv
  | succ n ih =>
    intro hinv
    rw [insert_parabola32]
    split_ifs
    · exact ih hinv.drop_top
    · exact push32_apex d nx y x1 q1 hq1 px xi b (n + 1) hb hinv

theorem build_envelope32_apex_aux (d : ℕ → CFloat) (nx y first : ℕ) (q : ℚ)
    (hq : d (first + y * nx) = fin q)
    (hext : ∀ x < nx, Ext (d (x + y * nx))) (px : ℕ → ℕ) (xi : ℕ → CFloat)
    (hpx : px 0 = first) (m : ℕ) (hm : first + 1 + m ≤ nx) :
    ApexInv d nx y (first + 1 + m)
      ((List.range' (first + 1) m).foldl (fun s x1 =>
        if CFloat.eq (d (x1 + y * nx)) DF_INFINITY then s
        else insert_parabola32 d nx y x1 (d (x1 + y * nx)) s.parabola_x s.x_intersections s.n)
        ⟨0, px, xi⟩).n
      ((List.range' (first + 1) m).foldl (fun s x1 =>
        if CFloat.eq (d (x1 + y * nx)) DF_INFINITY then s
        else insert_parabola32 d nx y x1 (d (x1 + y * nx)) s.parabola_x s.x_intersections s.n)
        ⟨0, px, xi⟩).parabola_x := by
  induction m with
  | zero =>
    simp only [List.range'_zero, List.foldl_nil, Nat.add_zero]
    refine ⟨?_, ?_, ?_⟩
    · intro k hk
      have : k = 0 := by omega
      subst this; omega
    · intro k hk
      have : k = 0 := by omega
      subst this; rw [hpx]; exact ⟨q, hq⟩
    · intro k hk; omega
  | succ m ih =>
    have hinv := ih (by omega)
    rw [foldl_range'_succ]
    set S := (List.range' (first + 1) m).foldl (fun s x1 =>
        if CFloat.eq (d (x1 + y * nx)) DF_INFINITY then s
        else insert_parabola32 d nx y x1 (d (x1 + y * nx)) s.parabola_x s.x_intersections s.n)
        ⟨0, px, xi⟩ with hS
    have hb : first + 1 + (m + 1) = first + 1 + m + 1 := by omega
    rw [hb]
    rcases hext (first + 1 + m) (by omega) with hinf | ⟨q1, hq1⟩
    · simp only [hinf, DF_INFINITY_eq, eq_pinf_pinf, if_true]
      exact ⟨fun k hk => by have := hinv.lt_bound k hk; omega, hinv.finite, hinv.incr⟩
    · simp only [hq1, DF_INFINITY_eq, eq_fin_pinf, Bool.false_eq_true, if_false]
      exact insert_parabola32_apex d nx y _ q1 hq1 _ _ (first + 1 + m) le_rfl _ hinv

theorem build_envelope32_apex (d : ℕ → CFloat) (nx y first : ℕ) (hfirst : first < nx) (q : ℚ)
    (hq : d (first + y * nx) = fin q)
    (hext : ∀ x < nx, Ext (d (x + y * nx))) (px : ℕ → ℕ) (xi : ℕ → CFloat)
    (hpx : px 0 = first) :
    ApexInv d nx y nx (build_envelope32 d nx y first ⟨0, px, xi⟩).n
      (build_envelope32 d nx y first ⟨0, px, xi⟩).parabola_x := by
  have h := build_envelope32_apex_aux d nx y first q hq hext px xi hpx (nx - (first + 1))
    (by omega)
  have hb : first + 1 + (nx - (first + 1)) = nx := by omega
  rw [hb] at h
  exact h

/-! ## A row whose width overflows the `int` product of line 109

A row that is `+inf` except for a 0 in its first and in its last cell.  When the `int`
product `x1*x1` of the last cell wraps to a negative value, the boundary between the two
parabolas falls left of the row and the first cell is given to the last parabola. -/

theorem column_phase_one (nx : ℕ) (s : Field) : column_phase nx 1 s = s := by
  unfold column_phase
  have h : ∀ (l : List ℕ) (t : Field),
      l.foldl (fun s x1 => sweep_up nx 1 x1 (sweep_down nx 1 x1 s)) t = t := by
    intro l
    induction l with
    | nil => intro t; rfl
    | cons a l ih => intro t; exact ih t
  exact h _ s

theorem row_phase_one (nx : ℕ) (st : Field × Scratch) :
    row_phase nx 1 st = row_step nx st 0 := rfl

theorem build_envelope_skip (d : ℕ → CFloat) (nx y a : ℕ) (S : Stack) :
    ∀ m, (∀ x1, a ≤ x1 → x1 < a + m → d (x1 + y * nx) = pinf) →
      (List.range' a m).foldl (fun s x1 =>
        if CFloat.eq (d (x1 + y * nx)) DF_INFINITY then s
        else insert_parabola d nx y x1 (d (x1 + y * nx)) s.parabola_x s.x_intersections s.n)
        S = S := by
  intro m
  induction m with
  | zero => intro _; rfl
  | succ m ih =>
    intro h
    rw [foldl_range'_succ, ih (fun x1 h1 h2 => h x1 h1 (by omega)),
      h (a + m) (by omega) (by omega)]
    simp

theorem fill_row_top (s : Field) (nx y N : ℕ) (px : ℕ → ℕ) (xi : ℕ → CFloat)
    (htop : ∀ x1, next_parabola xi x1 N = N) :
    ∀ m, ∀ f0 : Fill, f0.n = N → ∀ x < m,
      ((List.range m).reverse.foldl (fill_step s nx y px xi) f0).temp_row_distances x =
        df_parabola (ofInt (px N)) (s.distances (px N + y * nx)) (ofInt x) ∧
      s.closest_points.map (fun _ =>
        ((List.range m).reverse.foldl (fill_step s nx y px xi) f0).temp_closest x) =
        cpAt s (px N + y * nx) := by
  intro m
  induction m with
  | zero => intro f0 _ x hx; omega
  | succ m ih =>
    intro f0 hn x hx
    rw [foldl_range_reverse_succ]
    have hn1 : (fill_step s nx y px xi f0 m).n = N := by
      show next_parabola xi m f0.n = N
      rw [hn]; exact htop m
    rcases Nat.lt_or_ge x m with h | h
    · exact ih _ hn1 x h
    · have hxm : x = m := by omega
      subst hxm
      have h2 := (fill_row_pick s nx y N px xi x (fill_step s nx y px xi f0 x)
        (le_of_eq hn1)).2 x le_rfl
      rw [h2.1, h2.2, fill_step_closest, fill_step_temp_same, hn, htop x]
      exact ⟨rfl, rfl⟩

/-- The row phase on a row that holds 0 in its first and last cell and `+inf` between
them, when the `int` product `(nx - 1) * (nx - 1)` wraps to a negative value: every cell
receives the parabola of the last cell. -/
theorem row_step_wrapped (nx y : ℕ) (s : Field) (m : Scratch) (hnx : 2 ≤ nx)
    (h0 : s.distances (0 + y * nx) = fin 0) (h1 : s.distances (nx - 1 + y * nx) = fin 0)
    (hmid : ∀ x, 0 < x → x < nx - 1 → s.distances (x + y * nx) = pinf)
    (hwrap : wrap32 (((nx - 1 : ℕ) : ℤ) * ((nx - 1 : ℕ) : ℤ)) < 0) (x : ℕ) (hx : x < nx) :
    (row_step nx (s, m) y).1.distances (x + y * nx) =
      fin (((x : ℚ) - ((nx - 1 : ℕ) : ℚ)) ^ 2) ∧
    cpAt (row_step nx (s, m) y).1 (x + y * nx) = cpAt s (nx - 1 + y * nx) := by
  have hext : ∀ x < nx, Ext (s.distances (x + y * nx)) := by
    intro x0 hx0
    rcases Nat.eq_zero_or_pos x0 with hz | hp
    · subst hz; exact Or.inr ⟨0, h0⟩
    · rcases Nat.lt_or_ge x0 (nx - 1) with hl | hg
      · exact Or.inl (hmid x0 hp hl)
      · have : x0 = nx - 1 := by omega
        subst this; exact Or.inr ⟨0, h1⟩
  obtain ⟨_, _, hs3, _⟩ := seed_search_spec s.distances nx y nx 0
    (fun x hx => hext x (by omega))
  have hfirst : seed_search s.distances nx y nx 0 = 0 := by
    by_contra hne
    have := hs3 0 le_rfl (Nat.pos_of_ne_zero hne)
    rw [h0] at this; cases this
  unfold row_step
  simp only []
  rw [hfirst]
  set px0 := Function.update m.parabola_x 0 (if 0 < nx then 0 else 0) with hpx0
  have hpx00 : px0 0 = 0 := by
    rw [hpx0, Function.update_same]; simp
  have he : build_envelope s.distances nx y 0 ⟨0, px0, m.x_intersections⟩ =
      push s.distances nx y (nx - 1) (fin 0) ⟨0, px0, m.x_intersections⟩ := by
    unfold build_envelope
    have hm : nx - (0 + 1) = (nx - 2) + 1 := by omega
    rw [hm, foldl_range'_succ, build_envelope_skip s.distances nx y (0 + 1) _ (nx - 2)
      (fun x1 hx1 hx2 => hmid x1 (by omega) (by omega))]
    have hl : 0 + 1 + (nx - 2) = nx - 1 := by omega
    rw [hl, h1]
    have hm2 : nx - 2 + 1 = nx - 1 := by omega
    simp [insert_parabola, hm2]
  rw [he]
  set e := push s.distances nx y (nx - 1) (fin 0) ⟨0, px0, m.x_intersections⟩ with hedef
  have hen : e.n = 1 := rfl
  have hepx : e.parabola_x 1 = nx - 1 := by
    show Function.update px0 (0 + 1) (nx - 1) 1 = nx - 1
    exact Function.update_same _ _ _
  have hpos : (0 : ℚ) < ((nx - 1 : ℕ) : ℚ) := by
    have : 0 < nx - 1 := by omega
    exact_mod_cast this
  have hexi : ∃ z : ℚ, z < 0 ∧ e.x_intersections 0 = fin z := by
    refine ⟨1 / 2 / ((nx - 1 : ℕ) : ℚ) *
      ((wrap32 (((nx - 1 : ℕ) : ℤ) * ((nx - 1 : ℕ) : ℤ)) : ℤ) : ℚ), ?_, ?_⟩
    · have hneg : ((wrap32 (((nx - 1 : ℕ) : ℤ) * ((nx - 1 : ℕ) : ℤ)) : ℤ) : ℚ) < 0 := by
        exact_mod_cast hwrap
      exact mul_neg_of_pos_of_neg (by positivity) hneg
    · show Function.update m.x_intersections 0 _ 0 = _
      rw [Function.update_same]
      show CFloat.mul (CFloat.div (fin (1 / 2)) (ofInt (((nx - 1 : ℕ) : ℤ) - ((px0 0 : ℕ) : ℤ))))
        (CFloat.sub (CFloat.sub (CFloat.add
          (ofInt (wrap32 (((nx - 1 : ℕ) : ℤ) * ((nx - 1 : ℕ) : ℤ)))) (CFloat.mul (fin 0) (fin 0)))
          (ofInt (wrap32 (((px0 0 : ℕ) : ℤ) * ((px0 0 : ℕ) : ℤ)))))
          (CFloat.mul (s.distances (px0 0 + y * nx)) (s.distances (px0 0 + y * nx)))) = _
      rw [hpx00, h0]
      have hw0 : wrap32 (((0 : ℕ) : ℤ) * ((0 : ℕ) : ℤ)) = 0 := by norm_num [wrap32]
      rw [hw0]
      simp only [ofInt, mul_fin_fin, add_fin_fin, sub_fin_fin]
      rw [div_fin_fin _ _ (by push_cast; simpa using hpos.ne')]
      simp only [mul_fin_fin]
      refine congrArg fin ?_
      generalize wrap32 (((nx - 1 : ℕ) : ℤ) * ((nx - 1 : ℕ) : ℤ)) = w
      push_cast
      ring
  obtain ⟨z, hz, hxi⟩ := hexi
  have htop : ∀ x1, next_parabola e.x_intersections x1 1 = 1 := by
    intro x1
    rw [next_parabola, hxi, ofInt_natCast, lt_fin_fin]
    have : ¬ ((x1 : ℚ) < z) := by
      have : (0 : ℚ) ≤ x1 := Nat.cast_nonneg x1
      linarith
    simp [this]
  set f := fill_row s nx y e.parabola_x e.x_intersections
    ⟨e.n, m.temp_row_distances, m.temp_closest⟩ with hf
  obtain ⟨cb1, _⟩ := copy_back_spec nx y f.temp_row_distances f.temp_closest s
  rw [(cb1 x hx).1, (cb1 x hx).2]
  have ht := fill_row_top s nx y 1 e.parabola_x e.x_intersections htop nx
    ⟨e.n, m.temp_row_distances, m.temp_closest⟩ hen x hx
  rw [hepx] at ht
  refine ⟨?_, ht.2⟩
  rw [hf]
  unfold fill_row
  rw [ht.1, h1]
  simp [sq]

/-! ## The whole transform -/

theorem init_closest_row (nx y : ℕ) (c : ℕ → df_point) (m : ℕ) :
    (∀ x < m, (List.range m).foldl (fun cp x1 =>
        Function.update cp (x1 + y * nx) (⟨(x1 : ℤ), (y : ℤ)⟩ : df_point)) c (x + y * nx) =
        ⟨(x : ℤ), (y : ℤ)⟩) ∧
    ∀ i, (∀ x < m, i ≠ x + y * nx) →
      (List.range m).foldl (fun cp x1 =>
        Function.update cp (x1 + y * nx) (⟨(x1 : ℤ), (y : ℤ)⟩ : df_point)) c i = c i := by
  induction m with
  | zero => exact ⟨fun x hx => by omega, fun i _ => rfl⟩
  | succ m ih =>
    obtain ⟨ih1, ih2⟩ := ih
    rw [foldl_range_succ]
    constructor
    · intro x hx
      rcases Nat.lt_or_ge x m with h | h
      · rw [Function.update_noteq (by omega)]; exact ih1 x h
      · have : x = m := by omega
        subst this; rw [Function.update_same]
    · intro i hi
      rw [Function.update_noteq (hi m (by omega))]
      exact ih2 i (fun x hx => hi x (by omega))

theorem init_closest_aux (nx : ℕ) (c : ℕ → df_point) (k : ℕ) :
    (∀ y < k, ∀ x < nx, (List.range k).foldl (fun cp y =>
        (List.range nx).foldl (fun cp x1 =>
          Function.update cp (x1 + y * nx) (⟨(x1 : ℤ), (y : ℤ)⟩ : df_point)) cp) c
        (x + y * nx) = ⟨(x : ℤ), (y : ℤ)⟩) ∧
    ∀ i, (∀ y < k, ∀ x < nx, i ≠ x + y * nx) →
      (List.range k).foldl (fun cp y =>
        (List.range nx).foldl (fun cp x1 =>
          Function.update cp (x1 + y * nx) (⟨(x1 : ℤ), (y : ℤ)⟩ : df_point)) cp) c i = c i := by
  induction k with
  | zero => exact ⟨fun y hy => by omega, fun i _ => rfl⟩
  | succ k ih =>
    obtain ⟨ih1, ih2⟩ := ih
    rw [foldl_range_succ]
    constructor
    · intro y hy x hx
      rcases Nat.lt_or_ge y k with h | h
      · rw [(init_closest_row nx k _ nx).2]
        · exact ih1 y h x hx
        · intro x' hx' heq
          have := (idx_inj hx hx' heq).2
          omega
      · have : y = k := by omega
        subst this
        exact (init_closest_row nx y _ nx).1 x hx
    · intro i hi
      rw [(init_closest_row nx k _ nx).2 i (fun x hx => hi k (by omega) x hx)]
      exact ih2 i (fun y hy x hx => hi y (by omega) x hx)

theorem init_closest_spec (nx ny : ℕ) (c : ℕ → df_point) (x y : ℕ) (hx : x < nx)
    (hy : y < ny) : init_closest nx ny c (x + y * nx) = ⟨(x : ℤ), (y : ℤ)⟩ :=
  (init_closest_aux nx c ny).1 y hy x hx

theorem valid_cases {d : ℕ → CFloat} {nx ny : ℕ} (h : Valid d nx ny) (x : ℕ) (hx : x < nx)
    (y : ℕ) (hy : y < ny) :
    d (x + y * nx) = pinf ∨ ∃ q : ℚ, 0 ≤ q ∧ d (x + y * nx) = fin q := by
  have := h x hx y hy
  cases hd : d (x + y * nx) with
  | fin q =>
    rw [hd] at this
    exact Or.inr ⟨q, by simpa [nonnegOrInf] using this, rfl⟩
  | pinf => exact Or.inl rfl
  | ninf => rw [hd] at this; cases this
  | nan => rw [hd] at this; cases this

theorem df_spec (heap : Scratch) (d : ℕ → CFloat) (nx ny : ℕ)
    (closest_points : Option (ℕ → df_point)) (hnx : 1 ≤ nx) (hny : 1 ≤ ny) (hw : nx ≤ 46341)
    (hvalid : Valid d nx ny) (x y : ℕ) (hx : x < nx) (hy : y < ny) :
    DfOut d nx ny closest_points x y
      ((df heap d nx ny closest_points).distances (x + y * nx))
      (cpAt (df heap d nx ny closest_points) (x + y * nx)) := by
  unfold df
  simp only []
  set s0 : Field := ⟨d, closest_points.map (init_closest nx ny)⟩ with hs0
  have hcp0 : ∀ x0 < nx, ∀ y0 < ny,
      cpAt s0 (x0 + y0 * nx) = closest_points.map (fun _ => (⟨(x0 : ℤ), (y0 : ℤ)⟩ : df_point)) := by
    intro x0 hx0 y0 hy0
    unfold cpAt
    cases closest_points with
    | none => rfl
    | some c => simp [hs0, init_closest_spec nx ny c x0 y0 hx0 hy0]
  have hext0 : ∀ x < nx, ∀ y < ny, Ext (s0.distances (x + y * nx)) := by
    intro x0 hx0 y0 hy0
    rcases valid_cases hvalid x0 hx0 y0 hy0 with h | ⟨q, _, h⟩
    · exact Or.inl h
    · exact Or.inr ⟨q, h⟩
  have hcol := column_phase_spec nx ny s0 hny hext0
  set s1 := column_phase nx ny s0 with hs1
  have hext1 : ∀ x < nx, ∀ y < ny, Ext (s1.distances (x + y * nx)) := by
    intro x0 hx0 y0 hy0
    rcases hcol x0 hx0 y0 hy0 with ⟨h, _⟩ | ⟨_, _, _, _, h, _⟩
    · exact Or.inl h
    · exact Or.inr ⟨_, h⟩
  have hrow := row_phase_spec nx ny s1 heap hnx hw hext1 x hx y hy
  rcases hrow with ⟨hv, hall⟩ | ⟨x0, hx0, qv, hs, hv, hc, hmin⟩
  · left
    refine ⟨hv, ?_⟩
    intro x0 hx0 y0 hy0
    rcases hcol x0 hx0 y hy with ⟨_, _, h⟩ | ⟨_, _, _, _, h, _⟩
    · exact h y0 hy0
    · rw [hall x0 hx0] at h; cases h
  · right
    rcases hcol x0 hx0 y hy with ⟨h, _⟩ | ⟨y0, hy0, q, hq, hval, hcc, _⟩
    · rw [hs] at h; cases h
    · rw [hs] at hval
      have hqv : qv = q + |(y : ℚ) - y0| := by injection hval
      refine ⟨x0, hx0, y0, hy0, q, hq, ?_, ?_, ?_⟩
      · rw [hv, hqv]; unfold offer; congr 1; ring
      · rw [hc, hcc, hcp0 x0 hx0 y0 hy0]
      · intro x0' hx0' y0' hy0' q' hq'
        rcases hcol x0' hx0' y hy with ⟨_, _, h⟩ | ⟨y1, hy1, q1, hq1, hval1, _, hmin1⟩
        · have hq2 : s0.distances (x0' + y0' * nx) = fin q' := hq'
          rw [h y0' hy0'] at hq2; cases hq2
        · have h1 := hmin x0' hx0' _ hval1
          have h2 := hmin1 y0' hy0' q' hq'
          have hq1nn : 0 ≤ q1 := by
            replace hq1 : d (x0' + y1 * nx) = fin q1 := hq1
            rcases valid_cases hvalid x0' hx0' y1 hy1 with h | ⟨q2, hq2, h⟩
            · rw [h] at hq1; cases hq1
            · rw [h] at hq1; injection hq1 with h3; rw [← h3]; exact hq2
          have h3 : 0 ≤ q1 + |(y : ℚ) - y1| := add_nonneg hq1nn (abs_nonneg _)
          have h4 : (q1 + |(y : ℚ) - y1|) * (q1 + |(y : ℚ) - y1|) ≤
              (q' + |(y : ℚ) - y0'|) * (q' + |(y : ℚ) - y0'|) :=
            mul_self_le_mul_self h3 h2
          unfold offer
          rw [hqv] at h1
          nlinarith [h1, h4]

/-- For every width: on a well-formed grid `df` leaves in each cell `+inf`, when the grid
has no finite cell, or the offer of a finite cell, which it records. -/
theorem df_shape (heap : Scratch) (d : ℕ → CFloat) (nx ny : ℕ)
    (closest_points : Option (ℕ → df_point)) (hnx : 1 ≤ nx) (hny : 1 ≤ ny)
    (hvalid : Valid d nx ny) (x y : ℕ) (hx : x < nx) (hy : y < ny) :
    DfShape d nx ny closest_points x y
      ((df heap d nx ny closest_points).distances (x + y * nx))
      (cpAt (df heap d nx ny closest_points) (x + y * nx)) := by
  unfold df
  simp only []
  set s0 : Field := ⟨d, closest_points.map (init_closest nx ny)⟩ with hs0
  have hcp0 : ∀ x0 < nx, ∀ y0 < ny,
      cpAt s0 (x0 + y0 * nx) = closest_points.map (fun _ => (⟨(x0 : ℤ), (y0 : ℤ)⟩ : df_point)) := by
    intro x0 hx0 y0 hy0
    unfold cpAt
    cases closest_points with
    | none => rfl
    | some c => simp [hs0, init_closest_spec nx ny c x0 y0 hx0 hy0]
  have hext0 : ∀ x < nx, ∀ y < ny, Ext (s0.distances (x + y * nx)) := by
    intro x0 hx0 y0 hy0
    rcases valid_cases hvalid x0 hx0 y0 hy0 with h | ⟨q, _, h⟩
    · exact Or.inl h
    · exact Or.inr ⟨q, h⟩
  have hcol := column_phase_spec nx ny s0 hny hext0
  set s1 := column_phase nx ny s0 with hs1
  have hext1 : ∀ x < nx, ∀ y < ny, Ext (s1.distances (x + y * nx)) := by
    intro x0 hx0 y0 hy0
    rcases hcol x0 hx0 y0 hy0 with ⟨h, _⟩ | ⟨_, _, _, _, h, _⟩
    · exact Or.inl h
    · exact Or.inr ⟨_, h⟩
  have hrow := row_phase_shape nx ny s1 heap hnx hext1 x hx y hy
  rcases hrow with ⟨hv, hall⟩ | ⟨x0, hx0, qv, hs, hv, hc⟩
  · left
    refine ⟨hv, ?_⟩
    intro x0 hx0 y0 hy0
    rcases hcol x0 hx0 y hy with ⟨_, _, h⟩ | ⟨_, _, _, _, h, _⟩
    · exact h y0 hy0
    · rw [hall x0 hx0] at h; cases h
  · right
    rcases hcol x0 hx0 y hy with ⟨h, _⟩ | ⟨y0, hy0, q, hq, hval, hcc, _⟩
    · rw [hs] at h; cases h
    · rw [hs] at hval
      have hqv : qv = q + |(y : ℚ) - y0| := by injection hval
      refine ⟨x0, hx0, y0, hy0, q, hq, ?_, ?_⟩
      · rw [hv, hqv]; unfold offer; congr 1; ring
      · rw [hc, hcc, hcp0 x0 hx0 y0 hy0]

theorem offer_zero (x y x0 y0 : ℕ) :
    offer x y x0 y0 0 = ((x : ℚ) - x0) ^ 2 + ((y : ℚ) - y0) ^ 2 := by
  unfold offer
  rw [zero_add, sq_abs]

theorem offer_nonneg (x y x0 y0 : ℕ) (q : ℚ) : 0 ≤ offer x y x0 y0 q := by
  unfold offer
  positivity

theorem valid_of_mask {d : ℕ → CFloat} {nx ny : ℕ}
    (hmask : ∀ x < nx, ∀ y < ny, d (x + y * nx) = fin 0 ∨ d (x + y * nx) = pinf) :
    Valid d nx ny := by
  intro x hx y hy
  rcases hmask x hx y hy with h | h <;> rw [h] <;> simp [nonnegOrInf]

/-- On a well-formed grid with a finite cell, `df` leaves in each cell the least offer
of a finite cell, and records that cell. -/
theorem df_spec_finite (heap : Scratch) (d : ℕ → CFloat) (nx ny : ℕ)
    (closest_points : Option (ℕ → df_point)) (hnx : 1 ≤ nx) (hny : 1 ≤ ny) (hw : nx ≤ 46341)
    (hvalid : Valid d nx ny)
    (hseed : ∃ x < nx, ∃ y < ny, ∃ q : ℚ, d (x + y * nx) = fin q)
    (x y : ℕ) (hx : x < nx) (hy : y < ny) :
    ∃ x0 < nx, ∃ y0 < ny, ∃ q : ℚ, 0 ≤ q ∧ d (x0 + y0 * nx) = fin q ∧
      (df heap d nx ny closest_points).distances (x + y * nx) = fin (offer x y x0 y0 q) ∧
      cpAt (df heap d nx ny closest_points) (x + y * nx) =
        closest_points.map (fun _ => (⟨(x0 : ℤ), (y0 : ℤ)⟩ : df_point)) ∧
      ∀ x0' < nx, ∀ y0' < ny, ∀ q' : ℚ, d (x0' + y0' * nx) = fin q' →
        offer x y x0 y0 q ≤ offer x y x0' y0' q' := by
  rcases df_spec heap d nx ny closest_points hnx hny hw hvalid x y hx hy with
    ⟨_, hall⟩ | ⟨x0, hx0, y0, hy0, q, hq, hv, hc, hmin⟩
  · obtain ⟨sx, hsx, sy, hsy, q, hq⟩ := hseed
    rw [hall sx hsx sy hsy] at hq; cases hq
  · refine ⟨x0, hx0, y0, hy0, q, ?_, hq, hv, hc, hmin⟩
    rcases valid_cases hvalid x0 hx0 y0 hy0 with h | ⟨q2, hq2, h⟩
    · rw [h] at hq; cases hq
    · rw [h] at hq; injection hq with h3; rw [← h3]; exact hq2

/-! ## The 46342x1 grid `gridW` in exact arithmetic -/

theorem gridW_mask (x y : ℕ) :
    gridW (x + y * 46342) = fin 0 ∨ gridW (x + y * 46342) = pinf := by
  unfold gridW
  split_ifs
  · exact Or.inl rfl
  · exact Or.inr rfl

theorem gridW_valid : Valid gridW 46342 1 :=
  valid_of_mask (fun x _ y _ => gridW_mask x y)

/-- The row phase on the row of `gridW`, for any contents of the scratch arrays and any
closest points: the cell `x` receives `(x - 46341)^2`, the parabola of the last cell,
because the `int` product `46341 * 46341` wraps to `-2147479015` and the boundary
between the two parabolas is negative. -/
theorem row_step_gridW (c : Option (ℕ → df_point)) (m : Scratch) (x : ℕ) (hx : x < 46342) :
    (row_step 46342 (⟨gridW, c⟩, m) 0).1.distances (x + 0 * 46342) =
      fin (((x : ℚ) - 46341) ^ 2) := by
  have h := (row_step_wrapped 46342 0 ⟨gridW, c⟩ m (by norm_num)
    (by simp [gridW]) (by simp [gridW])
    (fun x1 h1 h2 => by
      show gridW (x1 + 0 * 46342) = pinf
      have h3 : ¬ (x1 + 0 * 46342 = 0 ∨ x1 + 0 * 46342 = 46341) := by omega
      simp only [gridW, h3, if_false])
    (by norm_num [wrap32]) x hx).1
  rw [h]
  norm_num

/-- The transform on `gridW`: the cell `x` ends at `(x - 46341)^2`. -/
theorem df_gridW (heap : Scratch) (closest_points : Option (ℕ → df_point)) (x : ℕ)
    (hx : x < 46342) :
    (df heap gridW 46342 1 closest_points).distances (x + 0 * 46342) =
      fin (((x : ℚ) - 46341) ^ 2) := by
  unfold df
  simp only []
  rw [column_phase_one, row_phase_one]
  exact row_step_gridW _ heap x hx

/-! ## Rounding to binary32 -/

/-- The function `round32` on known binary32 roundings: `0.1f` is `13421773 * 2^-27`;
`2^24 + 1` and `2^24 + 3` are ties and go to the even neighbours `2^24` and `2^24 + 4`;
the largest finite value is `2^128 - 2^104` and `2^128 - 2^103` rounds to `+inf`; the
least subnormal number is `2^-149`, and `2^-150` is a tie that goes to 0. -/
theorem round32_values :
    round32 (1 / 10) = fin (13421773 / 134217728) ∧
    round32 16777217 = fin 16777216 ∧
    round32 16777219 = fin 16777220 ∧
    round32 (-16777219) = fin (-16777220) ∧
    round32 (340282356779733661637539395458142568448 - 1) =
      fin 340282346638528859811704183484516925440 ∧
    round32 340282356779733661637539395458142568448 = pinf ∧
    round32 (1 / 2 ^ 149) = fin (1 / 2 ^ 149) ∧
    round32 (1 / 2 ^ 150) = fin 0 ∧
    round32 (3 / 2 ^ 150) = fin (1 / 2 ^ 148) := by
  refine ⟨by decide!, by decide!, by decide!, by decide!, by decide!, by decide!, by decide!,
    by decide!, by decide!⟩

theorem pow2_pos (k : ℤ) : 0 < pow2 k := by
  unfold pow2
  split_ifs <;> positivity

/-- A non-negative rational rounds to `+inf` or to a non-negative binary32 value. -/
theorem round32_nonneg (q : ℚ) (hq : 0 ≤ q) :
    round32 q = pinf ∨ ∃ r : ℚ, 0 ≤ r ∧ round32 q = fin r := by
  unfold round32
  by_cases h0 : q = 0
  · exact Or.inr ⟨0, le_rfl, by simp [h0]⟩
  · have hpos : 0 < q := lt_of_le_of_ne hq (Ne.symm h0)
    simp only [h0, hpos, if_true, if_false]
    split_ifs
    · exact Or.inl rfl
    · exact Or.inr ⟨_, mul_nonneg (Nat.cast_nonneg _) (pow2_pos _).le, rfl⟩

theorem lt_neg_of_nonneg (v w : CFloat) (hv : CFloat.lt v (fin 0) = true)
    (hw : w = pinf ∨ ∃ r : ℚ, 0 ≤ r ∧ w = fin r) : CFloat.lt w v = false := by
  rcases hw with hw | ⟨r, hr, hw⟩
  · rw [hw]; exact lt_pinf v
  · rw [hw]
    cases v with
    | fin a =>
      have ha : a < 0 := by simpa using hv
      have : ¬ r < a := by linarith
      simp [this]
    | pinf => cases hv
    | ninf => rfl
    | nan => rfl

theorem column_phase32_one (nx : ℕ) (s : Field) : column_phase32 nx 1 s = s := by
  unfold column_phase32
  have h : ∀ (l : List ℕ) (t : Field),
      l.foldl (fun s x1 => sweep_up32 nx 1 x1 (sweep_down32 nx 1 x1 s)) t = t := by
    intro l
    induction l with
    | nil => intro t; rfl
    | cons a l ih => intro t; exact ih t
  exact h _ s

theorem row_phase32_one (nx : ℕ) (st : Field × Scratch) :
    row_phase32 nx 1 st = row_step32 nx st 0 := rfl

theorem build_envelope32_skip (d : ℕ → CFloat) (nx y a : ℕ) (S : Stack) :
    ∀ m, (∀ x1, a ≤ x1 → x1 < a + m → d (x1 + y * nx) = pinf) →
      (List.range' a m).foldl (fun s x1 =>
        if CFloat.eq (d (x1 + y * nx)) DF_INFINITY then s
        else insert_parabola32 d nx y x1 (d (x1 + y * nx)) s.parabola_x s.x_intersections s.n)
        S = S := by
  intro m
  induction m with
  | zero => intro _; rfl
  | succ m ih =>
    intro h
    rw [foldl_range'_succ, ih (fun x1 h1 h2 => h x1 h1 (by omega)),
      h (a + m) (by omega) (by omega)]
    simp

theorem fill_row32_frame (s : Field) (nx y : ℕ) (px : ℕ → ℕ) (xi : ℕ → CFloat) :
    ∀ m, ∀ f0 : Fill, ∀ x, m ≤ x →
      ((List.range m).reverse.foldl (fill_step32 s nx y px xi) f0).temp_row_distances x =
        f0.temp_row_distances x := by
  intro m
  induction m with
  | zero => intro f0 x _; rfl
  | succ m ih =>
    intro f0 x hx
    rw [foldl_range_reverse_succ, ih _ x (by omega)]
    exact Function.update_noteq (by omega) _ _

theorem fill_row32_top (s : Field) (nx y N : ℕ) (px : ℕ → ℕ) (xi : ℕ → CFloat)
    (htop : ∀ x1, next_parabola32 xi x1 N = N) :
    ∀ m, ∀ f0 : Fill, f0.n = N → ∀ x < m,
      ((List.range m).reverse.foldl (fill_step32 s nx y px xi) f0).temp_row_distances x =
        df_parabola32 (ofInt32 (px N)) (s.distances (px N + y * nx)) (ofInt32 x) := by
  intro m
  induction m with
  | zero => intro f0 _ x hx; omega
  | succ m ih =>
    intro f0 hn x hx
    rw [foldl_range_reverse_succ]
    have hn1 : (fill_step32 s nx y px xi f0 m).n = N := by
      show next_parabola32 xi m f0.n = N
      rw [hn]; exact htop m
    rcases Nat.lt_or_ge x m with h | h
    · exact ih _ hn1 x h
    · have hxm : x = m := by omega
      subst hxm
      rw [fill_row32_frame s nx y px xi x _ x le_rfl]
      show Function.update f0.temp_row_distances x _ x = _
      rw [Function.update_same, hn, htop x]

theorem push32_xi (d : ℕ → CFloat) (nx y x1 : ℕ) (dy1 : CFloat) (n : ℕ) (px : ℕ → ℕ)
    (xi : ℕ → CFloat) :
    (push32 d nx y x1 dy1 ⟨n, px, xi⟩).x_intersections n =
      mul32 (div32 (fin (1 / 2)) (ofInt32 ((x1 : ℤ) - (px n : ℤ))))
        (sub32
          (sub32 (add32 (ofInt32 (wrap32 ((x1 : ℤ) * (x1 : ℤ)))) (mul32 dy1 dy1))
            (ofInt32 (wrap32 ((px n : ℤ) * (px n : ℤ)))))
          (mul32 (d (px n + y * nx)) (d (px n + y * nx)))) :=
  Function.update_same _ _ _

/-- The row phase in binary32 on a row that holds 0 in its first and last cell and `+inf`
between them, when the boundary that line 108 computes for the two cells is negative:
every cell receives the parabola of the last cell. -/
theorem row_step32_wrapped (nx y : ℕ) (s : Field) (m : Scratch) (hnx : 2 ≤ nx)
    (h0 : s.distances (0 + y * nx) = fin 0) (h1 : s.distances (nx - 1 + y * nx) = fin 0)
    (hmid : ∀ x, 0 < x → x < nx - 1 → s.distances (x + y * nx) = pinf)
    (hneg : CFloat.lt
      (mul32 (div32 (fin (1 / 2)) (ofInt32 (((nx - 1 : ℕ) : ℤ) - ((0 : ℕ) : ℤ))))
        (sub32
          (sub32 (add32 (ofInt32 (wrap32 (((nx - 1 : ℕ) : ℤ) * ((nx - 1 : ℕ) : ℤ))))
            (mul32 (fin 0) (fin 0)))
            (ofInt32 (wrap32 (((0 : ℕ) : ℤ) * ((0 : ℕ) : ℤ)))))
          (mul32 (fin 0) (fin 0)))) (fin 0) = true)
    (x : ℕ) (hx : x < nx) :
    (row_step32 nx (s, m) y).1.distances (x + y * nx) =
      df_parabola32 (ofInt32 ((nx - 1 : ℕ) : ℤ)) (fin 0) (ofInt32 (x : ℤ)) := by
  have hext : ∀ x < nx, Ext (s.distances (x + y * nx)) := by
    intro x0 hx0
    rcases Nat.eq_zero_or_pos x0 with hz | hp
    · subst hz; exact Or.inr ⟨0, h0⟩
    · rcases Nat.lt_or_ge x0 (nx - 1) with hl | hg
      · exact Or.inl (hmid x0 hp hl)
      · have : x0 = nx - 1 := by omega
        subst this; exact Or.inr ⟨0, h1⟩
  obtain ⟨_, _, hs3, _⟩ := seed_search_spec s.distances nx y nx 0
    (fun x hx => hext x (by omega))
  have hfirst : seed_search s.distances nx y nx 0 = 0 := by
    by_contra hne
    have := hs3 0 le_rfl (Nat.pos_of_ne_zero hne)
    rw [h0] at this; cases this
  unfold row_step32
  simp only []
  rw [hfirst]
  set px0 := Function.update m.parabola_x 0 (if 0 < nx then 0 else 0) with hpx0
  have hpx00 : px0 0 = 0 := by
    rw [hpx0, Function.update_same]; simp
  have he : build_envelope32 s.distances nx y 0 ⟨0, px0, m.x_intersections⟩ =
      push32 s.distances nx y (nx - 1) (fin 0) ⟨0, px0, m.x_intersections⟩ := by
    unfold build_envelope32
    have hm : nx - (0 + 1) = (nx - 2) + 1 := by omega
    rw [hm, foldl_range'_succ, build_envelope32_skip s.distances nx y (0 + 1) _ (nx - 2)
      (fun x1 hx1 hx2 => hmid x1 (by omega) (by omega))]
    have hl : 0 + 1 + (nx - 2) = nx - 1 := by omega
    rw [hl, h1]
    have hm2 : nx - 2 + 1 = nx - 1 := by omega
    simp [insert_parabola32, hm2]
  rw [he]
  set e := push32 s.distances nx y (nx - 1) (fin 0) ⟨0, px0, m.x_intersections⟩ with hedef
  have hen : e.n = 1 := rfl
  have hepx : e.parabola_x 1 = nx - 1 := by
    show Function.update px0 (0 + 1) (nx - 1) 1 = nx - 1
    exact Function.update_same _ _ _
  have hexi : CFloat.lt (e.x_intersections 0) (fin 0) = true := by
    rw [hedef, push32_xi, hpx00, h0]
    exact hneg
  have htop : ∀ x1, next_parabola32 e.x_intersections x1 1 = 1 := by
    intro x1
    have hlt : CFloat.lt (ofInt32 (x1 : ℤ)) (e.x_intersections 0) = false :=
      lt_neg_of_nonneg _ _ hexi (round32_nonneg (((x1 : ℕ) : ℤ) : ℚ) (by positivity))
    rw [next_parabola32, hlt]
    simp
  set f := fill_row32 s nx y e.parabola_x e.x_intersections
    ⟨e.n, m.temp_row_distances, m.temp_closest⟩ with hf
  obtain ⟨cb1, _⟩ := copy_back_spec nx y f.temp_row_distances f.temp_closest s
  rw [(cb1 x hx).1]
  have ht := fill_row32_top s nx y 1 e.parabola_x e.x_intersections htop nx
    ⟨e.n, m.temp_row_distances, m.temp_closest⟩ hen x hx
  rw [hepx] at ht
  rw [hf]
  unfold fill_row32
  rw [ht, h1]

/-- The row phase in binary32 on the row of `gridW`, for any contents of the scratch
arrays and any closest points: the `int` product `46341 * 46341` wraps, the boundary
between the two parabolas is negative, and the cell `x` receives the parabola of the last
cell. -/
theorem row_step32_gridW (c : Option (ℕ → df_point)) (m : Scratch) (x : ℕ) (hx : x < 46342) :
    (row_step32 46342 (⟨gridW, c⟩, m) 0).1.distances (x + 0 * 46342) =
      df_parabola32 (ofInt32 ((46342 - 1 : ℕ) : ℤ)) (fin 0) (ofInt32 (x : ℤ)) :=
  row_step32_wrapped 46342 0 ⟨gridW, c⟩ m (by norm_num)
    (by simp [gridW]) (by simp [gridW])
    (fun x1 h1 h2 => by
      show gridW (x1 + 0 * 46342) = pinf
      have h3 : ¬ (x1 + 0 * 46342 = 0 ∨ x1 + 0 * 46342 = 46341) := by omega
      simp only [gridW, h3, if_false])
    (by decide!) x hx

/-- The transform in binary32 on `gridW`: the cell `x` ends with the parabola of the last
cell. -/
theorem df32_gridW_cell (heap : Scratch) (closest_points : Option (ℕ → df_point)) (x : ℕ)
    (hx : x < 46342) :
    (df32 heap gridW 46342 1 closest_points).distances (x + 0 * 46342) =
      df_parabola32 (ofInt32 ((46342 - 1 : ℕ) : ℤ)) (fin 0) (ofInt32 (x : ℤ)) := by
  unfold df32
  simp only []
  rw [column_phase32_one, row_phase32_one]
  exact row_step32_gridW _ heap x hx

/-- The transform in binary32 on `gridW`: the 0-cell `(0, 0)` ends at 2147488256, which is
`46341^2` rounded to binary32, the cell `(1, 0)` at 2147395584, which is `46340^2`
rounded, and the cell `(46341, 0)`, the rotation of `(0, 0)`, at 0. -/
theorem df32_gridW (heap : Scratch) (closest_points : Option (ℕ → df_point)) :
    (df32 heap gridW 46342 1 closest_points).distances (0 + 0 * 46342) = fin 2147488256 ∧
    (df32 heap gridW 46342 1 closest_points).distances (1 + 0 * 46342) = fin 2147395584 ∧
    (df32 heap gridW 46342 1 closest_points).distances (46341 + 0 * 46342) = fin 0 := by
  refine ⟨?_, ?_, ?_⟩
  · rw [df32_gridW_cell heap closest_points 0 (by norm_num)]
    decide!
  · rw [df32_gridW_cell heap closest_points 1 (by norm_num)]
    decide!
  · rw [df32_gridW_cell heap closest_points 46341 (by norm_num)]
    decide!

/-! ## The claims -/

/-- Binary masks of width at most 46341, where the `int` products of line 109 do not
overflow: on a grid of `nx * ny` cells, each 0 or `+inf`, with at least one 0, `df`
leaves in every cell `(x, y)` exactly the minimum over the original 0-cells `(sx, sy)` of
`(x - sx)^2 + (y - sy)^2`. -/
theorem df_binary_mask (heap : Scratch) (d : ℕ → CFloat) (nx ny : ℕ)
    (closest_points : Option (ℕ → df_point)) (hnx : 1 ≤ nx) (hny : 1 ≤ ny) (hw : nx ≤ 46341)
    (hmask : ∀ x < nx, ∀ y < ny, d (x + y * nx) = fin 0 ∨ d (x + y * nx) = pinf)
    (hseed : ∃ x < nx, ∃ y < ny, d (x + y * nx) = fin 0)
    (x y : ℕ) (hx : x < nx) (hy : y < ny) :
    ∃ v : ℚ, (df heap d nx ny closest_points).distances (x + y * nx) = fin v ∧
      IsLeast {w : ℚ | ∃ sx < nx, ∃ sy < ny, d (sx + sy * nx) = fin 0 ∧
        w = ((x : ℚ) - sx) ^ 2 + ((y : ℚ) - sy) ^ 2} v := by
  obtain ⟨sx, hsx, sy, hsy, hs⟩ := hseed
  obtain ⟨x0, hx0, y0, hy0, q, _, hq, hv, _, hmin⟩ :=
    df_spec_finite heap d nx ny closest_points hnx hny hw (valid_of_mask hmask)
      ⟨sx, hsx, sy, hsy, 0, hs⟩ x y hx hy
  have hq0 : q = 0 := by
    rcases hmask x0 hx0 y0 hy0 with h | h
    · rw [h] at hq; injection hq with h3; exact h3.symm
    · rw [h] at hq; cases hq
  subst hq0
  refine ⟨offer x y x0 y0 0, hv, ⟨x0, hx0, y0, hy0, hq, offer_zero x y x0 y0⟩, ?_⟩
  rintro w ⟨sx', hsx', sy', hsy', hd', rfl⟩
  rw [← offer_zero]
  exact hmin sx' hsx' sy' hsy' 0 hd'

/-- The 5x5 grid with the seeds `(0, 0)` and `(4, 4)`: its cell `(2, 2)` ends at 8 and its
cell `(0, 4)` at 16. -/
theorem df_binary_mask_witness :
    (1 ≤ 5 ∧ 5 ≤ 46341 ∧
      (∀ x < 5, ∀ y < 5, grid5 (x + y * 5) = fin 0 ∨ grid5 (x + y * 5) = pinf) ∧
      (∃ x < 5, ∃ y < 5, grid5 (x + y * 5) = fin 0)) ∧
    (df heap0 grid5 5 5 none).distances (2 + 2 * 5) = fin 8 ∧
    (df heap0 grid5 5 5 none).distances (0 + 4 * 5) = fin 16 ∧
    ∃ v : ℚ, (df heap0 grid5 5 5 none).distances (2 + 2 * 5) = fin v ∧
      IsLeast {w : ℚ | ∃ sx < 5, ∃ sy < 5, grid5 (sx + sy * 5) = fin 0 ∧
        w = (((2 : ℕ) : ℚ) - sx) ^ 2 + (((2 : ℕ) : ℚ) - sy) ^ 2} v :=
  ⟨⟨by decide, by decide, by decide, ⟨0, by decide, 0, by decide, by decide⟩⟩, by decide!,
    by decide!,
    df_binary_mask heap0 grid5 5 5 none (by decide) (by decide) (by decide) (by decide)
      ⟨0, by decide, 0, by decide, by decide⟩ 2 2 (by decide) (by decide)⟩

/-- C1, failing input. The 46342x1 mask `gridW` holds 0 in its first and last cell.  With
the arithmetic of `float` read as exact, `df` leaves `46341^2 = 2147488281` in its 0-cell
`(0, 0)`, where the minimum over the 0-cells of the squared distance is 0: the `int`
product `46341 * 46341` of line 109 overflows.  In binary32 the cell ends at 2147488256.
This holds for any contents of the scratch arrays and any closest-point argument. -/
theorem df_binary_mask_overflow (heap : Scratch) (closest_points : Option (ℕ → df_point)) :
    (∀ x < 46342, ∀ y < 1, gridW (x + y * 46342) = fin 0 ∨ gridW (x + y * 46342) = pinf) ∧
    gridW (0 + 0 * 46342) = fin 0 ∧
    (df heap gridW 46342 1 closest_points).distances (0 + 0 * 46342) = fin 2147488281 ∧
    (df32 heap gridW 46342 1 closest_points).distances (0 + 0 * 46342) = fin 2147488256 ∧
    ¬ ∃ v : ℚ, (df heap gridW 46342 1 closest_points).distances (0 + 0 * 46342) = fin v ∧
      IsLeast {w : ℚ | ∃ sx < 46342, ∃ sy < 1, gridW (sx + sy * 46342) = fin 0 ∧
        w = (((0 : ℕ) : ℚ) - sx) ^ 2 + (((0 : ℕ) : ℚ) - sy) ^ 2} v := by
  have h : (df heap gridW 46342 1 closest_points).distances (0 + 0 * 46342) =
      fin 2147488281 := by
    rw [df_gridW heap closest_points 0 (by norm_num)]
    norm_num
  have h0 : gridW (0 + 0 * 46342) = fin 0 := by simp [gridW]
  refine ⟨fun x _ y _ => gridW_mask x y, h0, h, (df32_gridW heap closest_points).1, ?_⟩
  rintro ⟨v, hv, _, hmin⟩
  rw [h] at hv
  injection hv with hv
  have := hmin ⟨0, by norm_num, 0, by norm_num, h0, rfl⟩
  rw [← hv] at this
  norm_num at this

/-- C6. All-sentinel grid: when every cell of the input grid is `+inf`, every cell is
still `+inf` after `df`. -/
theorem df_all_sentinel (heap : Scratch) (d : ℕ → CFloat) (nx ny : ℕ)
    (closest_points : Option (ℕ → df_point)) (hnx : 1 ≤ nx) (hny : 1 ≤ ny)
    (hall : ∀ x < nx, ∀ y < ny, d (x + y * nx) = DF_INFINITY)
    (x y : ℕ) (hx : x < nx) (hy : y < ny) :
    (df heap d nx ny closest_points).distances (x + y * nx) = DF_INFINITY := by
  simp only [DF_INFINITY_eq] at hall ⊢
  have hvalid : Valid d nx ny := by
    intro x0 hx0 y0 hy0
    rw [hall x0 hx0 y0 hy0]; rfl
  rcases df_shape heap d nx ny closest_points hnx hny hvalid x y hx hy with
    ⟨hv, _⟩ | ⟨x0, hx0, y0, hy0, q, hq, _⟩
  · exact hv
  · rw [hall x0 hx0 y0 hy0] at hq; cases hq

/-- Witness of C6: the 2x2 grid of `+inf`, at the cell `(1, 1)`. -/
theorem df_all_sentinel_witness :
    (1 ≤ 2 ∧ ∀ x < 2, ∀ y < 2, gridInf (x + y * 2) = DF_INFINITY) ∧
    (df heap0 gridInf 2 2 (some cp0)).distances (1 + 1 * 2) = DF_INFINITY :=
  ⟨⟨by decide, by decide⟩,
    df_all_sentinel heap0 gridInf 2 2 (some cp0) (by decide) (by decide) (by decide) 1 1
      (by decide) (by decide)⟩

theorem offer_rot (nx ny x y x0 y0 : ℕ) (hx : x < nx) (hy : y < ny) (hx0 : x0 < nx)
    (hy0 : y0 < ny) (q : ℚ) :
    offer (nx - 1 - x) (ny - 1 - y) (nx - 1 - x0) (ny - 1 - y0) q = offer x y x0 y0 q := by
  have c1 : ((nx - 1 - x : ℕ) : ℚ) = (nx : ℚ) - 1 - x := by
    rw [Nat.cast_sub (by omega), Nat.cast_sub (by omega)]; simp
  have c2 : ((nx - 1 - x0 : ℕ) : ℚ) = (nx : ℚ) - 1 - x0 := by
    rw [Nat.cast_sub (by omega), Nat.cast_sub (by omega)]; simp
  have c3 : ((ny - 1 - y : ℕ) : ℚ) = (ny : ℚ) - 1 - y := by
    rw [Nat.cast_sub (by omega), Nat.cast_sub (by omega)]; simp
  have c4 : ((ny - 1 - y0 : ℕ) : ℚ) = (ny : ℚ) - 1 - y0 := by
    rw [Nat.cast_sub (by omega), Nat.cast_sub (by omega)]; simp
  unfold offer
  rw [c1, c2, c3, c4]
  have e1 : (nx : ℚ) - 1 - x - ((nx : ℚ) - 1 - x0) = -((x : ℚ) - x0) := by ring
  have e2 : (ny : ℚ) - 1 - y - ((ny : ℚ) - 1 - y0) = -((y : ℚ) - y0) := by ring
  rw [e1, e2, abs_neg, neg_sq]

theorem valid_rot {d d2 : ℕ → CFloat} {nx ny : ℕ} (hvalid : Valid d nx ny)
    (hrot : ∀ x < nx, ∀ y < ny, d2 (x + y * nx) = d ((nx - 1 - x) + (ny - 1 - y) * nx)) :
    Valid d2 nx ny := by
  intro x hx y hy
  rw [hrot x hx y hy]
  exact hvalid _ (by omega) _ (by omega)

theorem rot_back {d d2 : ℕ → CFloat} {nx ny : ℕ}
    (hrot : ∀ x < nx, ∀ y < ny, d2 (x + y * nx) = d ((nx - 1 - x) + (ny - 1 - y) * nx))
    (x y : ℕ) (hx : x < nx) (hy : y < ny) :
    d2 ((nx - 1 - x) + (ny - 1 - y) * nx) = d (x + y * nx) := by
  rw [hrot _ (by omega) _ (by omega)]
  congr 2
  · omega
  · congr 1; omega

/-- Up to the width 46341, the distance that `df` leaves in the cell `(x, y)` of a rotated
grid is the one it leaves in the cell `(nx - 1 - x, ny - 1 - y)` of the grid. -/
theorem df_rotation_aux (heap heap2 : Scratch) (d d2 : ℕ → CFloat) (nx ny : ℕ)
    (closest_points closest_points2 : Option (ℕ → df_point)) (hnx : 1 ≤ nx) (hny : 1 ≤ ny)
    (hw : nx ≤ 46341) (hvalid : Valid d nx ny)
    (hrot : ∀ x < nx, ∀ y < ny, d2 (x + y * nx) = d ((nx - 1 - x) + (ny - 1 - y) * nx))
    (x y : ℕ) (hx : x < nx) (hy : y < ny) :
    (df heap2 d2 nx ny closest_points2).distances (x + y * nx) =
      (df heap d nx ny closest_points).distances ((nx - 1 - x) + (ny - 1 - y) * nx) := by
  have hx2 : nx - 1 - x < nx := by omega
  have hy2 : ny - 1 - y < ny := by omega
  rcases df_spec heap2 d2 nx ny closest_points2 hnx hny hw (valid_rot hvalid hrot) x y hx hy with
    ⟨hv2, hall2⟩ | ⟨a, ha, b, hb, q2, hq2, hv2, _, hmin2⟩
  · rcases df_spec heap d nx ny closest_points hnx hny hw hvalid _ _ hx2 hy2 with
      ⟨hv, _⟩ | ⟨x0, hx0, y0, hy0, q, hq, _⟩
    · rw [hv2, hv]
    · have := rot_back hrot x0 y0 hx0 hy0
      rw [hall2 _ (by omega) _ (by omega), hq] at this
      cases this
  · have hqa : d ((nx - 1 - a) + (ny - 1 - b) * nx) = fin q2 := by
      rw [← hrot a ha b hb]; exact hq2
    rcases df_spec heap d nx ny closest_points hnx hny hw hvalid _ _ hx2 hy2 with
      ⟨_, hall⟩ | ⟨x0, hx0, y0, hy0, q, hq, hv, _, hmin⟩
    · rw [hall _ (by omega) _ (by omega)] at hqa; cases hqa
    · rw [hv2, hv]
      congr 1
      apply le_antisymm
      · have h1 := hmin2 _ (by omega) _ (by omega) q
          ((rot_back hrot x0 y0 hx0 hy0).trans hq)
        have h2 := offer_rot nx ny x y (nx - 1 - x0) (ny - 1 - y0) hx hy (by omega)
          (by omega) q
        have e1 : nx - 1 - (nx - 1 - x0) = x0 := by omega
        have e2 : ny - 1 - (ny - 1 - y0) = y0 := by omega
        rw [e1, e2] at h2
        rw [h2]; exact h1
      · have h1 := hmin _ (by omega) _ (by omega) q2 hqa
        rw [offer_rot nx ny x y a b hx hy ha hb q2] at h1
        exact h1

/-- Rotation symmetry of the distances for a width of at most 46341, where the `int`
products of line 109 do not overflow: for a well-formed grid `d` and its copy `d2`
rotated by 180 degrees, `d2 (x, y) = d (nx - 1 - x, ny - 1 - y)`, the distance grid that
`df` produces on `d2` is the rotation of the one it produces on `d`. -/
theorem df_rotation (heap heap2 : Scratch) (d d2 : ℕ → CFloat) (nx ny : ℕ)
    (closest_points closest_points2 : Option (ℕ → df_point)) (hnx : 1 ≤ nx) (hny : 1 ≤ ny)
    (hw : nx ≤ 46341) (hvalid : Valid d nx ny)
    (hrot : ∀ x < nx, ∀ y < ny, d2 (x + y * nx) = d ((nx - 1 - x) + (ny - 1 - y) * nx))
    (x y : ℕ) (hx : x < nx) (hy : y < ny) :
    (df heap2 d2 nx ny closest_points2).distances (x + y * nx) =
      (df heap d nx ny closest_points).distances ((nx - 1 - x) + (ny - 1 - y) * nx) :=
  df_rotation_aux heap heap2 d d2 nx ny closest_points closest_points2 hnx hny hw hvalid
    hrot x y hx hy

/-- The 3x2 grid `gridA` and its rotation `gridB`, at the cell `(0, 0)`. -/
theorem df_rotation_witness :
    (1 ≤ 3 ∧ 1 ≤ 2 ∧ 3 ≤ 46341 ∧ Valid gridA 3 2 ∧
      ∀ x < 3, ∀ y < 2, gridB (x + y * 3) = gridA ((3 - 1 - x) + (2 - 1 - y) * 3)) ∧
    (df heap0 gridB 3 2 none).distances (0 + 0 * 3) =
      (df heap0 gridA 3 2 (some cp0)).distances ((3 - 1 - 0) + (2 - 1 - 0) * 3) :=
  ⟨⟨by decide, by decide, by decide, by decide!, by decide⟩,
    df_rotation heap0 heap0 gridA gridB 3 2 (some cp0) none (by decide) (by decide)
      (by decide) (by decide!) (by decide) 0 0 (by decide) (by decide)⟩

/-- C8, failing input. The 46342x1 grid `gridW`, 0 in its first and last cell, is its own
rotation by 180 degrees.  With the arithmetic of `float` read as exact, `df` leaves
`46341^2 = 2147488281` in the cell `(0, 0)` and 0 in the cell `(46341, 0)`, its
rotation: the `int` product `46341 * 46341` of line 109 overflows, so the distance grid
of the rotated grid is not the rotated distance grid.  In binary32 the two cells end at
2147488256 and 0. -/
theorem df_rotation_overflow (heap heap2 : Scratch)
    (closest_points closest_points2 : Option (ℕ → df_point)) :
    Valid gridW 46342 1 ∧
    (∀ x < 46342, ∀ y < 1,
      gridW (x + y * 46342) = gridW ((46342 - 1 - x) + (1 - 1 - y) * 46342)) ∧
    (df heap2 gridW 46342 1 closest_points2).distances (0 + 0 * 46342) = fin 2147488281 ∧
    (df heap gridW 46342 1 closest_points).distances
      ((46342 - 1 - 0) + (1 - 1 - 0) * 46342) = fin 0 ∧
    (df heap2 gridW 46342 1 closest_points2).distances (0 + 0 * 46342) ≠
      (df heap gridW 46342 1 closest_points).distances
        ((46342 - 1 - 0) + (1 - 1 - 0) * 46342) ∧
    (df32 heap2 gridW 46342 1 closest_points2).distances (0 + 0 * 46342) ≠
      (df32 heap gridW 46342 1 closest_points).distances
        ((46342 - 1 - 0) + (1 - 1 - 0) * 46342) := by
  have h1 : (df heap2 gridW 46342 1 closest_points2).distances (0 + 0 * 46342) =
      fin 2147488281 := by
    rw [df_gridW heap2 closest_points2 0 (by norm_num)]
    norm_num
  have h2 : (df heap gridW 46342 1 closest_points).distances
      ((46342 - 1 - 0) + (1 - 1 - 0) * 46342) = fin 0 := by
    have e : (46342 - 1 - 0) + (1 - 1 - 0) * 46342 = 46341 + 0 * 46342 := by norm_num
    rw [e, df_gridW heap closest_points 46341 (by norm_num)]
    norm_num
  refine ⟨gridW_valid, ?_, h1, h2, ?_, ?_⟩
  · intro x hx y hy
    have hiff : (x + y * 46342 = 0 ∨ x + y * 46342 = 46341) ↔
        ((46342 - 1 - x) + (1 - 1 - y) * 46342 = 0 ∨
          (46342 - 1 - x) + (1 - 1 - y) * 46342 = 46341) := by omega
    simp only [gridW, hiff]
  · rw [h1, h2]
    intro h
    injection h with h
    norm_num at h
  · have e : (46342 - 1 - 0) + (1 - 1 - 0) * 46342 = 46341 + 0 * 46342 := by norm_num
    rw [e, (df32_gridW heap2 closest_points2).1, (df32_gridW heap closest_points).2.2]
    intro h
    injection h with h
    norm_num at h


theorem valid_ext {d : ℕ → CFloat} {nx ny : ℕ} (h : Valid d nx ny) :
    ∀ x < nx, ∀ y < ny, Ext (d (x + y * nx)) := by
  intro x hx y hy
  rcases valid_cases h x hx y hy with h1 | ⟨q, _, h1⟩
  · exact Or.inl h1
  · exact Or.inr ⟨q, h1⟩

theorem nonnegOrInf_cases {v : CFloat} (h : nonnegOrInf v = true) :
    v = pinf ∨ ∃ q : ℚ, 0 ≤ q ∧ v = fin q := by
  cases v with
  | fin q => exact Or.inr ⟨q, by simpa [nonnegOrInf] using h, rfl⟩
  | pinf => exact Or.inl rfl
  | ninf => cases h
  | nan => cases h

theorem nonnegOrInf_not_neg {v : CFloat} (h : nonnegOrInf v = true) :
    CFloat.lt v (fin 0) = false := by
  rcases nonnegOrInf_cases h with h1 | ⟨q, hq, h1⟩
  · rw [h1]; rfl
  · rw [h1]; simpa using hq

/-- After the column phase a well-formed grid is well formed. -/
theorem column_phase_valid (s : Field) (nx ny : ℕ) (hvalid : Valid s.distances nx ny) :
    Valid (column_phase nx ny s).distances nx ny := by
  intro x hx y hy
  rcases column_phase_spec nx ny s (by omega) (valid_ext hvalid) x hx y hy with
    ⟨hv, _⟩ | ⟨y0, hy0, q, hq, hv, _⟩
  · rw [hv]; rfl
  · rw [hv]
    rcases valid_cases hvalid x hx y0 hy0 with h | ⟨q2, hq2, h⟩
    · rw [h] at hq; cases hq
    · rw [h] at hq; injection hq with h3
      have : 0 ≤ q + |(y : ℚ) - y0| := by
        rw [← h3]; exact add_nonneg hq2 (abs_nonneg _)
      simpa [nonnegOrInf] using this

/-- After `df` a well-formed grid is well formed. -/
theorem df_valid (heap : Scratch) (d : ℕ → CFloat) (nx ny : ℕ)
    (closest_points : Option (ℕ → df_point)) (hvalid : Valid d nx ny) :
    Valid (df heap d nx ny closest_points).distances nx ny := by
  intro x hx y hy
  rcases df_shape heap d nx ny closest_points (by omega) (by omega) hvalid x y hx hy with
    ⟨hv, _⟩ | ⟨x0, _, y0, _, q, _, hv, _⟩
  · rw [hv]; rfl
  · rw [hv]
    simpa [nonnegOrInf] using offer_nonneg x y x0 y0 q

/-- C11. Non-negativity: on a grid whose cells are each a non-negative finite value or
`+inf`, every cell is a non-negative finite value or `+inf`, so not negative, after the
column phase of `df`, and again after the complete `df`. -/
theorem df_nonnegative (heap : Scratch) (d : ℕ → CFloat) (nx ny : ℕ)
    (closest_points : Option (ℕ → df_point)) (hvalid : Valid d nx ny)
    (x y : ℕ) (hx : x < nx) (hy : y < ny) :
    (nonnegOrInf ((column_phase nx ny
        ⟨d, closest_points.map (init_closest nx ny)⟩).distances (x + y * nx)) = true ∧
      CFloat.lt ((column_phase nx ny
        ⟨d, closest_points.map (init_closest nx ny)⟩).distances (x + y * nx)) (fin 0) = false) ∧
    (nonnegOrInf ((df heap d nx ny closest_points).distances (x + y * nx)) = true ∧
      CFloat.lt ((df heap d nx ny closest_points).distances (x + y * nx)) (fin 0) = false) := by
  have h1 := column_phase_valid ⟨d, closest_points.map (init_closest nx ny)⟩ nx ny hvalid
    x hx y hy
  have h2 := df_valid heap d nx ny closest_points hvalid x hx y hy
  exact ⟨⟨h1, nonnegOrInf_not_neg h1⟩, ⟨h2, nonnegOrInf_not_neg h2⟩⟩

/-- Witness of C11: the 3x2 grid `gridA`, at the cell `(2, 1)`. -/
theorem df_nonnegative_witness :
    (Valid gridA 3 2 ∧ 2 < 3 ∧ 1 < 2) ∧
    (nonnegOrInf ((column_phase 3 2
        ⟨gridA, (some cp0).map (init_closest 3 2)⟩).distances (2 + 1 * 3)) = true ∧
      CFloat.lt ((column_phase 3 2
        ⟨gridA, (some cp0).map (init_closest 3 2)⟩).distances (2 + 1 * 3)) (fin 0) = false) ∧
    (nonnegOrInf ((df heap0 gridA 3 2 (some cp0)).distances (2 + 1 * 3)) = true ∧
      CFloat.lt ((df heap0 gridA 3 2 (some cp0)).distances (2 + 1 * 3)) (fin 0) = false) :=
  ⟨⟨by decide!, by decide, by decide⟩,
    df_nonnegative heap0 gridA 3 2 (some cp0) (by decide!) 2 1 (by decide) (by decide)⟩

/-- The row envelope for a width of at most 46341, where the `int` products of line 109
do not overflow: for a row `y` of width `nx` whose cells are non-negative finite or
`+inf`, with at least one finite cell, the row phase (seed search, envelope
construction, evaluation, commit) writes to every position `x` the minimum over the
finite cells `x0` of the row of `(x - x0)^2 + r (x0)^2`. -/
theorem row_step_lower_envelope (s : Field) (m : Scratch) (nx y : ℕ) (hw : nx ≤ 46341)
    (hrow : ∀ x < nx, nonnegOrInf (s.distances (x + y * nx)) = true)
    (hseed : ∃ x0 < nx, ∃ q : ℚ, s.distances (x0 + y * nx) = fin q)
    (x : ℕ) (hx : x < nx) :
    ∃ w : ℚ, (row_step nx (s, m) y).1.distances (x + y * nx) = fin w ∧
      IsLeast {u : ℚ | ∃ x0 < nx, ∃ q : ℚ, s.distances (x0 + y * nx) = fin q ∧
        u = ((x : ℚ) - x0) ^ 2 + q ^ 2} w := by
  have hext : ∀ x < nx, Ext (s.distances (x + y * nx)) := by
    intro x0 hx0
    rcases nonnegOrInf_cases (hrow x0 hx0) with h | ⟨q, _, h⟩
    · exact Or.inl h
    · exact Or.inr ⟨q, h⟩
  rcases (row_step_spec nx y s m (by omega) hw hext).1 x hx with
    ⟨_, hall⟩ | ⟨x0, hx0, q, hq, hv, _, hmin⟩
  · obtain ⟨x1, hx1, q1, hq1⟩ := hseed
    rw [hall x1 hx1] at hq1; cases hq1
  · refine ⟨_, hv, ⟨x0, hx0, q, hq, by ring⟩, ?_⟩
    rintro u ⟨x2, hx2, q2, hq2, rfl⟩
    have := hmin x2 hx2 q2 hq2
    rw [sq, sq]; exact this

/-- The row `[0, 1, 4]`, the resolved 3x1 grid `df grid3`, at the position 2. -/
theorem row_step_lower_envelope_witness :
    (3 ≤ 46341 ∧ (∀ x < 3, nonnegOrInf ((df heap0 grid3 3 1 none).distances (x + 0 * 3)) = true) ∧
      (∃ x0 < 3, ∃ q : ℚ, (df heap0 grid3 3 1 none).distances (x0 + 0 * 3) = fin q) ∧ 2 < 3) ∧
    ∃ w : ℚ, (row_step 3 (df heap0 grid3 3 1 none, heap0) 0).1.distances (2 + 0 * 3) = fin w ∧
      IsLeast {u : ℚ | ∃ x0 < 3, ∃ q : ℚ,
        (df heap0 grid3 3 1 none).distances (x0 + 0 * 3) = fin q ∧
        u = (((2 : ℕ) : ℚ) - x0) ^ 2 + q ^ 2} w :=
  ⟨⟨by decide, by decide!, ⟨0, by decide, 0, by decide!⟩, by decide⟩,
    row_step_lower_envelope (df heap0 grid3 3 1 none) heap0 3 0 (by decide) (by decide!)
      ⟨0, by decide, 0, by decide!⟩ 2 (by decide)⟩

/-- C14, failing input. The row of width 46342 that holds 0 at the positions 0 and 46341
and `+inf` between them.  With the arithmetic of `float` read as exact, the row phase
writes `46341^2 = 2147488281` to the position 0, where the minimum over the finite cells
`x0` of `(0 - x0)^2 + r (x0)^2` is 0: the `int` product `46341 * 46341` of line 109
overflows and the boundary between the two parabolas comes out negative.  In binary32
the row phase writes 2147488256 to the position 0. -/
theorem row_step_overflow (m : Scratch) (c : Option (ℕ → df_point)) :
    (∀ x < 46342, nonnegOrInf (gridW (x + 0 * 46342)) = true) ∧
    (∃ x0 < 46342, ∃ q : ℚ, gridW (x0 + 0 * 46342) = fin q) ∧
    (row_step 46342 (⟨gridW, c⟩, m) 0).1.distances (0 + 0 * 46342) = fin 2147488281 ∧
    (row_step32 46342 (⟨gridW, c⟩, m) 0).1.distances (0 + 0 * 46342) = fin 2147488256 ∧
    ¬ ∃ w : ℚ, (row_step 46342 (⟨gridW, c⟩, m) 0).1.distances (0 + 0 * 46342) = fin w ∧
      IsLeast {u : ℚ | ∃ x0 < 46342, ∃ q : ℚ, gridW (x0 + 0 * 46342) = fin q ∧
        u = (((0 : ℕ) : ℚ) - x0) ^ 2 + q ^ 2} w := by
  have h : (row_step 46342 (⟨gridW, c⟩, m) 0).1.distances (0 + 0 * 46342) =
      fin 2147488281 := by
    rw [row_step_gridW c m 0 (by norm_num)]
    norm_num
  have h0 : gridW (0 + 0 * 46342) = fin 0 := by simp [gridW]
  have h32 : (row_step32 46342 (⟨gridW, c⟩, m) 0).1.distances (0 + 0 * 46342) =
      fin 2147488256 := by
    rw [row_step32_gridW c m 0 (by norm_num)]
    decide!
  refine ⟨fun x hx => gridW_valid x hx 0 (by norm_num), ⟨0, by norm_num, 0, h0⟩, h, h32, ?_⟩
  rintro ⟨w, hw, _, hmin⟩
  rw [h] at hw
  injection hw with hw
  have := hmin ⟨0, by norm_num, 0, h0, rfl⟩
  rw [← hw] at this
  norm_num at this


/-- What `df` computes for arbitrary seed values, for a width of at most 46341, where the
`int` products of line 109 do not overflow: on a grid whose cells are non-negative
finite or `+inf`, with at least one finite cell, `df` leaves in every cell `(x, y)` the
minimum over the originally finite cells `(x0, y0)` of
`(x - x0)^2 + (d (x0, y0) + |y - y0|)^2`: the seed value is added to the vertical offset
before squaring. -/
theorem df_deferred_squaring (heap : Scratch) (d : ℕ → CFloat) (nx ny : ℕ)
    (closest_points : Option (ℕ → df_point)) (hw : nx ≤ 46341) (hvalid : Valid d nx ny)
    (hseed : ∃ x0 < nx, ∃ y0 < ny, ∃ v : ℚ, d (x0 + y0 * nx) = fin v)
    (x y : ℕ) (hx : x < nx) (hy : y < ny) :
    ∃ w : ℚ, (df heap d nx ny closest_points).distances (x + y * nx) = fin w ∧
      IsLeast {u : ℚ | ∃ x0 < nx, ∃ y0 < ny, ∃ v : ℚ, d (x0 + y0 * nx) = fin v ∧
        u = ((x : ℚ) - x0) ^ 2 + (v + |(y : ℚ) - y0|) ^ 2} w := by
  obtain ⟨x0, hx0, y0, hy0, q, _, hq, hv, _, hmin⟩ :=
    df_spec_finite heap d nx ny closest_points (by omega) (by omega) hw hvalid hseed x y hx hy
  refine ⟨offer x y x0 y0 q, hv, ⟨x0, hx0, y0, hy0, q, hq, rfl⟩, ?_⟩
  rintro u ⟨x1, hx1, y1, hy1, v, hv', rfl⟩
  exact hmin x1 hx1 y1 hy1 v hv'

/-- The 3x2 grid `gridA`, whose cell `(1, 0)` holds 1, at the cell `(2, 1)`, which ends
at 4. -/
theorem df_deferred_squaring_witness :
    (3 ≤ 46341 ∧ Valid gridA 3 2 ∧ (∃ x0 < 3, ∃ y0 < 2, ∃ v : ℚ, gridA (x0 + y0 * 3) = fin v) ∧
      2 < 3 ∧ 1 < 2) ∧
    (df heap0 gridA 3 2 none).distances (2 + 1 * 3) = fin 4 ∧
    ∃ w : ℚ, (df heap0 gridA 3 2 none).distances (2 + 1 * 3) = fin w ∧
      IsLeast {u : ℚ | ∃ x0 < 3, ∃ y0 < 2, ∃ v : ℚ, gridA (x0 + y0 * 3) = fin v ∧
        u = (((2 : ℕ) : ℚ) - x0) ^ 2 + (v + |((1 : ℕ) : ℚ) - y0|) ^ 2} w :=
  ⟨⟨by decide, by decide!, ⟨1, by decide, 0, by decide, 1, by decide⟩, by decide, by decide⟩,
    by decide!,
    df_deferred_squaring heap0 gridA 3 2 none (by decide) (by decide!)
      ⟨1, by decide, 0, by decide, 1, by decide⟩ 2 1 (by decide) (by decide)⟩

/-- C15, failing input. The 46342x1 grid `gridW`, 0 in its first and last cell.  With the
arithmetic of `float` read as exact, `df` leaves `46340^2 = 2147395600` in the cell
`(1, 0)`, which the finite cell `(0, 0)` offers `(1 - 0)^2 + (0 + |0 - 0|)^2 = 1`: the
`int` product `46341 * 46341` of line 109 overflows, and the value left is not the
minimum over the finite cells.  In binary32 the cell ends at 2147395584. -/
theorem df_deferred_squaring_overflow (heap : Scratch)
    (closest_points : Option (ℕ → df_point)) :
    Valid gridW 46342 1 ∧
    (∃ x0 < 46342, ∃ y0 < 1, ∃ v : ℚ, gridW (x0 + y0 * 46342) = fin v) ∧
    (df heap gridW 46342 1 closest_points).distances (1 + 0 * 46342) = fin 2147395600 ∧
    (df32 heap gridW 46342 1 closest_points).distances (1 + 0 * 46342) = fin 2147395584 ∧
    ¬ ∃ w : ℚ, (df heap gridW 46342 1 closest_points).distances (1 + 0 * 46342) = fin w ∧
      IsLeast {u : ℚ | ∃ x0 < 46342, ∃ y0 < 1, ∃ v : ℚ, gridW (x0 + y0 * 46342) = fin v ∧
        u = (((1 : ℕ) : ℚ) - x0) ^ 2 + (v + |((0 : ℕ) : ℚ) - y0|) ^ 2} w := by
  have h : (df heap gridW 46342 1 closest_points).distances (1 + 0 * 46342) =
      fin 2147395600 := by
    rw [df_gridW heap closest_points 1 (by norm_num)]
    norm_num
  have h0 : gridW (0 + 0 * 46342) = fin 0 := by simp [gridW]
  refine ⟨gridW_valid, ⟨0, by norm_num, 0, by norm_num, 0, h0⟩, h,
    (df32_gridW heap closest_points).2.1, ?_⟩
  rintro ⟨w, hw, _, hmin⟩
  rw [h] at hw
  injection hw with hw
  have := hmin ⟨0, by norm_num, 0, by norm_num, 0, h0, rfl⟩
  rw [← hw] at this
  norm_num at this


/-- The stack that `row_step` leaves in the scratch arrays is the one of
`row_envelope`. -/
theorem row_step_envelope (nx : ℕ) (s : Field) (m : Scratch) (y : ℕ) :
    (row_step nx (s, m) y).2.parabola_x = (row_envelope s nx y m).parabola_x ∧
    (row_step nx (s, m) y).2.x_intersections = (row_envelope s nx y m).x_intersections :=
  ⟨rfl, rfl⟩

/-- Counterexample to C17 as stated: the row `[4, +inf, +inf, +inf, +inf, +inf, +inf, 3, 0]`
of binary32 values.  In binary32 envelope construction ends with the stack index 2 and
the boundaries `x_intersections[0] = 3 + 2^-22` and `x_intersections[1] = 3`: the second
boundary is less than the first. -/
theorem row_envelope32_counterexample :
    (∀ i, (gridRow i).rnd = gridRow i) ∧
    (∀ x < 9, nonnegOrInf (gridRow (x + 0 * 9)) = true) ∧
    (row_envelope32 ⟨gridRow, none⟩ 9 0 heap0).n = 2 ∧
    (row_envelope32 ⟨gridRow, none⟩ 9 0 heap0).x_intersections 0 = fin (12582913 / 4194304) ∧
    (row_envelope32 ⟨gridRow, none⟩ 9 0 heap0).x_intersections 1 = fin 3 ∧
    CFloat.lt ((row_envelope32 ⟨gridRow, none⟩ 9 0 heap0).x_intersections 1)
      ((row_envelope32 ⟨gridRow, none⟩ 9 0 heap0).x_intersections 0) = true := by
  refine ⟨?_, by decide!, by decide!, by decide!, by decide!, by decide!⟩
  intro i
  unfold gridRow
  split_ifs <;> decide!

/-- The apexes that envelope construction leaves in exact arithmetic, for every width:
they are strictly increasing cells of the row, finite ones when the row has a finite
cell. -/
theorem row_envelope_apex (s : Field) (m : Scratch) (nx y : ℕ) (hnx : 1 ≤ nx)
    (hrow : ∀ x < nx, nonnegOrInf (s.distances (x + y * nx)) = true) :
    (∀ k < (row_envelope s nx y m).n,
      (row_envelope s nx y m).parabola_x k < (row_envelope s nx y m).parabola_x (k + 1)) ∧
    (∀ k ≤ (row_envelope s nx y m).n, (row_envelope s nx y m).parabola_x k < nx) ∧
    ((∃ x0 < nx, ∃ q : ℚ, s.distances (x0 + y * nx) = fin q) →
      ∀ k ≤ (row_envelope s nx y m).n,
        ∃ q : ℚ, s.distances ((row_envelope s nx y m).parabola_x k + y * nx) = fin q) := by
  have hext : ∀ x < nx, Ext (s.distances (x + y * nx)) := by
    intro x0 hx0
    rcases nonnegOrInf_cases (hrow x0 hx0) with h | ⟨q, _, h⟩
    · exact Or.inl h
    · exact Or.inr ⟨q, h⟩
  obtain ⟨_, hs2, hs3, hs4⟩ := seed_search_spec s.distances nx y nx 0
    (fun x hx => hext x (by omega))
  unfold row_envelope
  set first := seed_search s.distances nx y nx 0 with hfirst
  rcases Nat.lt_or_ge first nx with hlt | hge
  · obtain ⟨q, hq⟩ := hs4 (by omega)
    have hapex := build_envelope_apex s.distances nx y first hlt q hq hext
      (Function.update m.parabola_x 0 (if first < nx then first else 0)) m.x_intersections
      (by rw [Function.update_same, if_pos hlt])
    exact ⟨hapex.incr, hapex.lt_bound, fun _ => hapex.finite⟩
  · have hee : build_envelope s.distances nx y first
        ⟨0, Function.update m.parabola_x 0 (if first < nx then first else 0),
          m.x_intersections⟩ =
        ⟨0, Function.update m.parabola_x 0 (if first < nx then first else 0),
          m.x_intersections⟩ := by
      unfold build_envelope
      have : nx - (first + 1) = 0 := by omega
      rw [this]; rfl
    rw [hee]
    refine ⟨fun k hk => absurd hk (Nat.not_lt_zero k), ?_, ?_⟩
    · intro k hk
      have hk0 : k = 0 := Nat.le_zero.mp hk
      subst hk0
      show Function.update m.parabola_x 0 (if first < nx then first else 0) 0 < nx
      rw [Function.update_same, if_neg (by omega)]; omega
    · rintro ⟨x0, hx0, q, hq⟩
      rw [hs3 x0 (by omega) (by omega)] at hq; cases hq

/-- The apexes that envelope construction leaves in binary32, for every width: they are
strictly increasing cells of the row, finite ones when the row has a finite cell. -/
theorem row_envelope32_apex (s : Field) (m : Scratch) (nx y : ℕ) (hnx : 1 ≤ nx)
    (hrow : ∀ x < nx, nonnegOrInf (s.distances (x + y * nx)) = true) :
    (∀ k < (row_envelope32 s nx y m).n,
      (row_envelope32 s nx y m).parabola_x k <
        (row_envelope32 s nx y m).parabola_x (k + 1)) ∧
    (∀ k ≤ (row_envelope32 s nx y m).n, (row_envelope32 s nx y m).parabola_x k < nx) ∧
    ((∃ x0 < nx, ∃ q : ℚ, s.distances (x0 + y * nx) = fin q) →
      ∀ k ≤ (row_envelope32 s nx y m).n,
        ∃ q : ℚ, s.distances ((row_envelope32 s nx y m).parabola_x k + y * nx) = fin q) := by
  have hext : ∀ x < nx, Ext (s.distances (x + y * nx)) := by
    intro x0 hx0
    rcases nonnegOrInf_cases (hrow x0 hx0) with h | ⟨q, _, h⟩
    · exact Or.inl h
    · exact Or.inr ⟨q, h⟩
  obtain ⟨_, hs2, hs3, hs4⟩ := seed_search_spec s.distances nx y nx 0
    (fun x hx => hext x (by omega))
  unfold row_envelope32
  set first := seed_search s.distances nx y nx 0 with hfirst
  rcases Nat.lt_or_ge first nx with hlt | hge
  · obtain ⟨q, hq⟩ := hs4 (by omega)
    have hapex := build_envelope32_apex s.distances nx y first hlt q hq hext
      (Function.update m.parabola_x 0 (if first < nx then first else 0)) m.x_intersections
      (by rw [Function.update_same, if_pos hlt])
    exact ⟨hapex.incr, hapex.lt_bound, fun _ => hapex.finite⟩
  · have hee : build_envelope32 s.distances nx y first
        ⟨0, Function.update m.parabola_x 0 (if first < nx then first else 0),
          m.x_intersections⟩ =
        ⟨0, Function.update m.parabola_x 0 (if first < nx then first else 0),
          m.x_intersections⟩ := by
      unfold build_envelope32
      have : nx - (first + 1) = 0 := by omega
      rw [this]; rfl
    rw [hee]
    refine ⟨fun k hk => absurd hk (Nat.not_lt_zero k), ?_, ?_⟩
    · intro k hk
      have hk0 : k = 0 := Nat.le_zero.mp hk
      subst hk0
      show Function.update m.parabola_x 0 (if first < nx then first else 0) 0 < nx
      rw [Function.update_same, if_neg (by omega)]; omega
    · rintro ⟨x0, hx0, q, hq⟩
      rw [hs3 x0 (by omega) (by omega)] at hq; cases hq

/-- The boundaries that envelope construction leaves in exact arithmetic, for a width of
at most 46341: they are finite and each is at least the one before. -/
theorem row_envelope_boundaries (s : Field) (m : Scratch) (nx y : ℕ)
    (hw : nx ≤ 46341) (hrow : ∀ x < nx, nonnegOrInf (s.distances (x + y * nx)) = true) :
    (∀ k < (row_envelope s nx y m).n,
      ∃ a : ℚ, (row_envelope s nx y m).x_intersections k = fin a) ∧
    ∀ k, k + 1 < (row_envelope s nx y m).n →
      ∃ a b : ℚ, (row_envelope s nx y m).x_intersections k = fin a ∧
        (row_envelope s nx y m).x_intersections (k + 1) = fin b ∧ a ≤ b := by
  have hext : ∀ x < nx, Ext (s.distances (x + y * nx)) := by
    intro x0 hx0
    rcases nonnegOrInf_cases (hrow x0 hx0) with h | ⟨q, _, h⟩
    · exact Or.inl h
    · exact Or.inr ⟨q, h⟩
  obtain ⟨_, hs2, hs3, hs4⟩ := seed_search_spec s.distances nx y nx 0
    (fun x hx => hext x (by omega))
  unfold row_envelope
  set first := seed_search s.distances nx y nx 0 with hfirst
  rcases Nat.lt_or_ge first nx with hlt | hge
  · obtain ⟨q, hq⟩ := hs4 (by omega)
    obtain ⟨hinv, _⟩ := build_envelope_spec s.distances nx y first hlt q hq
      (fun j hj => hs3 j (by omega) hj) hext
      (Function.update m.parabola_x 0 (if first < nx then first else 0)) m.x_intersections
      (by rw [Function.update_same, if_pos hlt]) hw
    constructor
    · intro k hk
      exact ⟨_, hinv.isect_eq k hk⟩
    · intro k hk
      exact ⟨_, _, hinv.isect_eq k (by omega), hinv.isect_eq (k + 1) hk, hinv.mono k hk⟩
  · have hee : build_envelope s.distances nx y first
        ⟨0, Function.update m.parabola_x 0 (if first < nx then first else 0),
          m.x_intersections⟩ =
        ⟨0, Function.update m.parabola_x 0 (if first < nx then first else 0),
          m.x_intersections⟩ := by
      unfold build_envelope
      have : nx - (first + 1) = 0 := by omega
      rw [this]; rfl
    rw [hee]
    exact ⟨fun k hk => absurd hk (Nat.not_lt_zero k),
      fun k hk => absurd hk (Nat.not_lt_zero _)⟩

/-- C17, amended. The envelope stack is monotone: for a row `y` whose cells are
non-negative finite or `+inf`, when envelope construction ends with the stack index `n`,
the apex positions `parabola_x[0..n]` are strictly increasing cells of the row, finite
ones when the row has a finite cell, in exact arithmetic and in binary32 alike and for
every width; and, with the arithmetic of `float` read as exact and for a width of at
most 46341 (so that the `int` products of line 109 do not overflow), the boundaries
`x_intersections[0..n-1]` are finite and each is at least the one before. -/
theorem envelope_stack_monotone (s : Field) (m : Scratch) (nx y : ℕ) (hnx : 1 ≤ nx)
    (hrow : ∀ x < nx, nonnegOrInf (s.distances (x + y * nx)) = true) :
    ((∀ k < (row_envelope s nx y m).n,
        (row_envelope s nx y m).parabola_x k < (row_envelope s nx y m).parabola_x (k + 1)) ∧
      (∀ k ≤ (row_envelope s nx y m).n, (row_envelope s nx y m).parabola_x k < nx) ∧
      ((∃ x0 < nx, ∃ q : ℚ, s.distances (x0 + y * nx) = fin q) →
        ∀ k ≤ (row_envelope s nx y m).n,
          ∃ q : ℚ, s.distances ((row_envelope s nx y m).parabola_x k + y * nx) = fin q)) ∧
    ((∀ k < (row_envelope32 s nx y m).n,
        (row_envelope32 s nx y m).parabola_x k <
          (row_envelope32 s nx y m).parabola_x (k + 1)) ∧
      (∀ k ≤ (row_envelope32 s nx y m).n, (row_envelope32 s nx y m).parabola_x k < nx) ∧
      ((∃ x0 < nx, ∃ q : ℚ, s.distances (x0 + y * nx) = fin q) →
        ∀ k ≤ (row_envelope32 s nx y m).n,
          ∃ q : ℚ,
            s.distances ((row_envelope32 s nx y m).parabola_x k + y * nx) = fin q)) ∧
    (nx ≤ 46341 →
      (∀ k < (row_envelope s nx y m).n,
        ∃ a : ℚ, (row_envelope s nx y m).x_intersections k = fin a) ∧
      ∀ k, k + 1 < (row_envelope s nx y m).n →
        ∃ a b : ℚ, (row_envelope s nx y m).x_intersections k = fin a ∧
          (row_envelope s nx y m).x_intersections (k + 1) = fin b ∧ a ≤ b) :=
  ⟨row_envelope_apex s m nx y hnx hrow, row_envelope32_apex s m nx y hnx hrow,
    fun hw => row_envelope_boundaries s m nx y hw hrow⟩

/-- Witness of C17, amended: the row `[0, 1, 4]`, the resolved 3x1 grid `df grid3`, whose
stack ends with the apexes 0, 1, 2 and the boundaries 1 and 9. -/
theorem envelope_stack_monotone_witness :
    (1 ≤ 3 ∧ 3 ≤ 46341 ∧
      ∀ x < 3, nonnegOrInf ((df heap0 grid3 3 1 none).distances (x + 0 * 3)) = true) ∧
    (row_envelope (df heap0 grid3 3 1 none) 3 0 heap0).n = 2 ∧
    (row_envelope (df heap0 grid3 3 1 none) 3 0 heap0).x_intersections 0 = fin 1 ∧
    (row_envelope (df heap0 grid3 3 1 none) 3 0 heap0).x_intersections 1 = fin 9 ∧
    ∀ k, k + 1 < (row_envelope (df heap0 grid3 3 1 none) 3 0 heap0).n →
      ∃ a b : ℚ, (row_envelope (df heap0 grid3 3 1 none) 3 0 heap0).x_intersections k = fin a ∧
        (row_envelope (df heap0 grid3 3 1 none) 3 0 heap0).x_intersections (k + 1) = fin b ∧
        a ≤ b :=
  ⟨⟨by decide, by decide, by decide!⟩, by decide!, by decide!, by decide!,
    ((envelope_stack_monotone (df heap0 grid3 3 1 none) heap0 3 0 (by decide)
      (by decide!)).2.2 (by decide)).2⟩

/-! ## The distances do not depend on the closest points -/

theorem foldl_rel {α β γ : Type} (R : α → β → Prop) (f : α → γ → α) (g : β → γ → β)
    (h : ∀ a b c, R a b → R (f a c) (g b c)) :
    ∀ (l : List γ) (a : α) (b : β), R a b → R (l.foldl f a) (l.foldl g b) := by
  intro l
  induction l with
  | nil => intro a b hab; exact hab
  | cons c l ih => intro a b hab; exact ih _ _ (h a b c hab)

theorem relax_distances_congr (s s2 : Field) (i j : ℕ) (h : s.distances = s2.distances) :
    (relax s i j).distances = (relax s2 i j).distances := by
  funext k
  rw [relax_distances, relax_distances, h]

theorem column_phase_distances_congr (nx ny : ℕ) (s s2 : Field)
    (h : s.distances = s2.distances) :
    (column_phase nx ny s).distances = (column_phase nx ny s2).distances := by
  unfold column_phase
  apply foldl_rel (fun a b : Field => a.distances = b.distances) _ _ _ _ _ _ h
  intro a b x1 hab
  unfold sweep_up sweep_down
  apply foldl_rel (fun a b : Field => a.distances = b.distances)
  · intro a b y hab; exact relax_distances_congr a b _ _ hab
  · apply foldl_rel (fun a b : Field => a.distances = b.distances) _ _ _ _ _ _ hab
    intro a b y hab; exact relax_distances_congr a b _ _ hab

theorem fill_row_distances_congr (s s2 : Field) (nx y : ℕ) (px : ℕ → ℕ) (xi : ℕ → CFloat)
    (f f2 : Fill) (h : s.distances = s2.distances) (hn : f.n = f2.n)
    (ht : f.temp_row_distances = f2.temp_row_distances) :
    (fill_row s nx y px xi f).n = (fill_row s2 nx y px xi f2).n ∧
    (fill_row s nx y px xi f).temp_row_distances =
      (fill_row s2 nx y px xi f2).temp_row_distances := by
  unfold fill_row
  apply foldl_rel (fun a b : Fill => a.n = b.n ∧ a.temp_row_distances = b.temp_row_distances)
    _ _ _ _ _ _ ⟨hn, ht⟩
  intro a b x1 hab
  unfold fill_step
  simp only [hab.1, hab.2, h, and_self]

theorem copy_back_distances_congr (nx y : ℕ) (tr : ℕ → CFloat) (tc tc2 : ℕ → df_point)
    (s s2 : Field) (h : s.distances = s2.distances) :
    (copy_back nx y tr tc s).distances = (copy_back nx y tr tc2 s2).distances := by
  unfold copy_back
  apply foldl_rel (fun a b : Field => a.distances = b.distances) _ _ _ _ _ _ h
  intro a b x1 hab
  simp only [hab]

theorem row_step_distances_congr (nx : ℕ) (st st2 : Field × Scratch) (y : ℕ)
    (h : DistEq st st2) : DistEq (row_step nx st y) (row_step nx st2 y) := by
  obtain ⟨h1, h2, h3, h4⟩ := h
  unfold row_step
  simp only [h1, h2, h3]
  have hf := fill_row_distances_congr st.1 st2.1 nx y
    (build_envelope st2.1.distances nx y (seed_search st2.1.distances nx y nx 0)
      ⟨0, Function.update st2.2.parabola_x 0
        (if seed_search st2.1.distances nx y nx 0 < nx
          then seed_search st2.1.distances nx y nx 0 else 0), st2.2.x_intersections⟩).parabola_x
    (build_envelope st2.1.distances nx y (seed_search st2.1.distances nx y nx 0)
      ⟨0, Function.update st2.2.parabola_x 0
        (if seed_search st2.1.distances nx y nx 0 < nx
          then seed_search st2.1.distances nx y nx 0 else 0),
        st2.2.x_intersections⟩).x_intersections
    ⟨(build_envelope st2.1.distances nx y (seed_search st2.1.distances nx y nx 0)
      ⟨0, Function.update st2.2.parabola_x 0
        (if seed_search st2.1.distances nx y nx 0 < nx
          then seed_search st2.1.distances nx y nx 0 else 0), st2.2.x_intersections⟩).n,
      st.2.temp_row_distances, st.2.temp_closest⟩
    ⟨(build_envelope st2.1.distances nx y (seed_search st2.1.distances nx y nx 0)
      ⟨0, Function.update st2.2.parabola_x 0
        (if seed_search st2.1.distances nx y nx 0 < nx
          then seed_search st2.1.distances nx y nx 0 else 0), st2.2.x_intersections⟩).n,
      st2.2.temp_row_distances, st2.2.temp_closest⟩ h1 rfl h4
  refine ⟨?_, rfl, rfl, hf.2⟩
  show (copy_back _ _ _ _ _).distances = (copy_back _ _ _ _ _).distances
  rw [hf.2]
  exact copy_back_distances_congr nx y _ _ _ _ _ h1

/-- The distances that `df` produces with a closest-point map equal the ones it
produces with `NULL`. -/
theorem df_distances_congr (heap : Scratch) (d : ℕ → CFloat) (nx ny : ℕ)
    (c c2 : Option (ℕ → df_point)) :
    (df heap d nx ny c).distances = (df heap d nx ny c2).distances := by
  unfold df row_phase
  simp only []
  have h0 : DistEq (column_phase nx ny ⟨d, c.map (init_closest nx ny)⟩, heap)
      (column_phase nx ny ⟨d, c2.map (init_closest nx ny)⟩, heap) :=
    ⟨column_phase_distances_congr nx ny _ _ rfl, rfl, rfl, rfl⟩
  exact (foldl_rel DistEq (row_step nx) (row_step nx)
    (fun a b y hab => row_step_distances_congr nx a b y hab) _ _ _ h0).1

/-! ## The accesses of the row phase stay in bounds -/

theorem push_agree (d : ℕ → CFloat) (nx y x1 : ℕ) (dy1 : CFloat) (n : ℕ) (px px2 : ℕ → ℕ)
    (xi xi2 : ℕ → CFloat) (hpx : ∀ k ≤ n, px k = px2 k) (hxi : ∀ k < n, xi k = xi2 k) :
    StackAgree (push d nx y x1 dy1 ⟨n, px, xi⟩) (push d nx y x1 dy1 ⟨n, px2, xi2⟩) := by
  refine ⟨rfl, ?_, ?_⟩
  · intro k hk
    have hk2 : k ≤ n + 1 := hk
    show Function.update px (n + 1) x1 k = Function.update px2 (n + 1) x1 k
    rcases Nat.lt_or_ge k (n + 1) with h | h
    · rw [Function.update_noteq (by omega), Function.update_noteq (by omega)]
      exact hpx k (by omega)
    · have : k = n + 1 := by omega
      subst this; rw [Function.update_same, Function.update_same]
  · intro k hk
    have hk2 : k < n + 1 := hk
    unfold push
    simp only []
    rcases Nat.lt_or_ge k n with h | h
    · rw [Function.update_noteq (by omega), Function.update_noteq (by omega)]
      exact hxi k h
    · have : k = n := by omega
      subst this
      rw [Function.update_same, Function.update_same, hpx k le_rfl]

theorem insert_parabola_agree (d : ℕ → CFloat) (nx y x1 : ℕ) (dy1 : CFloat) (px px2 : ℕ → ℕ)
    (xi xi2 : ℕ → CFloat) :
    ∀ n, (∀ k ≤ n, px k = px2 k) → (∀ k < n, xi k = xi2 k) →
      StackAgree (insert_parabola d nx y x1 dy1 px xi n)
        (insert_parabola d nx y x1 dy1 px2 xi2 n) := by
  intro n
  induction n with
  | zero =>
    intro hpx hxi
    exact push_agree d nx y x1 dy1 0 px px2 xi xi2 hpx hxi
  | succ n ih =>
    intro hpx hxi
    rw [insert_parabola, insert_parabola, ← hpx (n + 1) le_rfl, ← hxi n (by omega)]
    split_ifs
    · exact ih (fun k hk => hpx k (by omega)) (fun k hk => hxi k (by omega))
    · exact push_agree d nx y x1 dy1 (n + 1) px px2 xi xi2 hpx hxi

theorem build_envelope_agree (d : ℕ → CFloat) (nx y first : ℕ) (a b : Stack)
    (h : StackAgree a b) :
    StackAgree (build_envelope d nx y first a) (build_envelope d nx y first b) := by
  unfold build_envelope
  apply foldl_rel StackAgree _ _ _ _ _ _ h
  intro a b x1 hab
  simp only []
  split_ifs
  · exact hab
  · obtain ⟨h1, h2, h3⟩ := hab
    rw [← h1]
    exact insert_parabola_agree d nx y x1 _ _ _ _ _ a.n h2 h3

theorem next_parabola_agree (xi xi2 : ℕ → CFloat) (x1 : ℕ) :
    ∀ n, (∀ k < n, xi k = xi2 k) → next_parabola xi x1 n = next_parabola xi2 x1 n := by
  intro n
  induction n with
  | zero => intro _; rfl
  | succ n ih =>
    intro hxi
    rw [next_parabola, next_parabola, ← hxi n (by omega)]
    split_ifs
    · exact ih (fun k hk => hxi k (by omega))
    · rfl

theorem fill_row_agree (s : Field) (nx y N : ℕ) (px px2 : ℕ → ℕ) (xi xi2 : ℕ → CFloat)
    (hpx : ∀ k ≤ N, px k = px2 k) (hxi : ∀ k < N, xi k = xi2 k) :
    ∀ m : ℕ, ∀ f f2 : Fill, f.n = f2.n → f.n ≤ N →
      (∀ x, m ≤ x → x < nx → f.temp_row_distances x = f2.temp_row_distances x ∧
        (s.closest_points ≠ none → f.temp_closest x = f2.temp_closest x)) →
      ∀ x < nx,
        ((List.range m).reverse.foldl (fill_step s nx y px xi) f).temp_row_distances x =
          ((List.range m).reverse.foldl (fill_step s nx y px2 xi2) f2).temp_row_distances x ∧
        (s.closest_points ≠ none →
          ((List.range m).reverse.foldl (fill_step s nx y px xi) f).temp_closest x =
            ((List.range m).reverse.foldl (fill_step s nx y px2 xi2) f2).temp_closest x) := by
  intro m
  induction m with
  | zero =>
    intro f f2 _ _ h x hx
    exact h x (Nat.zero_le x) hx
  | succ m ih =>
    intro f f2 hn hN h x hx
    rw [foldl_range_reverse_succ, foldl_range_reverse_succ]
    have hnext : next_parabola xi m f.n = next_parabola xi2 m f2.n := by
      rw [← hn]
      exact next_parabola_agree xi xi2 m f.n (fun k hk => hxi k (by omega))
    have hle := next_parabola_le xi m f.n
    have hpxn : px (next_parabola xi m f.n) = px2 (next_parabola xi2 m f2.n) := by
      rw [← hnext]; exact hpx _ (by omega)
    apply ih (fill_step s nx y px xi f m) (fill_step s nx y px2 xi2 f2 m) hnext
      (by show next_parabola xi m f.n ≤ N; omega) _ x hx
    intro x2 hx2 hx2n
    rcases Nat.lt_or_ge m x2 with hlt | hge
    · rw [(fill_step_temp s nx y px xi f m x2 (by omega)).1,
        (fill_step_temp s nx y px xi f m x2 (by omega)).2,
        (fill_step_temp s nx y px2 xi2 f2 m x2 (by omega)).1,
        (fill_step_temp s nx y px2 xi2 f2 m x2 (by omega)).2]
      exact h x2 (by omega) hx2n
    · have hx2m : x2 = m := by omega
      subst hx2m
      constructor
      · rw [fill_step_temp_same, fill_step_temp_same, hpxn]
      · intro hsome
        unfold fill_step
        simp only []
        cases hc : s.closest_points with
        | none => exact absurd hc hsome
        | some c =>
          simp only [Function.update_same]
          rw [hpxn]

theorem copy_back_agree (nx y : ℕ) (tr tr2 : ℕ → CFloat) (tc tc2 : ℕ → df_point) (s : Field)
    (h : ∀ x < nx, tr x = tr2 x ∧ (s.closest_points ≠ none → tc x = tc2 x)) :
    copy_back nx y tr tc s = copy_back nx y tr2 tc2 s := by
  unfold copy_back
  have hgen : ∀ (l : List ℕ), (∀ x ∈ l, x < nx) → ∀ t : Field,
      (t.closest_points ≠ none → s.closest_points ≠ none) →
      l.foldl (fun s x1 =>
        ({ distances := Function.update s.distances (x1 + y * nx) (tr x1)
           closest_points := s.closest_points.map
            (fun cp => Function.update cp (x1 + y * nx) (tc x1)) } : Field)) t =
      l.foldl (fun s x1 =>
        ({ distances := Function.update s.distances (x1 + y * nx) (tr2 x1)
           closest_points := s.closest_points.map
            (fun cp => Function.update cp (x1 + y * nx) (tc2 x1)) } : Field)) t := by
    intro l
    induction l with
    | nil => intro _ t _; rfl
    | cons x l ih =>
      intro hl t ht
      simp only [List.foldl_cons]
      have hx := h x (hl x (List.mem_cons_self _ _))
      have hstep : (⟨Function.update t.distances (x + y * nx) (tr x),
            t.closest_points.map (fun cp => Function.update cp (x + y * nx) (tc x))⟩ : Field) =
          ⟨Function.update t.distances (x + y * nx) (tr2 x),
            t.closest_points.map (fun cp => Function.update cp (x + y * nx) (tc2 x))⟩ := by
        rw [hx.1]
        cases hc : t.closest_points with
        | none => rfl
        | some c =>
          have : tc x = tc2 x := hx.2 (ht (by rw [hc]; exact Option.some_ne_none c))
          rw [this]
      rw [hstep]
      apply ih (fun x2 hx2 => hl x2 (List.mem_cons_of_mem _ hx2))
      intro hne
      apply ht
      intro hnone
      apply hne
      show Option.map _ t.closest_points = none
      rw [hnone]; rfl
  exact hgen (List.range nx) (fun x hx => List.mem_range.1 hx) s (fun h => h)

/-- The grid and the closest points that a pass of the row loop leaves do not depend on
the contents of the scratch arrays. -/
theorem row_step_heap_irrelevant (nx : ℕ) (s : Field) (m m2 : Scratch) (y : ℕ) :
    (row_step nx (s, m) y).1 = (row_step nx (s, m2) y).1 := by
  unfold row_step
  simp only []
  set first := seed_search s.distances nx y nx 0 with hfirst
  have h0 : StackAgree
      (⟨0, Function.update m.parabola_x 0 (if first < nx then first else 0),
        m.x_intersections⟩ : Stack)
      ⟨0, Function.update m2.parabola_x 0 (if first < nx then first else 0),
        m2.x_intersections⟩ := by
    refine ⟨rfl, ?_, fun k hk => absurd hk (Nat.not_lt_zero k)⟩
    intro k hk
    have hk0 : k = 0 := Nat.le_zero.mp hk
    rw [hk0]
    show Function.update m.parabola_x 0 (if first < nx then first else 0) 0 =
      Function.update m2.parabola_x 0 (if first < nx then first else 0) 0
    rw [Function.update_same, Function.update_same]
  obtain ⟨e1, e2, e3⟩ := build_envelope_agree s.distances nx y first _ _ h0
  apply copy_back_agree
  intro x hx
  exact fill_row_agree s nx y _ _ _ _ _ e2 e3 nx _ _ e1 le_rfl
    (fun x2 h1 h2 => absurd h2 (by omega)) x hx

/-- The grid and the closest points that `df` returns do not depend on the contents of
the freshly allocated scratch arrays. -/
theorem df_heap_irrelevant (heap heap2 : Scratch) (d : ℕ → CFloat) (nx ny : ℕ)
    (closest_points : Option (ℕ → df_point)) :
    df heap d nx ny closest_points = df heap2 d nx ny closest_points := by
  unfold df row_phase
  simp only []
  refine foldl_rel (fun (a b : Field × Scratch) => a.1 = b.1) (row_step nx) (row_step nx) ?_
    (List.range ny) (_, heap) (_, heap2) rfl
  intro a b y hab
  obtain ⟨a1, a2⟩ := a
  obtain ⟨b1, b2⟩ := b
  simp only at hab
  subst hab
  exact row_step_heap_irrelevant nx a1 a2 b2 y

/-- C12. The closest-point argument does not influence the distances: for every input
grid and dimensions, the distance grid that `df` produces when `closest_points` is
`NULL` is the one it produces when a closest-point map is supplied, whatever the
initial contents of the map and of the scratch arrays of the two calls. -/
theorem df_closest_points_no_influence (heap heap2 : Scratch) (d : ℕ → CFloat) (nx ny : ℕ)
    (c : ℕ → df_point) :
    (df heap d nx ny none).distances = (df heap2 d nx ny (some c)).distances := by
  rw [df_heap_irrelevant heap heap2 d nx ny none]
  exact df_distances_congr heap2 d nx ny none (some c)

/-! ## The two entry points -/

theorem mapToDf_update (c : ℕ → sdf_point) (i : ℕ) (v : sdf_point) :
    mapToDf (Function.update c i v) = Function.update (mapToDf c) i v.toDf := by
  funext k
  unfold mapToDf
  by_cases h : k = i
  · subst h; simp
  · simp [Function.update_noteq h]

theorem sdf_init_closest_toDf (nx ny : ℕ) (c : ℕ → sdf_point) :
    mapToDf (sdf_init_closest nx ny c) = init_closest nx ny (mapToDf c) := by
  unfold sdf_init_closest init_closest
  apply foldl_rel (fun (a : ℕ → sdf_point) (b : ℕ → df_point) => mapToDf a = b) _ _ _ _ _ _ rfl
  intro a b y hab
  apply foldl_rel (fun (a : ℕ → sdf_point) (b : ℕ → df_point) => mapToDf a = b) _ _ _ _ _ _ hab
  intro a b x1 hab
  rw [mapToDf_update, hab]
  rfl

theorem sdf_relax_toDf (s : SdfField) (i j : ℕ) :
    (sdf_relax s i j).toDf = relax s.toDf i j := by
  unfold sdf_relax relax
  by_cases h : CFloat.gt (s.distances i) (CFloat.add (s.distances j) (fin 1)) = true
  · have h2 : CFloat.gt (s.toDf.distances i) (CFloat.add (s.toDf.distances j) (fin 1)) = true := h
    rw [if_pos h, if_pos h2]
    unfold SdfField.toDf
    cases s.closest_points with
    | none => rfl
    | some c =>
      simp only [Option.map_some', mapToDf_update]
      rfl
  · have h2 : ¬ CFloat.gt (s.toDf.distances i) (CFloat.add (s.toDf.distances j) (fin 1)) = true :=
      h
    rw [if_neg h, if_neg h2]

theorem sdf_column_phase_toDf (nx ny : ℕ) (s : SdfField) :
    (sdf_column_phase nx ny s).toDf = column_phase nx ny s.toDf := by
  unfold sdf_column_phase column_phase
  apply foldl_rel (fun (a : SdfField) (b : Field) => a.toDf = b) _ _ _ _ _ _ rfl
  intro a b x1 hab
  unfold sdf_sweep_up sweep_up sdf_sweep_down sweep_down
  apply foldl_rel (fun (a : SdfField) (b : Field) => a.toDf = b)
  · intro a b y hab; rw [sdf_relax_toDf, hab]
  · apply foldl_rel (fun (a : SdfField) (b : Field) => a.toDf = b) _ _ _ _ _ _ hab
    intro a b y hab; rw [sdf_relax_toDf, hab]

theorem sdf_seed_search_eq (d : ℕ → CFloat) (nx y : ℕ) (k x1 : ℕ) :
    sdf_seed_search d nx y k x1 = seed_search d nx y k x1 := by
  induction k generalizing x1 with
  | zero => rfl
  | succ k ih =>
    rw [sdf_seed_search, seed_search, ih]
    rfl

theorem sdf_insert_parabola_eq (d : ℕ → CFloat) (nx y x1 : ℕ) (dy1 : CFloat) (px : ℕ → ℕ)
    (xi : ℕ → CFloat) (n : ℕ) :
    sdf_insert_parabola d nx y x1 dy1 px xi n = insert_parabola d nx y x1 dy1 px xi n := by
  induction n with
  | zero => rfl
  | succ n ih =>
    rw [sdf_insert_parabola, insert_parabola, ih]
    rfl

theorem sdf_build_envelope_eq (d : ℕ → CFloat) (nx y first : ℕ) (s : Stack) :
    sdf_build_envelope d nx y first s = build_envelope d nx y first s := by
  unfold sdf_build_envelope build_envelope
  apply foldl_rel (fun (a b : Stack) => a = b) _ _ _ _ _ _ rfl
  intro a b x1 hab
  subst hab
  simp only [sdf_insert_parabola_eq]
  rfl

theorem sdf_fill_step_toDf (s : SdfField) (nx y : ℕ) (px : ℕ → ℕ) (xi : ℕ → CFloat)
    (f : SdfFill) (x1 : ℕ) :
    (sdf_fill_step s nx y px xi f x1).toDf = fill_step s.toDf nx y px xi f.toDf x1 := by
  unfold sdf_fill_step fill_step SdfFill.toDf SdfField.toDf
  cases s.closest_points with
  | none => rfl
  | some c =>
    simp only [Option.map_some', mapToDf_update]
    rfl

theorem sdf_fill_row_toDf (s : SdfField) (nx y : ℕ) (px : ℕ → ℕ) (xi : ℕ → CFloat)
    (f : SdfFill) :
    (sdf_fill_row s nx y px xi f).toDf = fill_row s.toDf nx y px xi f.toDf := by
  unfold sdf_fill_row fill_row
  apply foldl_rel (fun (a : SdfFill) (b : Fill) => a.toDf = b) _ _ _ _ _ _ rfl
  intro a b x1 hab
  rw [sdf_fill_step_toDf, hab]

theorem sdf_copy_back_toDf (nx y : ℕ) (tr : ℕ → CFloat) (tc : ℕ → sdf_point) (s : SdfField) :
    (sdf_copy_back nx y tr tc s).toDf = copy_back nx y tr (mapToDf tc) s.toDf := by
  unfold sdf_copy_back copy_back
  apply foldl_rel (fun (a : SdfField) (b : Field) => a.toDf = b) _ _ _ _ _ _ rfl
  intro a b x1 hab
  subst hab
  unfold SdfField.toDf
  cases a.closest_points with
  | none => rfl
  | some c =>
    simp only [Option.map_some', mapToDf_update]
    rfl

theorem sdf_row_step_toDf (nx : ℕ) (st : SdfField × SdfScratch) (y : ℕ) :
    ((sdf_row_step nx st y).1.toDf, (sdf_row_step nx st y).2.toDf) =
      row_step nx (st.1.toDf, st.2.toDf) y := by
  have hf := sdf_fill_row_toDf st.1 nx y
    (build_envelope st.1.distances nx y (seed_search st.1.distances nx y nx 0)
      ⟨0, Function.update st.2.parabola_x 0
        (if seed_search st.1.distances nx y nx 0 < nx
          then seed_search st.1.distances nx y nx 0 else 0), st.2.x_intersections⟩).parabola_x
    (build_envelope st.1.distances nx y (seed_search st.1.distances nx y nx 0)
      ⟨0, Function.update st.2.parabola_x 0
        (if seed_search st.1.distances nx y nx 0 < nx
          then seed_search st.1.distances nx y nx 0 else 0),
        st.2.x_intersections⟩).x_intersections
    ⟨(build_envelope st.1.distances nx y (seed_search st.1.distances nx y nx 0)
      ⟨0, Function.update st.2.parabola_x 0
        (if seed_search st.1.distances nx y nx 0 < nx
          then seed_search st.1.distances nx y nx 0 else 0), st.2.x_intersections⟩).n,
      st.2.temp_row_distances, st.2.temp_closest⟩
  unfold sdf_row_step row_step
  simp only [sdf_seed_search_eq, sdf_build_envelope_eq]
  rw [sdf_copy_back_toDf]
  unfold SdfScratch.toDf
  have hf1 := congrArg Fill.temp_row_distances hf
  have hf2 := congrArg Fill.temp_closest hf
  simp only [SdfFill.toDf] at hf1 hf2
  simp only [hf1, hf2]
  rfl

theorem sdf_row_phase_toDf (nx ny : ℕ) (st : SdfField × SdfScratch) :
    ((sdf_row_phase nx ny st).1.toDf, (sdf_row_phase nx ny st).2.toDf) =
      row_phase nx ny (st.1.toDf, st.2.toDf) := by
  unfold sdf_row_phase row_phase
  apply foldl_rel (fun (a : SdfField × SdfScratch) (b : Field × Scratch) =>
    (a.1.toDf, a.2.toDf) = b) _ _ _ _ _ _ rfl
  intro a b y hab
  rw [sdf_row_step_toDf, hab]

/-- The result of `sdf`, read with the points of `df`, is the result of `df`. -/
theorem sdf_toDf (heap : SdfScratch) (d : ℕ → CFloat) (nx ny : ℕ)
    (closest_points : Option (ℕ → sdf_point)) :
    (sdf heap d nx ny closest_points).toDf =
      df heap.toDf d nx ny (closest_points.map mapToDf) := by
  unfold sdf df
  simp only []
  have h0 : (⟨d, closest_points.map (sdf_init_closest nx ny)⟩ : SdfField).toDf =
      ⟨d, (closest_points.map mapToDf).map (init_closest nx ny)⟩ := by
    unfold SdfField.toDf
    cases closest_points with
    | none => rfl
    | some c => simp only [Option.map_some', sdf_init_closest_toDf]
  have h1 := sdf_row_phase_toDf nx ny
    (sdf_column_phase nx ny ⟨d, closest_points.map (sdf_init_closest nx ny)⟩, heap)
  rw [sdf_column_phase_toDf, h0] at h1
  exact congrArg Prod.fst h1

/-- C19. The two entry points are the same transform: for every grid, dimensions and
closest-point argument, and whatever the scratch arrays of the two calls hold, `sdf`
(`src/sdf.h`) produces the distance grid and the closest-point map that `df`
(`src/df.h`) produces, the points of the one struct read as points of the other; in
particular the distances of `sdf` are the unsigned squared distances of `df`, and on a
well-formed grid none of them is negative. -/
theorem sdf_same_as_df (heap : SdfScratch) (heap2 : Scratch) (d : ℕ → CFloat) (nx ny : ℕ)
    (closest_points : Option (ℕ → sdf_point)) :
    (sdf heap d nx ny closest_points).distances =
      (df heap2 d nx ny (closest_points.map mapToDf)).distances ∧
    (sdf heap d nx ny closest_points).closest_points.map mapToDf =
      (df heap2 d nx ny (closest_points.map mapToDf)).closest_points ∧
    (Valid d nx ny → ∀ x < nx, ∀ y < ny,
      CFloat.lt ((sdf heap d nx ny closest_points).distances (x + y * nx)) (fin 0) = false) := by
  have h : (sdf heap d nx ny closest_points).toDf =
      df heap2 d nx ny (closest_points.map mapToDf) :=
    (sdf_toDf heap d nx ny closest_points).trans
      (df_heap_irrelevant heap.toDf heap2 d nx ny (closest_points.map mapToDf))
  have h1 : (sdf heap d nx ny closest_points).distances =
      (df heap2 d nx ny (closest_points.map mapToDf)).distances :=
    congrArg Field.distances h
  refine ⟨h1, congrArg Field.closest_points h, ?_⟩
  intro hvalid x hx y hy
  rw [h1]
  exact nonnegOrInf_not_neg (df_valid _ d nx ny _ hvalid x hx y hy)

/-- Witness of C19: the 3x2 grid `gridA` with a closest-point map, whose cell `(2, 1)`
ends at 4 in `sdf` as in `df`. -/
theorem sdf_same_as_df_witness :
    Valid gridA 3 2 ∧
    (sdf sheap0 gridA 3 2 (some scp0)).distances (2 + 1 * 3) = fin 4 ∧
    (df heap0 gridA 3 2 (some cp0)).distances (2 + 1 * 3) = fin 4 ∧
    (sdf sheap0 gridA 3 2 (some scp0)).distances =
      (df heap0 gridA 3 2 ((some scp0).map mapToDf)).distances ∧
    (sdf sheap0 gridA 3 2 (some scp0)).closest_points.map mapToDf =
      (df heap0 gridA 3 2 ((some scp0).map mapToDf)).closest_points ∧
    (Valid gridA 3 2 → ∀ x < 3, ∀ y < 2,
      CFloat.lt ((sdf sheap0 gridA 3 2 (some scp0)).distances (x + y * 3)) (fin 0) = false) :=
  ⟨by decide!, by decide!, by decide!, sdf_same_as_df sheap0 heap0 gridA 3 2 (some scp0)⟩

end DF
